import Mathlib

/-!
# MC2TexPatch: texture repair (fix_dxt.cpp, fix_block.cpp, dat_proc.cpp)

A shallow embedding of the texture repairer and of the DXT5 block repairer.

Conventions of the embedding
* `std::uint16_t` / `std::uint32_t` values are natural numbers; every place
  where the C++ arithmetic can leave the type's range carries an explicit
  reduction modulo the width.
* `int` values (colour components, weights, errors) are integers, `/` on
  `int` is C++ truncating division (`Int.tdiv`).
* a texture (`std::vector<char>`) is a list of bytes, a byte is `Fin 256`;
  multi-byte fields are little-endian, as on the platforms the tool targets.
* a thrown `mc2_exception` is an `Except.error`.
-/

namespace MC2TexPatch

/-! ## Exceptions (mc2_exception.hpp) -/

/-- The messages with which `fix_dxt.cpp`, `fix_block.cpp` and `dat_proc.cpp`
throw an `mc2_exception`. -/
inductive mc2_exception where
  /-- Thrown with "Texture file not large enough". -/
  | texture_not_large_enough
  /-- Thrown with "Overwritten past beginning of texture". -/
  | overwritten_past_beginning
  /-- Thrown with "Unexpected Non-Power-of-Two Texture". -/
  | unexpected_non_power_of_two
  /-- Thrown with "Texture contains no valid MipMap Levels". -/
  | no_valid_mipmap_levels
  /-- Thrown with "Texture file an invalid size". -/
  | invalid_size
  /-- Thrown with "Texture file is not as large as expected". -/
  | not_as_large_as_expected
  /-- Thrown with "Invalid DXT5 color encoding". -/
  | invalid_color_encoding
  /-- Thrown with "Invalid Delta Encoding in Base64 DAT". -/
  | invalid_delta_encoding
  /-- Thrown with "Invalid Character in Name for Base64 DAT". -/
  | invalid_character
  deriving DecidableEq, Repr

/-! ## Colours (fix_block.cpp, lines 11-46) -/

/-- The template `clamp(v, lo, hi)`. -/
def clamp (v lo hi : Int) : Int := if v < lo then lo else if hi < v then hi else v

/-- The struct `color`: three `int` components. -/
structure color where
  r : Int
  g : Int
  b : Int
  deriving DecidableEq, Repr

/-- The method `color::isValid`. -/
def color.isValid (c : color) : Bool :=
  decide (c.r ≥ 0) && decide (c.r < 0x20) && decide (c.g ≥ 0) && decide (c.g < 0x40)
    && decide (c.b ≥ 0) && decide (c.b < 0x20)

/-- The method `color::clamp`. -/
def color.clamp (c : color) : color :=
  ⟨MC2TexPatch.clamp c.r 0 0x1F, MC2TexPatch.clamp c.g 0 0x3F, MC2TexPatch.clamp c.b 0 0x1F⟩

/-- The function `color::mix`: apply `t` component-wise. -/
def color.mix (a b : color) (t : Int → Int → Int) : color :=
  ⟨t a.r b.r, t a.g b.g, t a.b b.b⟩

/-- The function `color::complex`: apply `t` component-wise to three colours. -/
def color.complex (cs0 cs1 x : color) (t : Int → Int → Int → Int) : color :=
  ⟨t cs0.r cs1.r x.r, t cs0.g cs1.g x.g, t cs0.b cs1.b x.b⟩

/-- The function `color::from16`: unpack RGB-565. -/
def color.from16 (c : Nat) : color :=
  ⟨(((c >>> 11) &&& 0x1F : Nat) : Int), (((c >>> 5) &&& 0x3F : Nat) : Int),
    (((c >>> 0) &&& 0x1F : Nat) : Int)⟩

/-- The method `color::to16`: pack RGB-565. On a two's complement `int`,
`x & 0x1F` is the non-negative remainder of `x` modulo 32. -/
def color.to16 (c : color) : Nat :=
  (((c.r % 0x20).toNat <<< 11) ||| ((c.g % 0x40).toNat <<< 5) ||| ((c.b % 0x20).toNat <<< 0))
    % 2 ^ 16

/-- The struct `dxt5_chunk` of fix_dxt.hpp: `alpha` holds the eight bytes
`as[2]`, `ax[6]`; `cs0`, `cs1` are `uint16_t`, `cv` is `uint32_t`. -/
structure dxt5_chunk where
  alpha : List (Fin 256)
  cs0 : Nat
  cs1 : Nat
  cv : Nat
  deriving DecidableEq, Repr

/-- The method `dxt5_chunk::getColors`. -/
def dxt5_chunk.getColors (c : dxt5_chunk) : color × color :=
  (color.from16 c.cs0, color.from16 c.cs1)

/-- The method `dxt5_chunk::setColors`. -/
def dxt5_chunk.setColors (c : dxt5_chunk) (cs : color × color) : dxt5_chunk :=
  { c with cs0 := cs.1.to16, cs1 := cs.2.to16 }

/-- Mixer `mixer::h0`. -/
def mixer.h0 (a1 _a2 : color) : color := ⟨6 * a1.r, 6 * a1.g, 6 * a1.b⟩
/-- Mixer `mixer::h1`. -/
def mixer.h1 (_a1 a2 : color) : color := ⟨6 * a2.r, 6 * a2.g, 6 * a2.b⟩
/-- Mixer `mixer::h2`. -/
def mixer.h2 (a1 a2 : color) : color :=
  ⟨3 * a1.r + 3 * a2.r, 3 * a1.g + 3 * a2.g, 3 * a1.b + 3 * a2.b⟩
/-- Mixer `mixer::t0`. -/
def mixer.t0 (b1 _b2 : color) : color := ⟨6 * b1.r, 6 * b1.g, 6 * b1.b⟩
/-- Mixer `mixer::t1`. -/
def mixer.t1 (_b1 b2 : color) : color := ⟨6 * b2.r, 6 * b2.g, 6 * b2.b⟩
/-- Mixer `mixer::t2`. -/
def mixer.t2 (b1 b2 : color) : color :=
  ⟨4 * b1.r + 2 * b2.r, 4 * b1.g + 2 * b2.g, 4 * b1.b + 2 * b2.b⟩
/-- Mixer `mixer::t3`. -/
def mixer.t3 (b1 b2 : color) : color :=
  ⟨2 * b1.r + 4 * b2.r, 2 * b1.g + 4 * b2.g, 2 * b1.b + 4 * b2.b⟩

/-! ## Errors and candidate evaluation (fix_block.cpp, lines 48-121) -/

/-- The function `single_error2`. -/
def single_error2 (x y : color) : Int :=
  let r := y.r - x.r
  let g := y.g - x.g
  let b := y.b - x.b
  2 * r * r + g * g + 3 * b * b

/-- The type `std::array<std::int_fast8_t, 4>` of index counts. -/
structure weights where
  w0 : Int
  w1 : Int
  w2 : Int
  w3 : Int
  deriving DecidableEq, Repr

/-- The function `total_error2`. -/
def total_error2 (w : weights) (e0 e1 e2 : Int) : Int := w.w0 * e0 + w.w1 * e1 + w.w2 * e2

/-- The function `total_error2_p2`. -/
def total_error2_p2 (w2 : Int) (e0 e2 : Int) : Int := (16 - w2) * e0 + w2 * e2

/-- The struct `pre_eval_p2`. -/
structure pre_eval_p2 where
  w2 : Int
  h0 : color
  h2 : color

/-- The constructor `pre_eval_p2(w2, a1, a2)`. -/
def pre_eval_p2.make (w2 : Int) (a1 a2 : color) : pre_eval_p2 :=
  ⟨w2, mixer.h0 a1 a2, mixer.h2 a1 a2⟩

/-- The struct `pre_eval_p3`. -/
structure pre_eval_p3 where
  w : weights
  h0 : color
  h1 : color
  h2 : color

/-- The constructor `pre_eval_p3(w, a1, a2)`. -/
def pre_eval_p3.make (w : weights) (a1 a2 : color) : pre_eval_p3 :=
  ⟨w, mixer.h0 a1 a2, mixer.h1 a1 a2, mixer.h2 a1 a2⟩

/-- The method `pre_eval_p3::invert`: `{ w, h1, h0, h2 }`. -/
def pre_eval_p3.invert (p : pre_eval_p3) : pre_eval_p3 := ⟨p.w, p.h1, p.h0, p.h2⟩

/-- The value `std::numeric_limits<std::int_fast32_t>::max()` (LP64: `long`). -/
def int_fast32_max : Int := 2 ^ 63 - 1

/-- The three-bucket overload of `eval::error2`. -/
def eval.error2_p3 (b1 b2 : color) (pre : pre_eval_p3) (x0 x1 x2 : color → color → color) : Int :=
  total_error2 pre.w
    (single_error2 (x0 b1 b2) pre.h0)
    (single_error2 (x1 b1 b2) pre.h1)
    (single_error2 (x2 b1 b2) pre.h2)

/-- The two-bucket overload of `eval::error2`. -/
def eval.error2_p2 (b1 b2 : color) (pre : pre_eval_p2) (x0 x2 : color → color → color) : Int :=
  if !b1.isValid || !b2.isValid then int_fast32_max
  else total_error2_p2 pre.w2
    (single_error2 (x0 b1 b2) pre.h0)
    (single_error2 (x2 b1 b2) pre.h2)

/-- The struct `eval`: a candidate with its score. -/
structure eval where
  b1 : color
  b2 : color
  cv : Nat
  err2 : Int
  deriving DecidableEq, Repr

/-- The three-bucket constructor of `eval`. -/
def eval.make3 (b : color × color) (cv : Nat) (pre : pre_eval_p3)
    (x0 x1 x2 : color → color → color) : eval :=
  ⟨b.1, b.2, cv, eval.error2_p3 b.1 b.2 pre x0 x1 x2⟩

/-- The two-bucket constructor of `eval`. -/
def eval.make2 (b1 b2 : color) (cv : Nat) (pre : pre_eval_p2)
    (x0 x1 : color → color → color) : eval :=
  ⟨b1, b2, cv, eval.error2_p2 b1 b2 pre x0 x1⟩

/-- The function `eval::compare_err`. -/
def eval.compare_err (a b : eval) : Bool := decide (a.err2 < b.err2)

/-- The call `std::min({first, rest...}, comp)`: a left-to-right scan that
replaces the current smallest only by a strictly smaller element. -/
def std_min {α : Type} (comp : α → α → Bool) (first : α) (rest : List α) : α :=
  rest.foldl (fun smallest x => if comp x smallest then x else smallest) first

/-- The function `invertCs`. -/
def invertCs (w : weights) : weights := ⟨w.w1, w.w0, w.w2, w.w3⟩

/-- The three-argument `rdiv(Num, Den, DenH)`. -/
def rdiv3 (Num Den DenH : Int) : Int := (Num + DenH).tdiv Den

/-- The two-argument `rdiv(Num, Den)`. -/
def rdiv (Num Den : Int) : Int := (Num + Den.tdiv 2).tdiv Den

/-! ## Candidate endpoints (fix_block.cpp, lines 123-170) -/

/-- The function `iiix`. -/
def iiix (cs0 cs1 : color) (w : weights) : color × color :=
  let b := color.mix cs0 cs1 (fun a b => b + (b - a).tdiv 2)
  if b.isValid then (cs0, b)
  else
    let b := b.clamp
    let a := color.complex cs0 cs1 b (fun a1 a2 x =>
      rdiv (3 * (3 * w.w0 + w.w2) * a1 + 3 * (w.w1 + w.w2) * a2 - 2 * (w.w1 + w.w2) * x)
        (9 * w.w0 + w.w1 + 4 * w.w2))
    (a, b)

/-- The class `iixi_store`. -/
structure iixi_store where
  w0w1 : Int
  w0w2 : Int
  w1w2 : Int
  K : Int
  Kh : Int

/-- The private constructor `iixi_store(w0w1, w0w2, w1w2)`. -/
def iixi_store.of_products (w0w1 w0w2 w1w2 : Int) : iixi_store :=
  ⟨w0w1, w0w2, w1w2, 18 * w0w1 + 2 * w0w2 + 8 * w1w2, (18 * w0w1 + 2 * w0w2 + 8 * w1w2).tdiv 2⟩

/-- The public constructor `iixi_store(w)`. -/
def iixi_store.make (w : weights) : iixi_store :=
  ⟨w.w0 * w.w1, w.w0 * w.w2, w.w1 * w.w2,
    18 * (w.w0 * w.w1) + 2 * (w.w0 * w.w2) + 8 * (w.w1 * w.w2),
    (18 * (w.w0 * w.w1) + 2 * (w.w0 * w.w2) + 8 * (w.w1 * w.w2)).tdiv 2⟩

/-- The method `iixi_store::invert`. -/
def iixi_store.invert (s : iixi_store) : iixi_store :=
  iixi_store.of_products s.w0w1 s.w1w2 s.w0w2

/-- The function `iixi`. -/
def iixi (cs0 cs1 : color) (w : weights) (s : iixi_store) : color × color :=
  let b := color.mix cs0 cs1 (fun a1 a2 => rdiv3 (s.K * a2 + s.w0w2 * (a2 - a1)) s.K s.Kh)
  if b.isValid then
    let a := color.mix cs0 cs1 (fun a1 a2 => rdiv3 (s.K * a1 + 2 * s.w1w2 * (a2 - a1)) s.K s.Kh)
    (a, b)
  else
    let b := b.clamp
    let a := color.complex cs0 cs1 b (fun a1 a2 x =>
      rdiv (9 * w.w0 * a1 + 3 * w.w2 * (a1 + a2) - 2 * w.w2 * x) (9 * w.w0 + 4 * w.w2))
    (a, b)

/-! ## The three handlers (fix_block.cpp, lines 172-221) -/

/-- The function `handle1` (squeeze method); returns the new `(cs0, cs1, cv)`. -/
def handle1 (cs0 cs1 : color) (cv : Nat) : color × color × Nat :=
  let lower := color.mix cs0 cs1 (fun a b => (a + b).tdiv 2)
  let upper := color.mix cs0 cs1 (fun a b => (a + b + 1).tdiv 2)
  (upper, lower, cv)

/-- The rewritten `cv` of candidate ixxi: `cv >> 1`. -/
def cv_ixxi (cv : Nat) : Nat := cv >>> 1
/-- The rewritten `cv` of candidate ixix: `cv | (cv >> 1)`. -/
def cv_ixix (cv : Nat) : Nat := cv ||| (cv >>> 1)
/-- The rewritten `cv` of candidate xiix: `(cv >> 1) | 0xAAAAAAAA`. -/
def cv_xiix (cv : Nat) : Nat := (cv >>> 1) ||| 0xAAAAAAAA
/-- The rewritten `cv` of candidate iiix: `cv | ((cv << 1) & 0xAAAAAAAA)`; the
shift is a `uint32_t` shift. -/
def cv_iiix (cv : Nat) : Nat := cv ||| (((cv <<< 1) % 2 ^ 32) &&& 0xAAAAAAAA)
/-- The rewritten `cv` of candidate xiii:
`(cv ^ 0x55555555) | ((cv << 1) & 0xAAAAAAAA)`. -/
def cv_xiii (cv : Nat) : Nat := (cv ^^^ 0x55555555) ||| (((cv <<< 1) % 2 ^ 32) &&& 0xAAAAAAAA)
/-- The rewritten `cv` of candidate iixi: `cv`. -/
def cv_iixi (cv : Nat) : Nat := cv
/-- The rewritten `cv` of candidate ixii: `cv ^ 0x55555555`. -/
def cv_ixii (cv : Nat) : Nat := cv ^^^ 0x55555555

/-- Candidate ixxi of `handle2`. -/
def cand_ixxi (cs0 cs1 : color) (cv : Nat) (pre : pre_eval_p2) : eval :=
  eval.make2 cs0 (color.mix cs0 cs1 (fun a b => (b + a).tdiv 2)) (cv_ixxi cv) pre mixer.t0 mixer.t1
/-- Candidate ixix of `handle2`. -/
def cand_ixix (cs0 cs1 : color) (cv : Nat) (pre : pre_eval_p2) : eval :=
  eval.make2 cs0 (color.mix cs0 cs1 (fun a b => (3 * b + a + 1).tdiv 4)) (cv_ixix cv) pre
    mixer.t0 mixer.t3
/-- Candidate xiix of `handle2`. -/
def cand_xiix (cs0 cs1 : color) (cv : Nat) (pre : pre_eval_p2) : eval :=
  eval.make2 (color.mix cs0 cs1 (fun a b => a - (b - a).tdiv 2)) cs1 (cv_xiix cv) pre
    mixer.t2 mixer.t3

/-- The function `handle2`; returns the new `(cs0, cs1, cv)`. -/
def handle2 (cs0 cs1 : color) (cv : Nat) (w2 : Int) : color × color × Nat :=
  let x := color.mix cs0 cs1 (fun a b => b + (b - a).tdiv 2)
  if x.isValid then (cs0, x, cv)
  else
    let pre := pre_eval_p2.make w2 cs0 cs1
    let best := std_min eval.compare_err (cand_ixxi cs0 cs1 cv pre)
      [cand_ixix cs0 cs1 cv pre, cand_xiix cs0 cs1 cv pre]
    (best.b1, best.b2, best.cv)

/-- Candidate iiix of `handle3`. -/
def cand_iiix (cs0 cs1 : color) (cv : Nat) (w : weights) : eval :=
  eval.make3 (iiix cs0 cs1 w) (cv_iiix cv) (pre_eval_p3.make w cs0 cs1)
    mixer.t0 mixer.t3 mixer.t2
/-- Candidate xiii of `handle3`. -/
def cand_xiii (cs0 cs1 : color) (cv : Nat) (w : weights) : eval :=
  eval.make3 (iiix cs1 cs0 (invertCs w)) (cv_xiii cv) (pre_eval_p3.make w cs0 cs1).invert
    mixer.t2 mixer.t1 mixer.t3
/-- Candidate iixi of `handle3`. -/
def cand_iixi (cs0 cs1 : color) (cv : Nat) (w : weights) : eval :=
  eval.make3 (iixi cs0 cs1 w (iixi_store.make w)) (cv_iixi cv) (pre_eval_p3.make w cs0 cs1)
    mixer.t0 mixer.t1 mixer.t2
/-- Candidate ixii of `handle3`. -/
def cand_ixii (cs0 cs1 : color) (cv : Nat) (w : weights) : eval :=
  eval.make3 (iixi cs1 cs0 (invertCs w) (iixi_store.make w).invert) (cv_ixii cv)
    (pre_eval_p3.make w cs0 cs1).invert mixer.t0 mixer.t1 mixer.t3

/-- The function `handle3`; returns the new `(cs0, cs1, cv)`. -/
def handle3 (cs0 cs1 : color) (cv : Nat) (w : weights) : color × color × Nat :=
  let best := std_min eval.compare_err (cand_iiix cs0 cs1 cv w)
    [cand_xiii cs0 cs1 cv w, cand_iixi cs0 cs1 cv w, cand_ixii cs0 cs1 cv w]
  (best.b1, best.b2, best.cv)

/-! ## The block repairer (fix_block.cpp, lines 223-251) -/

/-- The two-bit index of texel `i`: `(cv >> (i * 2)) & 0x3`. -/
def texel (cv i : Nat) : Nat := (cv >>> (i * 2)) &&& 0x3

/-- The statement `++dist[j]`. -/
def weights.incr (d : weights) (j : Nat) : weights :=
  match j with
  | 0 => { d with w0 := d.w0 + 1 }
  | 1 => { d with w1 := d.w1 + 1 }
  | 2 => { d with w2 := d.w2 + 1 }
  | _ => { d with w3 := d.w3 + 1 }

/-- The counting loop of `fix_block`: `dist[j]` is the number of texels of index `j`. -/
def dist (cv : Nat) : weights :=
  (List.range 16).foldl (fun d i => d.incr (texel cv i)) ⟨0, 0, 0, 0⟩

/-- The bucket count `(dist[0] != 0) + (dist[1] != 0) + (dist[2] != 0)`. -/
def count (d : weights) : Nat :=
  (if d.w0 ≠ 0 then 1 else 0) + (if d.w1 ≠ 0 then 1 else 0) + (if d.w2 ≠ 0 then 1 else 0)

/-- The function `fix_block`. -/
def fix_block (chunk : dxt5_chunk) : Except mc2_exception dxt5_chunk :=
  let d := dist chunk.cv
  if d.w3 ≠ 0 then .error .invalid_color_encoding
  else
    let cs := chunk.getColors
    match count d with
    | 1 =>
      let (c0, c1, cv) := handle1 cs.1 cs.2 chunk.cv
      .ok ({ chunk with cv := cv }.setColors (c0, c1))
    | 2 =>
      let cs := if d.w0 = 0 then (cs.2, cs.1) else cs
      let cv := if d.w0 = 0 then chunk.cv &&& 0xAAAAAAAA else chunk.cv
      let (c0, c1, cv) := handle2 cs.1 cs.2 cv d.w2
      .ok ({ chunk with cv := cv }.setColors (c0, c1))
    | 3 =>
      let (c0, c1, cv) := handle3 cs.1 cs.2 chunk.cv d
      .ok ({ chunk with cv := cv }.setColors (c0, c1))
    | _ => .error .invalid_color_encoding

/-! ## Per-block canonicalisation (fix_dxt.cpp, lines 22-40 and 99-124) -/

/-- The function `clean`: the canonicalised chunk and the returned flag. -/
def clean (chunk : dxt5_chunk) : dxt5_chunk × Bool :=
  if chunk.cs0 < chunk.cs1 then
    ({ chunk with cs0 := chunk.cs1, cs1 := chunk.cs0, cv := chunk.cv ^^^ 0x55555555 }, true)
  else if chunk.cs0 = chunk.cs1 then
    if chunk.cs0 = 0 then ({ chunk with cs0 := 1, cv := 0x55555555 }, true)
    else ({ chunk with cs1 := 0, cv := 0x00000000 }, true)
  else (chunk, false)

/-- The body of the inner loop of `fix_dxt` between the read of a chunk and its
write-back: the chunk to keep and whether it is written back (and the texture
marked dirty). -/
def fix_chunk (chunk : dxt5_chunk) : Except mc2_exception (dxt5_chunk × Bool) :=
  if chunk.cs0 < chunk.cs1 then
    if chunk.cv &&& 0xAAAAAAAA = 0 then
      .ok ({ chunk with cs0 := chunk.cs1, cs1 := chunk.cs0, cv := chunk.cv ^^^ 0x55555555 }, true)
    else
      match fix_block chunk with
      | .error e => .error e
      | .ok fixed => .ok ((clean fixed).1, true)
  else if chunk.cs0 = chunk.cs1 then
    if chunk.cs0 = 0 then .ok ({ chunk with cs0 := 1, cv := 0x55555555 }, true)
    else .ok ({ chunk with cs1 := 0, cv := 0x00000000 }, true)
  else .ok (chunk, false)

/-! ## Texture payloads (fix_dxt.hpp, fix_dxt.cpp lines 6-20) -/

/-- A little-endian `uint16_t` at offset `i` of `bs`. -/
def get_u16 (bs : List (Fin 256)) (i : Nat) : Nat :=
  (bs.getD i 0).val + 256 * (bs.getD (i + 1) 0).val

/-- A little-endian `uint32_t` at offset `i` of `bs`. -/
def get_u32 (bs : List (Fin 256)) (i : Nat) : Nat :=
  (bs.getD i 0).val + 256 * (bs.getD (i + 1) 0).val + 65536 * (bs.getD (i + 2) 0).val
    + 16777216 * (bs.getD (i + 3) 0).val

/-- The two bytes of a `uint16_t`, little-endian. -/
def put_u16 (v : Nat) : List (Fin 256) := [Fin.ofNat v, Fin.ofNat (v / 256)]

/-- The four bytes of a `uint32_t`, little-endian. -/
def put_u32 (v : Nat) : List (Fin 256) :=
  [Fin.ofNat v, Fin.ofNat (v / 256), Fin.ofNat (v / 65536), Fin.ofNat (v / 16777216)]

/-- The struct `tex_header`: seven `uint16_t` fields. -/
structure tex_header where
  width : Nat
  height : Nat
  type : Nat
  mmaps : Nat
  u1 : Nat
  u2 : Nat
  u3 : Nat
  deriving DecidableEq, Repr

/-- The value `sizeof(tex_header)`. -/
def sizeof_tex_header : Nat := 14

/-- The value `sizeof(dxt5_chunk)`. -/
def sizeof_dxt5_chunk : Nat := 16

/-- The object representation of a `tex_header` read from `bs`. -/
def tex_header.decode (bs : List (Fin 256)) : tex_header :=
  ⟨get_u16 bs 0, get_u16 bs 2, get_u16 bs 4, get_u16 bs 6, get_u16 bs 8, get_u16 bs 10,
    get_u16 bs 12⟩

/-- The object representation of a `tex_header`, as bytes. -/
def tex_header.encode (h : tex_header) : List (Fin 256) :=
  put_u16 h.width ++ put_u16 h.height ++ put_u16 h.type ++ put_u16 h.mmaps ++ put_u16 h.u1
    ++ put_u16 h.u2 ++ put_u16 h.u3

/-- The object representation of a `dxt5_chunk` read from `bs`. -/
def dxt5_chunk.decode (bs : List (Fin 256)) : dxt5_chunk :=
  ⟨bs.take 8, get_u16 bs 8, get_u16 bs 10, get_u32 bs 12⟩

/-- The object representation of a `dxt5_chunk`, as bytes. -/
def dxt5_chunk.encode (c : dxt5_chunk) : List (Fin 256) :=
  c.alpha ++ put_u16 c.cs0 ++ put_u16 c.cs1 ++ put_u32 c.cv

/-- The overload `helper_read(texture, t)` at `T = tex_header`. -/
def helper_read_header (texture : List (Fin 256)) : Except mc2_exception tex_header :=
  if texture.length < sizeof_tex_header then .error .texture_not_large_enough
  else .ok (tex_header.decode texture)

/-- The overload `helper_read(texture, read_offset, t)` at `T = tex_header`: the
header and the advanced `read_offset`. -/
def helper_read_header_at (texture : List (Fin 256)) (read_offset : Nat) :
    Except mc2_exception (tex_header × Nat) :=
  if texture.length < read_offset + sizeof_tex_header then .error .texture_not_large_enough
  else .ok (tex_header.decode (texture.drop read_offset), read_offset + sizeof_tex_header)

/-- The overload `helper_read(texture, read_offset, t)` at `T = dxt5_chunk`: the
chunk and the advanced `read_offset`. -/
def helper_read_chunk_at (texture : List (Fin 256)) (read_offset : Nat) :
    Except mc2_exception (dxt5_chunk × Nat) :=
  if texture.length < read_offset + sizeof_dxt5_chunk then .error .texture_not_large_enough
  else .ok (dxt5_chunk.decode (texture.drop read_offset), read_offset + sizeof_dxt5_chunk)

/-- The function `helper_override`: `sz` is `sizeof(T)` and `bytes` the object
representation of `t`, stored at `read_offset - sizeof(T)`. Every call of
`fix_dxt` follows a successful `helper_read` up to the same `read_offset`, so
the bytes replaced lie inside the texture. -/
def helper_override (texture : List (Fin 256)) (read_offset sz : Nat) (bytes : List (Fin 256)) :
    Except mc2_exception (List (Fin 256)) :=
  if read_offset < sz then .error .overwritten_past_beginning
  else .ok (texture.take (read_offset - sz) ++ bytes ++ texture.drop read_offset)

/-- The call `texture.resize(n)`. -/
def resize (texture : List (Fin 256)) (n : Nat) : List (Fin 256) :=
  texture.take n ++ List.replicate (n - texture.length) 0

/-! ## needs_fixing and fix_dxt (fix_dxt.cpp, lines 42-132) -/

/-- The loop of `needs_fixing`, with `n` iterations left. -/
def needs_fixing_loop : Nat → Nat → Nat → Except mc2_exception Bool
  | 0, _, _ => .ok false
  | n + 1, width, height =>
    if width &&& 3 ≠ 0 ∨ height &&& 3 ≠ 0 then
      if width ≥ 4 ∨ height ≥ 4 then .error .unexpected_non_power_of_two
      else .ok true
    else needs_fixing_loop n (width / 2) (height / 2)

/-- The function `needs_fixing`. -/
def needs_fixing (texture : List (Fin 256)) : Except mc2_exception Bool :=
  match helper_read_header texture with
  | .error e => .error e
  | .ok header =>
    if header.type = 26 then .ok true
    else if header.type = 22 then
      if header.width = 0 ∨ header.height = 0 then .ok false
      else needs_fixing_loop header.mmaps header.width header.height
    else .ok false

/-- The term `width * height / bdiv` of `fix_dxt`. The product of the two
promoted `uint16_t` is an `int`: the model keeps its low 32 bits as a two's
complement number (what the target compilers produce where the product exceeds
`INT_MAX`), converts that to the 64-bit `size_t` of `bdiv` and divides. -/
def level_bytes (width height bdiv : Nat) : Nat :=
  let p := (width * height) % 2 ^ 32
  (if p < 2 ^ 31 then p else p + (2 ^ 64 - 2 ^ 32)) / bdiv

/-- The first loop of `fix_dxt`, with `n` iterations left: the final `mmaps`
and `bytes` (a `size_t`). -/
def level_loop (bdiv : Nat) : Nat → Nat → Nat → Nat → Nat → Except mc2_exception (Nat × Nat)
  | 0, _, _, mmaps, bytes => .ok (mmaps, bytes)
  | n + 1, width, height, mmaps, bytes =>
    if width &&& 3 ≠ 0 ∨ height &&& 3 ≠ 0 then
      if width ≥ 4 ∨ height ≥ 4 then .error .unexpected_non_power_of_two
      else .ok (mmaps, bytes)
    else
      level_loop bdiv n (width / 2) (height / 2) (mmaps + 1)
        ((bytes + level_bytes width height bdiv) % 2 ^ 64)

/-- The loop `for (i = 0; i < blocks; ++i)` of `fix_dxt`, with `n` iterations
left: the texture, `read_offset` and `dirty` after it. -/
def block_loop : Nat → List (Fin 256) → Nat → Bool →
    Except mc2_exception (List (Fin 256) × Nat × Bool)
  | 0, texture, read_offset, dirty => .ok (texture, read_offset, dirty)
  | n + 1, texture, read_offset, dirty =>
    match helper_read_chunk_at texture read_offset with
    | .error e => .error e
    | .ok (chunk, read_offset) =>
      match fix_chunk chunk with
      | .error e => .error e
      | .ok (chunk, true) =>
        match helper_override texture read_offset sizeof_dxt5_chunk chunk.encode with
        | .error e => .error e
        | .ok texture => block_loop n texture read_offset true
      | .ok (_, false) => block_loop n texture read_offset dirty

/-- The loop `for (mmap = 0; mmap < header.mmaps; ++mmap)` of `fix_dxt`, with
`m` iterations left. -/
def mmap_loop : Nat → Nat → List (Fin 256) → Nat → Bool →
    Except mc2_exception (List (Fin 256) × Nat × Bool)
  | 0, _, texture, read_offset, dirty => .ok (texture, read_offset, dirty)
  | m + 1, blocks, texture, read_offset, dirty =>
    match block_loop blocks texture read_offset dirty with
    | .error e => .error e
    | .ok (texture, read_offset, dirty) => mmap_loop m (blocks / 4) texture read_offset dirty

/-- The function `fix_dxt`: the texture after the call and the returned flag. -/
def fix_dxt (texture : List (Fin 256)) : Except mc2_exception (List (Fin 256) × Bool) :=
  match helper_read_header_at texture 0 with
  | .error e => .error e
  | .ok (header, read_offset) =>
    if header.type ≠ 26 ∧ header.type ≠ 22 then .ok (texture, false)
    else if header.width = 0 ∨ header.height = 0 then .ok (texture, false)
    else
      let bdiv := if header.type = 26 then 1 else 2
      match level_loop bdiv header.mmaps header.width header.height 0 sizeof_tex_header with
      | .error e => .error e
      | .ok (mmaps, bytes) =>
        if mmaps = 0 then .error .no_valid_mipmap_levels
        else
          let trimmed : Except mc2_exception (List (Fin 256) × tex_header × Bool) :=
            if header.mmaps = mmaps then
              if texture.length ≠ bytes then .error .invalid_size
              else .ok (texture, header, false)
            else
              if texture.length < bytes then .error .not_as_large_as_expected
              else
                let header := { header with mmaps := mmaps }
                match helper_override texture read_offset sizeof_tex_header header.encode with
                | .error e => .error e
                | .ok texture => .ok (resize texture bytes, header, true)
          match trimmed with
          | .error e => .error e
          | .ok (texture, header, dirty) =>
            if header.type = 26 then
              let blocks := (header.width / 4) * (header.height / 4)
              match mmap_loop header.mmaps blocks texture read_offset dirty with
              | .error e => .error e
              | .ok (texture, read_offset, dirty) =>
                if read_offset ≠ bytes then .error .texture_not_large_enough
                else .ok (texture, dirty)
            else .ok (texture, dirty)

/-! ## The normalisation of a two-bucket block (fix_block.cpp, lines 237-241) -/

/-- The statements of `case 2` of `fix_block` that precede the call of
`handle2`: when `dist[0] == 0` the endpoints are swapped and `cv` is masked
with `&= 0xAAAAAAAA`. Returns the endpoints and `cv` passed to `handle2`. -/
def normalize2 (d : weights) (cs : color × color) (cv : Nat) : (color × color) × Nat :=
  if d.w0 = 0 then ((cs.2, cs.1), cv &&& 0xAAAAAAAA) else (cs, cv)

/-! ## Archive helpers (dat_proc.cpp, lines 35-66 and 136-174) -/

/-- How a helper of dat_proc.cpp can fail to return: a thrown `mc2_exception`,
a read past the end of a vector or array (undefined behaviour in C++), or the
loop of the model running out of fuel. -/
inductive failure where
  /-- An exception thrown by the code. -/
  | thrown (e : mc2_exception)
  /-- An index outside the vector or array read. -/
  | out_of_bounds
  /-- The fuel given to the loop of the model is used up. -/
  | out_of_fuel
  deriving DecidableEq

/-- The array `chartable`: 64 characters and the terminator of the literal. -/
def chartable : List Char :=
  Char.ofNat 0 :: " #$()-./?0123456789_abcdefghijklmnopqrstuvwxyz~++++++++++++++++".toList
    ++ [Char.ofNat 0]

/-- The part of `std::ostream` the archive writer uses: the bytes of the file
and the put position. -/
structure ostream where
  data : List (Fin 256)
  pos : Nat

/-- The call `out.tellp()`. -/
def ostream.tellp (out : ostream) : Nat := out.pos

/-- The call `out.seekp(off, std::ios_base::cur)` with `off ≥ 0`. -/
def ostream.seekp_cur (out : ostream) (off : Nat) : ostream := { out with pos := out.pos + off }

/-- The call `out.write(s, n)`: the `n` bytes replace or extend the file at
the put position; a gap between the end of the file and the put position reads
as zero bytes; a write of no bytes changes nothing. -/
def ostream.write (out : ostream) (s : List (Fin 256)) : ostream :=
  match s with
  | [] => out
  | _ :: _ =>
    { data := (out.data ++ List.replicate (out.pos - out.data.length) 0).take out.pos ++ s
        ++ out.data.drop (out.pos + s.length),
      pos := out.pos + s.length }

/-- The function `helper_write_pad` at `T = char`: the stream after the call
and the returned `std::uint32_t`. -/
def helper_write_pad (out : ostream) (v : List (Fin 256)) : ostream × Nat :=
  let padding := (2048 - out.tellp % 2048) % 2048
  let out := if v.length * 1 > padding then out.seekp_cur padding else out
  let output := out.tellp % 2 ^ 32
  (out.write v, output)

/-- The function `helper_getBase64`; `n[j]` past the end of `n` is a failure. -/
def helper_getBase64 (n : List (Fin 256)) (l i : Nat) : Except failure Nat :=
  let k := i / 4
  match i &&& 0x3 with
  | 0 =>
    match n[l + 3 * k + 0]? with
    | some b0 => .ok ((((b0.val &&& 0x3F) <<< 0)) % 256)
    | none => .error .out_of_bounds
  | 1 =>
    match n[l + 3 * k + 1]?, n[l + 3 * k + 0]? with
    | some b1, some b0 => .ok ((((b1.val &&& 0x0F) <<< 2) ||| (b0.val >>> 6)) % 256)
    | _, _ => .error .out_of_bounds
  | 2 =>
    match n[l + 3 * k + 2]?, n[l + 3 * k + 1]? with
    | some b2, some b1 => .ok ((((b2.val &&& 0x03) <<< 4) ||| (b1.val >>> 4)) % 256)
    | _, _ => .error .out_of_bounds
  | _ =>
    match n[l + 3 * k + 2]? with
    | some b2 => .ok ((b2.val >>> 2) % 256)
    | none => .error .out_of_bounds

/-- The call `nameBuffer.resize(n)` of a `std::vector<char>`. -/
def resize_name (nameBuffer : List Char) (n : Nat) : List Char :=
  nameBuffer.take n ++ List.replicate (n - nameBuffer.length) (Char.ofNat 0)

/-- The first block of `helper_decode64` (lines 149-165): the unit index at
which decoding starts and the name buffer it starts with. -/
def decode64_start (names : List (Fin 256)) (nameBuffer : List Char) (nameOffset : Nat) :
    Except failure (Nat × List Char) :=
  match helper_getBase64 names nameOffset 0 with
  | .error e => .error e
  | .ok v =>
    if v ≥ 0x30 then
      match helper_getBase64 names nameOffset 1 with
      | .error e => .error e
      | .ok t =>
        if (v &&& 0x78) ≠ 0x38 ∨ (t &&& 0x70) ≠ 0x20 then
          .error (.thrown .invalid_delta_encoding)
        else .ok (2, resize_name nameBuffer ((v &&& 0x07) ||| ((t &&& 0x0F) <<< 3)))
    else .ok (0, [])

/-- The `do ... while (c != 0)` loop of `helper_decode64`, with `fuel`
iterations allowed: the name buffer when the loop ends. The index `i` is a
`uint32_t`. -/
def decode64_loop (names : List (Fin 256)) (nameOffset : Nat) :
    Nat → Nat → List Char → Except failure (List Char)
  | 0, _, _ => .error .out_of_fuel
  | fuel + 1, i, nameBuffer =>
    match helper_getBase64 names nameOffset i with
    | .error e => .error e
    | .ok v =>
      match chartable[v]? with
      | none => .error .out_of_bounds
      | some c =>
        if c = '+' then .error (.thrown .invalid_character)
        else if c ≠ Char.ofNat 0 then
          decode64_loop names nameOffset fuel ((i + 1) % 2 ^ 32) (nameBuffer ++ [c])
        else .ok (nameBuffer ++ [c])

/-- The conversion of `nameBuffer.data()` to `std::string`: the characters
before the first NUL. -/
def c_str (nameBuffer : List Char) : List Char :=
  nameBuffer.takeWhile (fun c => c ≠ Char.ofNat 0)

/-- The function `helper_decode64`, with `fuel` iterations allowed to its
loop; `nameOffset` is `file.nameOffset`. Returns the string and the name buffer
after the call. -/
def helper_decode64 (fuel : Nat) (names : List (Fin 256)) (nameBuffer : List Char)
    (nameOffset : Nat) : Except failure (List Char × List Char) :=
  match decode64_start names nameBuffer nameOffset with
  | .error e => .error e
  | .ok (i, nameBuffer) =>
    match decode64_loop names nameOffset fuel i nameBuffer with
    | .error e => .error e
    | .ok nameBuffer => .ok (c_str nameBuffer, nameBuffer)

/-! ## The end-of-file padding (dat_proc.cpp, lines 240-242) -/

/-- The call `out.seekp(off, std::ios_base::beg)`; a negative offset makes the
call fail. -/
def ostream.seekp_beg (out : ostream) (off : Int) : Option ostream :=
  if off < 0 then none else some { out with pos := off.toNat }

/-- The call `out.put(c)`. -/
def ostream.put (out : ostream) (c : Fin 256) : ostream := out.write [c]

/-- The offset `(((std::streamoff) out.tellp() + 2047) & ~((std::streamoff) 2047)) - 1`
of `process_textures`; on the 64-bit two's complement `std::streamoff`,
`~2047` is the pattern `0xFFFFFFFFFFFFF800`. -/
def pad_end_offset (out : ostream) : Int :=
  (((out.tellp + 2047) &&& 0xFFFFFFFFFFFFF800 : Nat) : Int) - 1

/-- The end-of-file padding of `process_textures` (lines 240-242): seek to
`pad_end_offset` from the beginning and put one zero byte. -/
def pad_end (out : ostream) : Option ostream :=
  match out.seekp_beg (pad_end_offset out) with
  | none => none
  | some out => some (out.put 0)

/-! ## Reference notions used to state the properties

The palette below is the DXT5 four-colour palette written in the six-fold
scale of the mixers: slot 00 is `6·cs0`, slot 01 is `6·cs1`, slot 10 is
`4·cs0 + 2·cs1`, slot 11 is `2·cs0 + 4·cs1`. -/

/-- The four-colour palette of endpoints `(b1, b2)`, by slot, in six-fold scale. -/
def palette (b1 b2 : color) (slot : Nat) : color :=
  match slot with
  | 0 => mixer.t0 b1 b2
  | 1 => mixer.t1 b1 b2
  | 2 => mixer.t2 b1 b2
  | _ => mixer.t3 b1 b2

/-- The weighted error of the block a candidate emits, as the specification
defines it: endpoints `b`, index remap `r`, original endpoints `cs0`, `cs1`
and original index counts `w`. -/
def emitted_error2 (cs0 cs1 : color) (w : weights) (b : color × color) (r : Nat → Nat) : Int :=
  w.w0 * single_error2 (palette b.1 b.2 (r 0)) ⟨6 * cs0.r, 6 * cs0.g, 6 * cs0.b⟩
    + w.w1 * single_error2 (palette b.1 b.2 (r 1)) ⟨6 * cs1.r, 6 * cs1.g, 6 * cs1.b⟩
    + w.w2 * single_error2 (palette b.1 b.2 (r 2))
        ⟨3 * (cs0.r + cs1.r), 3 * (cs0.g + cs1.g), 3 * (cs0.b + cs1.b)⟩

/-- The index remap the specification states for candidate iiix. -/
def remap_iiix : Nat → Nat
  | 0 => 0
  | 1 => 3
  | n => n

/-- The index remap the specification states for candidate xiii. -/
def remap_xiii : Nat → Nat
  | 0 => 1
  | 1 => 2
  | _ => 3

/-- The index remap the specification states for candidate iixi. -/
def remap_iixi : Nat → Nat := fun n => n

/-- The index remap the specification states for candidate ixii. -/
def remap_ixii : Nat → Nat
  | 0 => 1
  | 1 => 0
  | _ => 3

/-- The index remap the specification states for candidate ixxi. -/
def remap_ixxi : Nat → Nat
  | 2 => 1
  | _ => 0

/-- The index remap the specification states for candidate ixix. -/
def remap_ixix : Nat → Nat
  | 2 => 3
  | _ => 0

/-- The index remap the specification states for candidate xiix. -/
def remap_xiix : Nat → Nat
  | 2 => 3
  | _ => 2

/-- The number of successive mipmap levels, starting at `(w, h)`, halving at
each step, at most `n`, whose two dimensions are both at least 4 and divisible
by 4 (the specification's valid levels). -/
def valid_levels : Nat → Nat → Nat → Nat
  | 0, _, _ => 0
  | n + 1, w, h =>
    if 4 ≤ w ∧ 4 ≤ h ∧ w % 4 = 0 ∧ h % 4 = 0 then 1 + valid_levels n (w / 2) (h / 2) else 0

/-- The sum of `w_i * h_i / bdiv` over the first `k` levels starting at `(w, h)`. -/
def chain_bytes (bdiv : Nat) : Nat → Nat → Nat → Nat
  | 0, _, _ => 0
  | k + 1, w, h => w * h / bdiv + chain_bytes bdiv k (w / 2) (h / 2)

/-- The number of chunks the loops of `fix_dxt` visit in `m` levels that start
with `blocks` chunks: `blocks + blocks / 4 + ...`. -/
def block_total : Nat → Nat → Nat
  | 0, _ => 0
  | m + 1, blocks => blocks + block_total m (blocks / 4)

/-- Scenario S5, input: a type-22 texture, 8×8, `mmaps = 5`, 60 bytes. -/
def s5_input : List (Fin 256) :=
  [8, 0, 8, 0, 22, 0, 5, 0, 0, 0, 0, 0, 0, 0] ++ List.replicate 46 0

/-- Scenario S5, output: `mmaps = 2`, 54 bytes. -/
def s5_output : List (Fin 256) :=
  [8, 0, 8, 0, 22, 0, 2, 0, 0, 0, 0, 0, 0, 0] ++ List.replicate 40 0

/-- A type-26 texture, 4×4, `mmaps = 3`, 34 bytes: one chunk with alpha bytes
1..8, `cs0 = 0x0000`, `cs1 = 0xFFFF`, `cv = 0`, and four trailing bytes. -/
def dxt5_input : List (Fin 256) :=
  [4, 0, 4, 0, 26, 0, 3, 0, 1, 0, 2, 0, 3, 0,
   1, 2, 3, 4, 5, 6, 7, 8, 0, 0, 255, 255, 0, 0, 0, 0,
   9, 9, 9, 9]

/-- The texture `fix_dxt` makes of `dxt5_input`: `mmaps = 1`, 30 bytes, the
chunk reframed to `cs0 = 0xFFFF`, `cs1 = 0x0000`, `cv = 0x55555555`. -/
def dxt5_output : List (Fin 256) :=
  [4, 0, 4, 0, 26, 0, 1, 0, 1, 0, 2, 0, 3, 0,
   1, 2, 3, 4, 5, 6, 7, 8, 255, 255, 0, 0, 0x55, 0x55, 0x55, 0x55]

/-- The specification's walk for `needs_fixing`: going through at most `n`
levels from `(w, h)` with halving, some level has a dimension that is not a
positive multiple of 4. -/
def chain_breaks : Nat → Nat → Nat → Bool
  | 0, _, _ => false
  | n + 1, w, h =>
    !(decide (0 < w) && decide (w % 4 = 0) && decide (0 < h) && decide (h % 4 = 0))
      || chain_breaks n (w / 2) (h / 2)

/-- A type-22 header of 14 bytes: width 0, height 8, one mipmap level. -/
def zero_width_header : List (Fin 256) := [0, 0, 8, 0, 22, 0, 1, 0, 0, 0, 0, 0, 0, 0]

/-- A type-22 texture of 54 bytes: 8 by 8 with three mipmap levels announced,
of which the 8 by 8 and the 4 by 4 level are stored. -/
def small_tail_texture : List (Fin 256) :=
  [8, 0, 8, 0, 22, 0, 3, 0, 0, 0, 0, 0, 0, 0] ++ List.replicate 40 0

/-- The weighted squared error of the iixi family over the rationals:
`w0*(6a - 6c0)^2 + w1*(6b - 6c1)^2 + w2*(4a + 2b - 3c0 - 3c1)^2`. -/
def iixi_cost (w0 w1 w2 c0 c1 a b : ℚ) : ℚ :=
  w0 * (6 * a - 6 * c0) ^ 2 + w1 * (6 * b - 6 * c1) ^ 2
    + w2 * (4 * a + 2 * b - 3 * c0 - 3 * c1) ^ 2

/-- The denominator `K = 18*w0*w1 + 2*w0*w2 + 8*w1*w2`, over the rationals. -/
def iixi_K (w0 w1 w2 : ℚ) : ℚ := 18 * w0 * w1 + 2 * w0 * w2 + 8 * w1 * w2

/-- The unrounded endpoint `a* = c0 + 2*w1*w2*(c1 - c0)/K`. -/
def iixi_a_opt (w0 w1 w2 c0 c1 : ℚ) : ℚ := c0 + 2 * w1 * w2 * (c1 - c0) / iixi_K w0 w1 w2

/-- The unrounded endpoint `b* = c1 + w0*w2*(c1 - c0)/K`. -/
def iixi_b_opt (w0 w1 w2 c0 c1 : ℚ) : ℚ := c1 + w0 * w2 * (c1 - c0) / iixi_K w0 w1 w2

/-! ## Bits of the index word -/

theorem mod4_eq_bits (n : Nat) : n &&& 3 = (n.testBit 0).toNat + 2 * (n.testBit 1).toNat := by
  have h : n &&& 3 = n % 4 := Nat.and_pow_two_sub_one_eq_mod n 2
  rw [h, Nat.testBit_to_div_mod, Nat.testBit_to_div_mod]
  rcases Nat.mod_two_eq_zero_or_one n with h0 | h0 <;>
    rcases Nat.mod_two_eq_zero_or_one (n / 2) with h1 | h1 <;>
    simp [h0, h1] <;> omega

theorem texel_eq_bits (cv k : Nat) :
    texel cv k = (cv.testBit (2 * k)).toNat + 2 * (cv.testBit (2 * k + 1)).toNat := by
  unfold texel
  rw [mod4_eq_bits, Nat.testBit_shiftRight, Nat.testBit_shiftRight]
  have e1 : k * 2 + 0 = 2 * k := by omega
  have e2 : k * 2 + 1 = 2 * k + 1 := by omega
  rw [e1, e2]

theorem testBit_A_even (k : Nat) : (0xAAAAAAAA : Nat).testBit (2 * k) = false := by
  by_cases h : k < 16
  · interval_cases k <;> rfl
  · apply Nat.testBit_lt_two_pow
    calc (0xAAAAAAAA : Nat) < 2 ^ 32 := by norm_num
      _ ≤ 2 ^ (2 * k) := Nat.pow_le_pow_right (by norm_num) (by omega)

theorem testBit_A_odd (k : Nat) (h : k < 16) : (0xAAAAAAAA : Nat).testBit (2 * k + 1) = true := by
  interval_cases k <;> rfl

theorem testBit_5_even (k : Nat) (h : k < 16) : (0x55555555 : Nat).testBit (2 * k) = true := by
  interval_cases k <;> rfl

theorem testBit_5_odd (k : Nat) : (0x55555555 : Nat).testBit (2 * k + 1) = false := by
  by_cases h : k < 16
  · interval_cases k <;> rfl
  · apply Nat.testBit_lt_two_pow
    calc (0x55555555 : Nat) < 2 ^ 32 := by norm_num
      _ ≤ 2 ^ (2 * k + 1) := Nat.pow_le_pow_right (by norm_num) (by omega)

/-- A texel index is below four. -/
theorem texel_lt_four (cv k : Nat) : texel cv k < 4 := by
  rw [texel_eq_bits]
  cases cv.testBit (2 * k) <;> cases cv.testBit (2 * k + 1) <;> simp

/-- Bits of a texel that is not index 11. -/
theorem bits_of_ne_three {cv k : Nat} (h : texel cv k ≠ 3) :
    ¬ (cv.testBit (2 * k) = true ∧ cv.testBit (2 * k + 1) = true) := by
  rintro ⟨h0, h1⟩
  apply h
  rw [texel_eq_bits, h0, h1]
  rfl

/-- Bits of a texel that is index 00 or 10. -/
theorem low_bit_of_even {cv k : Nat} (h : texel cv k = 0 ∨ texel cv k = 2) :
    cv.testBit (2 * k) = false := by
  rw [texel_eq_bits] at h
  cases h0 : cv.testBit (2 * k) <;> cases h1 : cv.testBit (2 * k + 1) <;> simp_all

/-! ## The minimum of a candidate list -/

theorem std_min_mem {α : Type} (comp : α → α → Bool) (first : α) (rest : List α) :
    std_min comp first rest ∈ first :: rest := by
  induction rest generalizing first with
  | nil => simp [std_min]
  | cons x xs ih =>
    have h := ih (if comp x first then x else first)
    simp only [std_min, List.foldl_cons] at h ⊢
    split_ifs at h ⊢ with hc
    · rcases List.mem_cons.1 h with h | h
      · rw [h]; simp
      · simp [h]
    · rcases List.mem_cons.1 h with h | h
      · rw [h]; simp
      · simp [h]

theorem std_min_err2_le (first : eval) (rest : List eval) :
    ∀ e ∈ first :: rest, (std_min eval.compare_err first rest).err2 ≤ e.err2 := by
  induction rest generalizing first with
  | nil => intro e he; simp [std_min] at he ⊢; rw [he]
  | cons x xs ih =>
    have h := ih (if eval.compare_err x first then x else first)
    simp only [std_min, List.foldl_cons] at h ⊢
    intro e he
    by_cases hc : eval.compare_err x first = true
    · simp only [hc, if_true] at h ⊢
      have hx := h x (by simp)
      simp only [eval.compare_err, decide_eq_true_eq] at hc
      rcases List.mem_cons.1 he with he | he
      · rw [he]; omega
      · exact h e he
    · simp only [hc] at h ⊢
      have hf := h first (by simp)
      simp only [eval.compare_err, decide_eq_true_eq, not_lt] at hc
      rcases List.mem_cons.1 he with he | he
      · rw [he]; exact hf
      · rcases List.mem_cons.1 he with he | he
        · rw [he]; simp at hf ⊢; omega
        · exact h e (by simp [he])

/-! ## Block-level properties -/

/-- The function `clean` leaves a chunk with `cs0 > cs1`. -/
theorem clean_canonical (c : dxt5_chunk) : (clean c).1.cs1 < (clean c).1.cs0 := by
  unfold clean
  split_ifs with h1 h2 h3 <;> simp <;> omega

/-- The function `clean` keeps 16-bit endpoints 16-bit. -/
theorem clean_u16 (c : dxt5_chunk) (h0 : c.cs0 < 65536) (h1 : c.cs1 < 65536) :
    (clean c).1.cs0 < 65536 ∧ (clean c).1.cs1 < 65536 := by
  unfold clean
  split_ifs with h1 h2 h3 <;> simp <;> omega

theorem to16_lt (c : color) : c.to16 < 65536 := by
  unfold color.to16
  exact Nat.mod_lt _ (by norm_num)

/-- The endpoints `fix_block` stores are 16-bit values; the alpha bytes are kept. -/
theorem fix_block_u16 {chunk fixed : dxt5_chunk} (h : fix_block chunk = .ok fixed) :
    fixed.cs0 < 65536 ∧ fixed.cs1 < 65536 ∧ fixed.alpha = chunk.alpha := by
  unfold fix_block at h
  simp only at h
  by_cases h3 : (dist chunk.cv).w3 ≠ 0
  · rw [if_pos h3] at h; cases h
  · rw [if_neg h3] at h
    split at h
    · injection h with h; subst h; simp [dxt5_chunk.setColors, to16_lt]
    · injection h with h; subst h; simp [dxt5_chunk.setColors, to16_lt]
    · injection h with h; subst h; simp [dxt5_chunk.setColors, to16_lt]
    · cases h

/-- C1. Every chunk on which the per-block step of `fix_dxt` succeeds leaves
the step with `cs0 > cs1` (and both still 16-bit values), whichever of the
four paths it took: pure reframe, `fix_block` followed by `clean`, the
equal-endpoint rewrite, or no change. -/
theorem fix_chunk_canonical (chunk c' : dxt5_chunk) (d : Bool)
    (h0 : chunk.cs0 < 65536) (h1 : chunk.cs1 < 65536)
    (h : fix_chunk chunk = .ok (c', d)) :
    c'.cs1 < c'.cs0 ∧ c'.cs0 < 65536 ∧ c'.cs1 < 65536 := by
  unfold fix_chunk at h
  split_ifs at h with hlt hcv heq hz
  · injection h with h; injection h with h _; subst h; simp; omega
  · cases hfb : fix_block chunk with
    | error e => rw [hfb] at h; cases h
    | ok fixed =>
      rw [hfb] at h
      injection h with h; injection h with h _; subst h
      obtain ⟨hf0, hf1, _⟩ := fix_block_u16 hfb
      exact ⟨clean_canonical fixed, clean_u16 fixed hf0 hf1⟩
  · injection h with h; injection h with h _; subst h; simp; omega
  · injection h with h; injection h with h _; subst h; simp; omega
  · injection h with h; injection h with h _; subst h; omega

/-- Witness of C1: the all-midpoint block `(0x0000, 0x5284, 0xAAAAAAAA)`. -/
theorem fix_chunk_canonical_witness :
    fix_chunk ⟨[], 0, 0x5284, 0xAAAAAAAA⟩ = .ok (⟨[], 0x2942, 0, 0⟩, true) ∧
    (0 : Nat) < 0x2942 ∧ (0x2942 : Nat) < 65536 ∧ (0 : Nat) < 65536 :=
  ⟨rfl, fix_chunk_canonical ⟨[], 0, 0x5284, 0xAAAAAAAA⟩ ⟨[], 0x2942, 0, 0⟩ true
    (by decide) (by decide) rfl⟩

/-- The alpha bytes pass through `fix_block` untouched and do not influence it. -/
theorem fix_block_alpha (alpha : List (Fin 256)) (cs0 cs1 cv : Nat) :
    fix_block ⟨alpha, cs0, cs1, cv⟩
      = (fix_block ⟨[], cs0, cs1, cv⟩).map (fun c => { c with alpha := alpha }) := by
  unfold fix_block
  simp only
  by_cases h3 : (dist cv).w3 ≠ 0
  · rw [if_pos h3, if_pos h3]; rfl
  · rw [if_neg h3, if_neg h3]
    split <;> rfl

/-- C7 (as stated, refuted). On the block `(0x0000, 0x5284, 0xAAAAAAAA)` the
bucket count is not 2 and `fix_block` does not output `(0x0000, 0x7BCF)`. -/
theorem fix_block_s3_not_outer :
    count (dist 0xAAAAAAAA) ≠ 2 ∧
    fix_block ⟨[], 0x0000, 0x5284, 0xAAAAAAAA⟩ ≠ .ok ⟨[], 0x0000, 0x7BCF, 0xAAAAAAAA⟩ := by
  refine ⟨by decide, ?_⟩
  have h : fix_block ⟨[], 0x0000, 0x5284, 0xAAAAAAAA⟩ = .ok ⟨[], 0x2942, 0x2942, 0xAAAAAAAA⟩ := rfl
  rw [h]
  intro hh
  injection hh with hh
  revert hh
  decide

/-- C7 (amended). On the block `(0x0000, 0x5284, 0xAAAAAAAA)`, whose texels
all use index 10, the bucket count is 1: `fix_block` takes the squeeze method
of `handle1` and outputs the endpoints `(0x2942, 0x2942)` with `cv` and the
alpha bytes unchanged. -/
theorem fix_block_s3_squeeze (alpha : List (Fin 256)) :
    count (dist 0xAAAAAAAA) = 1 ∧
    handle1 (color.from16 0x0000) (color.from16 0x5284) 0xAAAAAAAA
      = (color.from16 0x2942, color.from16 0x2942, 0xAAAAAAAA) ∧
    fix_block ⟨alpha, 0x0000, 0x5284, 0xAAAAAAAA⟩ = .ok ⟨alpha, 0x2942, 0x2942, 0xAAAAAAAA⟩ :=
  ⟨by decide, by decide, by
    rw [fix_block_alpha, show fix_block ⟨[], 0x0000, 0x5284, 0xAAAAAAAA⟩
      = .ok ⟨[], 0x2942, 0x2942, 0xAAAAAAAA⟩ from rfl]
    rfl⟩

/-- C4. On every block that uses the three indices 00, 01, 10 and no 11,
`fix_block` stores the endpoints and `cv` that `handle3` returns, and these are
the endpoints and `cv` of one of the four candidates iiix, xiii, iixi, ixii
whose computed `err2` is at most the computed `err2` of every candidate. -/
theorem handle3_picks_least_err2 (chunk : dxt5_chunk)
    (h3 : (dist chunk.cv).w3 = 0) (hk : count (dist chunk.cv) = 3) :
    ∃ e ∈ [cand_iiix (color.from16 chunk.cs0) (color.from16 chunk.cs1) chunk.cv (dist chunk.cv),
           cand_xiii (color.from16 chunk.cs0) (color.from16 chunk.cs1) chunk.cv (dist chunk.cv),
           cand_iixi (color.from16 chunk.cs0) (color.from16 chunk.cs1) chunk.cv (dist chunk.cv),
           cand_ixii (color.from16 chunk.cs0) (color.from16 chunk.cs1) chunk.cv (dist chunk.cv)],
      handle3 (color.from16 chunk.cs0) (color.from16 chunk.cs1) chunk.cv (dist chunk.cv)
        = (e.b1, e.b2, e.cv) ∧
      fix_block chunk = .ok ⟨chunk.alpha, e.b1.to16, e.b2.to16, e.cv⟩ ∧
      ∀ e' ∈ [cand_iiix (color.from16 chunk.cs0) (color.from16 chunk.cs1) chunk.cv (dist chunk.cv),
              cand_xiii (color.from16 chunk.cs0) (color.from16 chunk.cs1) chunk.cv (dist chunk.cv),
              cand_iixi (color.from16 chunk.cs0) (color.from16 chunk.cs1) chunk.cv (dist chunk.cv),
              cand_ixii (color.from16 chunk.cs0) (color.from16 chunk.cs1) chunk.cv (dist chunk.cv)],
        e.err2 ≤ e'.err2 := by
  refine ⟨_, std_min_mem eval.compare_err _ _, rfl, ?_, std_min_err2_le _ _⟩
  unfold fix_block
  simp [h3, hk, handle3, dxt5_chunk.setColors, dxt5_chunk.getColors]

/-- Witness of C4: a block with six texels of index 00, six of index 01 and
four of index 10, that is `w = (6, 6, 4, 0)`. -/
theorem handle3_picks_least_err2_witness :
    dist 0xAA555000 = ⟨6, 6, 4, 0⟩ ∧
    ∃ e ∈ [cand_iiix (color.from16 0x0000) (color.from16 0x5284) 0xAA555000 (dist 0xAA555000),
           cand_xiii (color.from16 0x0000) (color.from16 0x5284) 0xAA555000 (dist 0xAA555000),
           cand_iixi (color.from16 0x0000) (color.from16 0x5284) 0xAA555000 (dist 0xAA555000),
           cand_ixii (color.from16 0x0000) (color.from16 0x5284) 0xAA555000 (dist 0xAA555000)],
      handle3 (color.from16 0x0000) (color.from16 0x5284) 0xAA555000 (dist 0xAA555000)
        = (e.b1, e.b2, e.cv) ∧
      fix_block ⟨[], 0x0000, 0x5284, 0xAA555000⟩ = .ok ⟨[], e.b1.to16, e.b2.to16, e.cv⟩ ∧
      ∀ e' ∈ [cand_iiix (color.from16 0x0000) (color.from16 0x5284) 0xAA555000 (dist 0xAA555000),
              cand_xiii (color.from16 0x0000) (color.from16 0x5284) 0xAA555000 (dist 0xAA555000),
              cand_iixi (color.from16 0x0000) (color.from16 0x5284) 0xAA555000 (dist 0xAA555000),
              cand_ixii (color.from16 0x0000) (color.from16 0x5284) 0xAA555000 (dist 0xAA555000)],
        e.err2 ≤ e'.err2 :=
  ⟨by decide, handle3_picks_least_err2 ⟨[], 0x0000, 0x5284, 0xAA555000⟩ (by decide) (by decide)⟩

/-- C6 (the code at the failing input). On the block `(0x0000, 0x0001, 0x26)`,
with index counts `(13, 1, 2, 0)`, `handle3` scores candidate xiii with
`err2 = 162`, while the weighted error of the block xiii emits, as the claim
defines it, is 18; on the block `(0x0000, 0x0BB8, 0x26)` the score of ixii
differs from the error of the block ixii emits. The scores of iiix and iixi
are, on every block, the weighted error of the block emitted. -/
theorem inverted_candidates_err2_mismatch :
    dist 0x26 = ⟨13, 1, 2, 0⟩ ∧
    (cand_xiii (color.from16 0) (color.from16 1) 0x26 (dist 0x26)).err2 = 162 ∧
    emitted_error2 (color.from16 0) (color.from16 1) (dist 0x26)
      (iiix (color.from16 1) (color.from16 0) (invertCs (dist 0x26))) remap_xiii = 18 ∧
    (cand_ixii (color.from16 0) (color.from16 0xBB8) 0x26 (dist 0x26)).err2 ≠
      emitted_error2 (color.from16 0) (color.from16 0xBB8) (dist 0x26)
        (iixi (color.from16 0xBB8) (color.from16 0) (invertCs (dist 0x26))
          (iixi_store.make (dist 0x26)).invert) remap_ixii ∧
    (∀ (cs0 cs1 : color) (cv : Nat) (w : weights),
      (cand_iiix cs0 cs1 cv w).err2 = emitted_error2 cs0 cs1 w (iiix cs0 cs1 w) remap_iiix ∧
      (cand_iixi cs0 cs1 cv w).err2
        = emitted_error2 cs0 cs1 w (iixi cs0 cs1 w (iixi_store.make w)) remap_iixi) := by
  refine ⟨by decide, by decide, by decide, by decide, ?_⟩
  intro cs0 cs1 cv w
  constructor <;>
    simp [cand_iiix, cand_iixi, eval.make3, eval.error2_p3, emitted_error2, pre_eval_p3.make,
      total_error2, palette, remap_iiix, remap_iixi, mixer.h0, mixer.h1, mixer.h2, mul_add]

/-- C8. A chunk with equal endpoints `cs0 = cs1 = c` leaves the per-block step
rewritten and marked dirty, with `cs0 > cs1`, the alpha bytes kept, and every
one of its 16 texels selecting, in the four-colour palette of the new
endpoints, exactly the colour `c` (six-fold scale: `6·c`). The all-zero chunk
becomes `(1, 0, 0x55555555)`. -/
theorem fix_chunk_trivial (chunk : dxt5_chunk) (heq : chunk.cs0 = chunk.cs1) :
    ∃ c', fix_chunk chunk = .ok (c', true) ∧ c'.cs1 < c'.cs0 ∧ c'.alpha = chunk.alpha ∧
      (chunk.cs0 = 0 → c'.cs0 = 1 ∧ c'.cs1 = 0 ∧ c'.cv = 0x55555555) ∧
      ∀ k < 16, palette (color.from16 c'.cs0) (color.from16 c'.cs1) (texel c'.cv k)
        = mixer.h0 (color.from16 chunk.cs0) (color.from16 chunk.cs1) := by
  have hnlt : ¬ chunk.cs0 < chunk.cs1 := by omega
  by_cases hz : chunk.cs0 = 0
  · refine ⟨{ chunk with cs0 := 1, cv := 0x55555555 }, ?_, ?_, rfl, ?_, ?_⟩
    · simp [fix_chunk, hnlt, heq.symm, hz]
    · simp only; omega
    · intro _; exact ⟨rfl, by simp only; omega, rfl⟩
    · intro k hk
      have ht : texel 0x55555555 k = 1 := by
        rw [texel_eq_bits, testBit_5_even k hk, testBit_5_odd]; rfl
      simp only [ht, palette, mixer.t1, mixer.h0, ← heq, hz]
  · refine ⟨{ chunk with cs1 := 0, cv := 0x00000000 }, ?_, ?_, rfl, ?_, ?_⟩
    · simp [fix_chunk, hnlt, heq.symm, hz]
    · simp only; omega
    · intro h; exact absurd h hz
    · intro k _
      have ht : texel 0x00000000 k = 0 := by
        rw [texel_eq_bits]; simp
      simp only [ht, palette, mixer.t0, mixer.h0]

/-- Witness of C8: the all-zero chunk becomes `(1, 0, 0x55555555)`. -/
theorem fix_chunk_trivial_witness :
    fix_chunk ⟨[], 0, 0, 0⟩ = .ok (⟨[], 1, 0, 0x55555555⟩, true) ∧
    ∃ c', fix_chunk ⟨[], 0, 0, 0⟩ = .ok (c', true) ∧ c'.cs1 < c'.cs0 ∧ c'.alpha = [] ∧
      ((0 : Nat) = 0 → c'.cs0 = 1 ∧ c'.cs1 = 0 ∧ c'.cv = 0x55555555) ∧
      ∀ k < 16, palette (color.from16 c'.cs0) (color.from16 c'.cs1) (texel c'.cv k)
        = mixer.h0 (color.from16 0) (color.from16 0) :=
  ⟨rfl, fix_chunk_trivial ⟨[], 0, 0, 0⟩ rfl⟩

/-- C9. A chunk with `cs0 < cs1` and `cv & 0xAAAAAAAA == 0` leaves the
per-block step as `(cs1, cs0, cv ^ 0x55555555)`, marked dirty; every texel has
index 00 or 01 in the input and the other one of the two in the output, and
selects in the palette of the output the endpoint it selected in the input
(00: the old `cs0`, 01: the old `cs1`). -/
theorem fix_chunk_reframe (chunk : dxt5_chunk) (hlt : chunk.cs0 < chunk.cs1)
    (hcv : chunk.cv &&& 0xAAAAAAAA = 0) :
    fix_chunk chunk
      = .ok (⟨chunk.alpha, chunk.cs1, chunk.cs0, chunk.cv ^^^ 0x55555555⟩, true) ∧
    ∀ k < 16,
      (texel chunk.cv k = 0 ∧ texel (chunk.cv ^^^ 0x55555555) k = 1 ∧
        palette (color.from16 chunk.cs1) (color.from16 chunk.cs0)
            (texel (chunk.cv ^^^ 0x55555555) k)
          = mixer.h0 (color.from16 chunk.cs0) (color.from16 chunk.cs1)) ∨
      (texel chunk.cv k = 1 ∧ texel (chunk.cv ^^^ 0x55555555) k = 0 ∧
        palette (color.from16 chunk.cs1) (color.from16 chunk.cs0)
            (texel (chunk.cv ^^^ 0x55555555) k)
          = mixer.h1 (color.from16 chunk.cs0) (color.from16 chunk.cs1)) := by
  refine ⟨by simp [fix_chunk, hlt, hcv], ?_⟩
  intro k hk
  have hhi : chunk.cv.testBit (2 * k + 1) = false := by
    have h := congrArg (fun n => n.testBit (2 * k + 1)) hcv
    simpa [Nat.testBit_and, testBit_A_odd k hk] using h
  have hnew : texel (chunk.cv ^^^ 0x55555555) k
      = (!chunk.cv.testBit (2 * k)).toNat := by
    rw [texel_eq_bits, Nat.testBit_xor, Nat.testBit_xor, testBit_5_even k hk, testBit_5_odd, hhi]
    simp
  have hold : texel chunk.cv k = (chunk.cv.testBit (2 * k)).toNat := by
    rw [texel_eq_bits, hhi]; simp
  rw [hnew, hold]
  cases chunk.cv.testBit (2 * k)
  · left; refine ⟨rfl, rfl, ?_⟩
    simp [palette, mixer.t1, mixer.h0]
  · right; refine ⟨rfl, rfl, ?_⟩
    simp [palette, mixer.t0, mixer.h1]

/-- Witness of C9: `(0x0000, 0xFFFF, 0)` becomes `(0xFFFF, 0x0000, 0x55555555)`. -/
theorem fix_chunk_reframe_witness :
    fix_chunk ⟨[], 0x0000, 0xFFFF, 0⟩ = .ok (⟨[], 0xFFFF, 0x0000, 0x55555555⟩, true) ∧
    ∀ k < 16,
      (texel 0 k = 0 ∧ texel (0 ^^^ 0x55555555) k = 1 ∧
        palette (color.from16 0xFFFF) (color.from16 0x0000) (texel (0 ^^^ 0x55555555) k)
          = mixer.h0 (color.from16 0x0000) (color.from16 0xFFFF)) ∨
      (texel 0 k = 1 ∧ texel (0 ^^^ 0x55555555) k = 0 ∧
        palette (color.from16 0xFFFF) (color.from16 0x0000) (texel (0 ^^^ 0x55555555) k)
          = mixer.h1 (color.from16 0x0000) (color.from16 0xFFFF)) :=
  fix_chunk_reframe ⟨[], 0x0000, 0xFFFF, 0⟩ (by decide) (by decide)

/-- Bit `2k` and bit `2k+1` of `(cv << 1) & 0xAAAAAAAA` as a `uint32_t`. -/
theorem shl_mask_bits (cv k : Nat) (hk : k < 16) :
    ((((cv <<< 1) % 2 ^ 32) &&& 0xAAAAAAAA).testBit (2 * k) = false) ∧
    ((((cv <<< 1) % 2 ^ 32) &&& 0xAAAAAAAA).testBit (2 * k + 1) = cv.testBit (2 * k)) := by
  have h32 : 2 * k + 1 < 32 := by omega
  constructor
  · rw [Nat.testBit_and, testBit_A_even]; simp
  · rw [Nat.testBit_and, testBit_A_odd k hk, Nat.testBit_mod_two_pow, Nat.testBit_shiftLeft]
    simp [h32]

/-- Bit `2k` and bit `2k+1` of `cv >> 1` when every index of `cv` is 00 or 10. -/
theorem shr_bits (cv k : Nat) (hk : k < 16) (hcv : cv < 2 ^ 32)
    (h02 : ∀ j < 16, texel cv j = 0 ∨ texel cv j = 2) :
    (cv >>> 1).testBit (2 * k) = cv.testBit (2 * k + 1) ∧
    (cv >>> 1).testBit (2 * k + 1) = false := by
  constructor
  · rw [Nat.testBit_shiftRight, Nat.add_comm]
  · rw [Nat.testBit_shiftRight]
    have e : 1 + (2 * k + 1) = 2 * (k + 1) := by omega
    rw [e]
    by_cases hk1 : k + 1 < 16
    · exact low_bit_of_even (h02 (k + 1) hk1)
    · apply Nat.testBit_lt_two_pow
      calc cv < 2 ^ 32 := hcv
        _ ≤ 2 ^ (2 * (k + 1)) := Nat.pow_le_pow_right (by norm_num) (by omega)

/-- C5. For a 32-bit `cv` without index 11 and every texel position `k < 16`,
the `cv` each candidate of `handle3` stores has at `k` the index the remap
table gives for the original index at `k` (iiix 00→00, 01→11, 10→10; xiii
00→01, 01→10, 10→11; iixi unchanged; ixii 00→01, 01→00, 10→11), and, when `cv`
uses only the indices 00 and 10, so has the `cv` of each candidate of
`handle2` (ixxi 00→00, 10→01; ixix 00→00, 10→11; xiix 00→10, 10→11). The new
index at `k` is thus a function of the old index at `k` alone. -/
theorem candidate_cv_remap (cv : Nat) (hcv : cv < 2 ^ 32)
    (hno3 : ∀ j < 16, texel cv j ≠ 3) (k : Nat) (hk : k < 16) :
    texel (cv_iiix cv) k = remap_iiix (texel cv k) ∧
    texel (cv_xiii cv) k = remap_xiii (texel cv k) ∧
    texel (cv_iixi cv) k = remap_iixi (texel cv k) ∧
    texel (cv_ixii cv) k = remap_ixii (texel cv k) ∧
    ((∀ j < 16, texel cv j = 0 ∨ texel cv j = 2) →
      texel (cv_ixxi cv) k = remap_ixxi (texel cv k) ∧
      texel (cv_ixix cv) k = remap_ixix (texel cv k) ∧
      texel (cv_xiix cv) k = remap_xiix (texel cv k)) := by
  have hb := bits_of_ne_three (hno3 k hk)
  obtain ⟨hs0, hs1⟩ := shl_mask_bits cv k hk
  refine ⟨?_, ?_, ?_, ?_, ?_⟩
  · rw [texel_eq_bits (cv_iiix cv), texel_eq_bits cv]
    unfold cv_iiix
    rw [Nat.testBit_lor, Nat.testBit_lor, hs0, hs1]
    cases h0 : cv.testBit (2 * k) <;> cases h1 : cv.testBit (2 * k + 1) <;>
      simp_all [remap_iiix]
  · rw [texel_eq_bits (cv_xiii cv), texel_eq_bits cv]
    unfold cv_xiii
    rw [Nat.testBit_lor, Nat.testBit_lor, hs0, hs1, Nat.testBit_xor, Nat.testBit_xor,
      testBit_5_even k hk, testBit_5_odd]
    cases h0 : cv.testBit (2 * k) <;> cases h1 : cv.testBit (2 * k + 1) <;>
      simp_all [remap_xiii]
  · rfl
  · rw [texel_eq_bits (cv_ixii cv), texel_eq_bits cv]
    unfold cv_ixii
    rw [Nat.testBit_xor, Nat.testBit_xor, testBit_5_even k hk, testBit_5_odd]
    cases h0 : cv.testBit (2 * k) <;> cases h1 : cv.testBit (2 * k + 1) <;>
      simp_all [remap_ixii]
  · intro h02
    obtain ⟨hr0, hr1⟩ := shr_bits cv k hk hcv h02
    have hlo := low_bit_of_even (h02 k hk)
    refine ⟨?_, ?_, ?_⟩
    · rw [texel_eq_bits (cv_ixxi cv), texel_eq_bits cv]
      unfold cv_ixxi
      rw [hr0, hr1, hlo]
      cases h1 : cv.testBit (2 * k + 1) <;> simp [remap_ixxi]
    · rw [texel_eq_bits (cv_ixix cv), texel_eq_bits cv]
      unfold cv_ixix
      rw [Nat.testBit_lor, Nat.testBit_lor, hr0, hr1, hlo]
      cases h1 : cv.testBit (2 * k + 1) <;> simp [remap_ixix]
    · rw [texel_eq_bits (cv_xiix cv), texel_eq_bits cv]
      unfold cv_xiix
      rw [Nat.testBit_lor, Nat.testBit_lor, hr0, hr1, hlo, testBit_A_even, testBit_A_odd k hk]
      cases h1 : cv.testBit (2 * k + 1) <;> simp [remap_xiix]

/-- Witness of C5: `cv = 0x22` (texels 0 and 2 of index 10, the rest 00) at
texel 2. -/
theorem candidate_cv_remap_witness :
    (∀ j < 16, texel 0x22 j = 0 ∨ texel 0x22 j = 2) ∧
    texel 0x22 2 = 2 ∧ texel (cv_iiix 0x22) 2 = 2 ∧ texel (cv_xiii 0x22) 2 = 3 ∧
    texel (cv_ixii 0x22) 2 = 3 ∧ texel (cv_ixxi 0x22) 2 = 1 ∧ texel (cv_ixix 0x22) 2 = 3 ∧
    texel (cv_xiix 0x22) 2 = 3 ∧
    texel (cv_iiix 0x22) 2 = remap_iiix (texel 0x22 2) ∧
    texel (cv_xiii 0x22) 2 = remap_xiii (texel 0x22 2) ∧
    texel (cv_iixi 0x22) 2 = remap_iixi (texel 0x22 2) ∧
    texel (cv_ixii 0x22) 2 = remap_ixii (texel 0x22 2) ∧
    ((∀ j < 16, texel 0x22 j = 0 ∨ texel 0x22 j = 2) →
      texel (cv_ixxi 0x22) 2 = remap_ixxi (texel 0x22 2) ∧
      texel (cv_ixix 0x22) 2 = remap_ixix (texel 0x22 2) ∧
      texel (cv_xiix 0x22) 2 = remap_xiix (texel 0x22 2)) :=
  ⟨by decide, by decide, by decide, by decide, by decide, by decide, by decide, by decide,
    candidate_cv_remap 0x22 (by decide) (by decide) 2 (by decide)⟩

/-! ## The mipmap chain -/

theorem and3_eq_mod4 (n : Nat) : n &&& 3 = n % 4 := Nat.and_pow_two_sub_one_eq_mod n 2

theorem half_mul_half_le (w h : Nat) : 4 * ((w / 2) * (h / 2)) ≤ w * h := by
  have h1 := Nat.mul_le_mul (Nat.div_mul_le_self w 2) (Nat.div_mul_le_self h 2)
  calc 4 * ((w / 2) * (h / 2)) = (w / 2 * 2) * (h / 2 * 2) := by ring
    _ ≤ w * h := h1

theorem chain_bytes_le (bdiv : Nat) : ∀ k w h, chain_bytes bdiv k w h ≤ 2 * (w * h) := by
  intro k
  induction k with
  | zero => intro w h; simp [chain_bytes]
  | succ k ih =>
    intro w h
    have h1 := ih (w / 2) (h / 2)
    have h2 := half_mul_half_le w h
    have h3 : w * h / bdiv ≤ w * h := Nat.div_le_self _ _
    simp only [chain_bytes]
    omega

/-- Below `2 ^ 15` the `int` product of `level_bytes` is exact. -/
theorem level_bytes_small (bdiv w h : Nat) (hw : w < 2 ^ 15) (hh : h < 2 ^ 15) :
    level_bytes w h bdiv = w * h / bdiv := by
  have h1 : w * h < 2 ^ 15 * 2 ^ 15 := Nat.mul_lt_mul'' hw hh
  have h2 : (w * h) % 2 ^ 32 = w * h := Nat.mod_eq_of_lt (by omega)
  unfold level_bytes
  simp only [h2]
  rw [if_pos (by omega)]

/-- The count of `level_loop` is the number of valid levels. -/
theorem level_loop_count (bdiv : Nat) : ∀ n w h m b m' b', 1 ≤ w → 1 ≤ h →
    level_loop bdiv n w h m b = .ok (m', b') → m' = m + valid_levels n w h := by
  intro n
  induction n with
  | zero =>
    intro w h m b m' b' _ _ hl
    simp only [level_loop] at hl
    injection hl with hl; injection hl with h1 h2
    simp [valid_levels, h1]
  | succ n ih =>
    intro w h m b m' b' hw hh hl
    simp only [level_loop, and3_eq_mod4] at hl
    by_cases hv : w % 4 ≠ 0 ∨ h % 4 ≠ 0
    · rw [if_pos hv] at hl
      by_cases hb : w ≥ 4 ∨ h ≥ 4
      · rw [if_pos hb] at hl; cases hl
      · rw [if_neg hb] at hl
        injection hl with hl; injection hl with h1 h2
        have : ¬ (4 ≤ w ∧ 4 ≤ h ∧ w % 4 = 0 ∧ h % 4 = 0) := by omega
        simp [valid_levels, this, h1]
    · rw [if_neg hv] at hl
      have hval : 4 ≤ w ∧ 4 ≤ h ∧ w % 4 = 0 ∧ h % 4 = 0 := by omega
      have := ih (w / 2) (h / 2) (m + 1) _ m' b' (by omega) (by omega) hl
      simp only [valid_levels, if_pos hval]
      omega

/-- Re-running `level_loop` with the count it returned as the limit returns
the same count and the same byte total. -/
theorem level_loop_idem (bdiv : Nat) : ∀ n w h m b m' b',
    level_loop bdiv n w h m b = .ok (m', b') →
    m ≤ m' ∧ level_loop bdiv (m' - m) w h m b = .ok (m', b') := by
  intro n
  induction n with
  | zero =>
    intro w h m b m' b' hl
    simp only [level_loop] at hl
    injection hl with hl; injection hl with h1 h2
    subst h1; subst h2
    simp [level_loop]
  | succ n ih =>
    intro w h m b m' b' hl
    simp only [level_loop] at hl
    by_cases hv : w &&& 3 ≠ 0 ∨ h &&& 3 ≠ 0
    · rw [if_pos hv] at hl
      by_cases hb : w ≥ 4 ∨ h ≥ 4
      · rw [if_pos hb] at hl; cases hl
      · rw [if_neg hb] at hl
        injection hl with hl; injection hl with h1 h2
        subst h1; subst h2
        simp [level_loop]
    · rw [if_neg hv] at hl
      obtain ⟨hle, hre⟩ := ih (w / 2) (h / 2) (m + 1) _ m' b' hl
      refine ⟨by omega, ?_⟩
      have e : m' - m = (m' - (m + 1)) + 1 := by omega
      rw [e]
      simp only [level_loop]
      rw [if_neg hv]
      exact hre

/-- Below `2 ^ 15`, and away from the `size_t` limit, the byte total of
`level_loop` is the exact chain sum. -/
theorem level_loop_small (bdiv : Nat) : ∀ n w h m b m' b', 1 ≤ w → 1 ≤ h →
    w < 2 ^ 15 → h < 2 ^ 15 → b + 2 * (w * h) < 2 ^ 64 →
    level_loop bdiv n w h m b = .ok (m', b') →
    b' = b + chain_bytes bdiv (valid_levels n w h) w h := by
  intro n
  induction n with
  | zero =>
    intro w h m b m' b' _ _ _ _ _ hl
    simp only [level_loop] at hl
    injection hl with hl; injection hl with h1 h2
    simp [valid_levels, chain_bytes, h2]
  | succ n ih =>
    intro w h m b m' b' hw hh hw15 hh15 hb64 hl
    simp only [level_loop, and3_eq_mod4] at hl
    by_cases hv : w % 4 ≠ 0 ∨ h % 4 ≠ 0
    · rw [if_pos hv] at hl
      by_cases hb : w ≥ 4 ∨ h ≥ 4
      · rw [if_pos hb] at hl; cases hl
      · rw [if_neg hb] at hl
        injection hl with hl; injection hl with h1 h2
        have : ¬ (4 ≤ w ∧ 4 ≤ h ∧ w % 4 = 0 ∧ h % 4 = 0) := by omega
        simp [valid_levels, this, chain_bytes, h2]
    · rw [if_neg hv] at hl
      have hval : 4 ≤ w ∧ 4 ≤ h ∧ w % 4 = 0 ∧ h % 4 = 0 := by omega
      have hlb := level_bytes_small bdiv w h hw15 hh15
      have hdiv : w * h / bdiv ≤ w * h := Nat.div_le_self _ _
      have hhalf := half_mul_half_le w h
      have hmod : (b + level_bytes w h bdiv) % 2 ^ 64 = b + w * h / bdiv := by
        rw [hlb]; exact Nat.mod_eq_of_lt (by omega)
      rw [hmod] at hl
      have := ih (w / 2) (h / 2) (m + 1) _ m' b' (by omega) (by omega) (by omega) (by omega)
        (by omega) hl
      simp only [valid_levels, if_pos hval, chain_bytes]
      have e : 1 + valid_levels n (w / 2) (h / 2) = valid_levels n (w / 2) (h / 2) + 1 := by omega
      rw [e]
      simp only [chain_bytes]
      omega

/-! ## Bytes of a texture -/

theorem get_u16_lt (bs : List (Fin 256)) (i : Nat) : get_u16 bs i < 65536 := by
  unfold get_u16
  omega

theorem get_u16_congr {t1 t2 : List (Fin 256)} {i : Nat} (h0 : t1[i]? = t2[i]?)
    (h1 : t1[i + 1]? = t2[i + 1]?) : get_u16 t1 i = get_u16 t2 i := by
  simp only [get_u16, List.getD_eq_getElem?_getD, h0, h1]

theorem get_u16_drop (t : List (Fin 256)) (o i : Nat) :
    get_u16 (t.drop o) i = get_u16 t (o + i) := by
  simp only [get_u16, List.getD_eq_getElem?_getD, List.getElem?_drop, Nat.add_assoc]

theorem get_u16_of_bytes {t : List (Fin 256)} {i v : Nat} (hv : v < 65536)
    (h0 : t[i]? = some (Fin.ofNat v)) (h1 : t[i + 1]? = some (Fin.ofNat (v / 256))) :
    get_u16 t i = v := by
  simp only [get_u16, List.getD_eq_getElem?_getD, h0, h1, Option.getD_some, Fin.ofNat]
  omega

/-- A header is decoded from the first 14 bytes only. -/
theorem decode_header_congr {t1 t2 : List (Fin 256)} (h : ∀ i < 14, t1[i]? = t2[i]?) :
    tex_header.decode t1 = tex_header.decode t2 := by
  unfold tex_header.decode
  rw [get_u16_congr (h 0 (by omega)) (h 1 (by omega)),
    get_u16_congr (h 2 (by omega)) (h 3 (by omega)),
    get_u16_congr (h 4 (by omega)) (h 5 (by omega)),
    get_u16_congr (h 6 (by omega)) (h 7 (by omega)),
    get_u16_congr (h 8 (by omega)) (h 9 (by omega)),
    get_u16_congr (h 10 (by omega)) (h 11 (by omega)),
    get_u16_congr (h 12 (by omega)) (h 13 (by omega))]

/-- Decoding an encoded header of 16-bit fields gives the header back. -/
theorem decode_encode_header (h : tex_header) (rest : List (Fin 256))
    (h1 : h.width < 65536) (h2 : h.height < 65536) (h3 : h.type < 65536)
    (h4 : h.mmaps < 65536) (h5 : h.u1 < 65536) (h6 : h.u2 < 65536) (h7 : h.u3 < 65536) :
    tex_header.decode (h.encode ++ rest) = h := by
  cases h with
  | mk width height type mmaps u1 u2 u3 =>
    simp only at h1 h2 h3 h4 h5 h6 h7
    simp only [tex_header.decode, tex_header.encode, put_u16, List.cons_append, List.nil_append,
      List.append_assoc]
    rw [get_u16_of_bytes h1 (by simp) (by simp), get_u16_of_bytes h2 (by simp) (by simp),
      get_u16_of_bytes h3 (by simp) (by simp), get_u16_of_bytes h4 (by simp) (by simp),
      get_u16_of_bytes h5 (by simp) (by simp), get_u16_of_bytes h6 (by simp) (by simp),
      get_u16_of_bytes h7 (by simp) (by simp)]

theorem encode_header_length (h : tex_header) : h.encode.length = 14 := by
  simp [tex_header.encode, put_u16]

/-- The bytes of a texture after `helper_override`. -/
theorem helper_override_spec {t t1 bytes : List (Fin 256)} {ro sz : Nat}
    (hsz : bytes.length = sz) (hro : ro ≤ t.length)
    (h : helper_override t ro sz bytes = .ok t1) :
    sz ≤ ro ∧ t1.length = t.length ∧
    ∀ i, t1[i]? = if i < ro - sz then t[i]? else if i < ro then bytes[i - (ro - sz)]? else t[i]? := by
  unfold helper_override at h
  by_cases hlt : ro < sz
  · rw [if_pos hlt] at h; cases h
  · rw [if_neg hlt] at h
    injection h with h
    subst h
    refine ⟨by omega, ?_, ?_⟩
    · simp only [List.length_append, List.length_take, List.length_drop]
      omega
    · intro i
      rw [List.append_assoc, List.getElem?_append, List.getElem?_append, List.getElem?_take,
        List.getElem?_drop, List.length_take]
      have hmin : min (ro - sz) t.length = ro - sz := by omega
      rw [hmin]
      by_cases h1 : i < ro - sz
      · simp [h1]
      · by_cases h2 : i < ro
        · have : i - (ro - sz) < bytes.length := by omega
          simp [h1, h2, this]
        · have : ¬ (i - (ro - sz) < bytes.length) := by omega
          have e : ro + (i - (ro - sz) - bytes.length) = i := by omega
          simp [h1, h2, this, e]

/-! ## The per-block step inside a texture -/

theorem clean_alpha (c : dxt5_chunk) : (clean c).1.alpha = c.alpha := by
  unfold clean
  split_ifs <;> rfl

/-- What the inner loop needs of a successful per-block step: the alpha bytes
are kept, the result has 16-bit endpoints with `cs0 > cs1`, and a chunk that is
not written back already had `cs0 > cs1`. -/
theorem fix_chunk_step {c c' : dxt5_chunk} {d : Bool} (h0 : c.cs0 < 65536) (h1 : c.cs1 < 65536)
    (h : fix_chunk c = .ok (c', d)) :
    c'.alpha = c.alpha ∧ c'.cs1 < c'.cs0 ∧ c'.cs0 < 65536 ∧ c'.cs1 < 65536 ∧
    (d = false → c.cs1 < c.cs0) := by
  unfold fix_chunk at h
  split_ifs at h with hlt hcv heq hz
  · injection h with h; injection h with h hd; subst h; subst hd; simp; omega
  · cases hfb : fix_block c with
    | error e => rw [hfb] at h; cases h
    | ok fixed =>
      rw [hfb] at h
      injection h with h; injection h with h hd; subst h; subst hd
      obtain ⟨hf0, hf1, hfa⟩ := fix_block_u16 hfb
      have hc := clean_u16 fixed hf0 hf1
      exact ⟨by rw [clean_alpha, hfa], clean_canonical fixed, hc.1, hc.2, by simp⟩
  · injection h with h; injection h with h hd; subst h; subst hd; simp; omega
  · injection h with h; injection h with h hd; subst h; subst hd; simp; omega
  · injection h with h; injection h with h hd; subst h; subst hd
    exact ⟨rfl, by omega, h0, h1, fun _ => by omega⟩

/-- A chunk with `cs0 > cs1` passes the per-block step unchanged and unwritten. -/
theorem fix_chunk_of_gt {c : dxt5_chunk} (h : c.cs1 < c.cs0) : fix_chunk c = .ok (c, false) := by
  unfold fix_chunk
  rw [if_neg (by omega), if_neg (by omega)]

/-- The bytes of an encoded chunk with eight alpha bytes. -/
theorem encode_chunk_bytes (c : dxt5_chunk) (ha : c.alpha.length = 8) :
    c.encode.length = 16 ∧ (∀ j < 8, c.encode[j]? = c.alpha[j]?) ∧
    c.encode[8]? = some (Fin.ofNat c.cs0) ∧ c.encode[9]? = some (Fin.ofNat (c.cs0 / 256)) ∧
    c.encode[10]? = some (Fin.ofNat c.cs1) ∧ c.encode[11]? = some (Fin.ofNat (c.cs1 / 256)) := by
  have e : c.encode = c.alpha ++ [Fin.ofNat c.cs0, Fin.ofNat (c.cs0 / 256), Fin.ofNat c.cs1,
      Fin.ofNat (c.cs1 / 256), Fin.ofNat c.cv, Fin.ofNat (c.cv / 256), Fin.ofNat (c.cv / 65536),
      Fin.ofNat (c.cv / 16777216)] := by
    simp [dxt5_chunk.encode, put_u16, put_u32]
  rw [e]
  refine ⟨by simp [ha], ?_, ?_, ?_, ?_, ?_⟩
  · intro j hj
    rw [List.getElem?_append, if_pos (by omega)]
  all_goals rw [List.getElem?_append, if_neg (by omega), ha]; rfl

/-- The chunk read at `off` has the eight bytes at `off` as its alpha bytes. -/
theorem decode_chunk_alpha (t : List (Fin 256)) (off : Nat) (h : off + 16 ≤ t.length) :
    (dxt5_chunk.decode (t.drop off)).alpha.length = 8 ∧
    ∀ j < 8, (dxt5_chunk.decode (t.drop off)).alpha[j]? = t[off + j]? := by
  unfold dxt5_chunk.decode
  simp only
  refine ⟨by simp only [List.length_take, List.length_drop]; omega, ?_⟩
  intro j hj
  rw [List.getElem?_take, if_pos hj, List.getElem?_drop]

/-- The inner loop of `fix_dxt`: on success it visits `n` chunks of 16 bytes,
all inside the texture, keeps the length, touches no byte outside the last
eight bytes of the visited chunks, and leaves every visited chunk with
`cs0 > cs1`. -/
theorem block_loop_spec : ∀ (n : Nat) (t : List (Fin 256)) (off : Nat) (d : Bool)
    (t' : List (Fin 256)) (off' : Nat) (d' : Bool),
    block_loop n t off d = .ok (t', off', d') →
    t'.length = t.length ∧ off' = off + 16 * n ∧ (1 ≤ n → off' ≤ t.length) ∧
    (∀ i, (i < off ∨ off' ≤ i ∨ (i - off) % 16 < 8) → t'[i]? = t[i]?) ∧
    (∀ j < n, get_u16 t' (off + 16 * j + 10) < get_u16 t' (off + 16 * j + 8)) := by
  intro n
  induction n with
  | zero =>
    intro t off d t' off' d' h
    simp only [block_loop] at h
    injection h with h; injection h with h1 h2; injection h2 with h2 h3
    subst h1; subst h2
    exact ⟨rfl, rfl, by omega, fun _ _ => rfl, fun j hj => by omega⟩
  | succ n ih =>
    intro t off d t' off' d' h
    simp only [block_loop, helper_read_chunk_at, sizeof_dxt5_chunk] at h
    by_cases hlen : t.length < off + 16
    · rw [if_pos hlen] at h; cases h
    · rw [if_neg hlen] at h
      simp only at h
      have hlen' : off + 16 ≤ t.length := by omega
      obtain ⟨hal, hab⟩ := decode_chunk_alpha t off hlen'
      have hc0 : (dxt5_chunk.decode (t.drop off)).cs0 = get_u16 t (off + 8) := by
        simp only [dxt5_chunk.decode, get_u16_drop]
      have hc1 : (dxt5_chunk.decode (t.drop off)).cs1 = get_u16 t (off + 10) := by
        simp only [dxt5_chunk.decode, get_u16_drop]
      cases hfc : fix_chunk (dxt5_chunk.decode (t.drop off)) with
      | error e => rw [hfc] at h; cases h
      | ok r =>
        obtain ⟨c', w⟩ := r
        obtain ⟨hfa, hgt, hl0, hl1, hfalse⟩ := fix_chunk_step
          (by rw [hc0]; exact get_u16_lt _ _) (by rw [hc1]; exact get_u16_lt _ _) hfc
        rw [hfc] at h
        cases w with
        | true =>
          simp only at h
          cases hov : helper_override t (off + 16) 16 c'.encode with
          | error e => rw [hov] at h; cases h
          | ok t1 =>
            rw [hov] at h
            simp only at h
            obtain ⟨henc, hea, he8, he9, he10, he11⟩ := encode_chunk_bytes c' (by rw [hfa]; exact hal)
            obtain ⟨_, hl1', hget⟩ := helper_override_spec henc hlen' hov
            obtain ⟨ihl, iho, _, ihf, ihc⟩ := ih t1 (off + 16) true t' off' d' h
            have hsub : off + 16 - 16 = off := by omega
            rw [hsub] at hget
            have hpre : ∀ i, i < off + 16 → t'[i]? = t1[i]? := fun i hi => ihf i (Or.inl hi)
            refine ⟨by omega, by omega, fun _ => by omega, ?_, ?_⟩
            · intro i hi
              by_cases h1 : i < off
              · rw [ihf i (Or.inl (by omega)), hget, if_pos h1]
              · by_cases h2 : i < off + 16
                · have h3 : i - off < 8 := by omega
                  rw [ihf i (Or.inl h2), hget, if_neg h1, if_pos h2, hea _ h3, hfa, hab _ h3]
                  congr 1; omega
                · have h3 : off' ≤ i ∨ (i - (off + 16)) % 16 < 8 := by omega
                  rw [ihf i (Or.inr h3), hget, if_neg h1, if_neg h2]
            · intro j hj
              rcases Nat.eq_zero_or_pos j with hj0 | hjp
              · subst hj0
                have g8 : get_u16 t' (off + 8) = c'.cs0 := by
                  apply get_u16_of_bytes hl0
                  · rw [hpre _ (by omega), hget, if_neg (by omega), if_pos (by omega), ← he8]
                    congr 1; omega
                  · rw [hpre _ (by omega), hget, if_neg (by omega), if_pos (by omega), ← he9]
                    congr 1; omega
                have g10 : get_u16 t' (off + 10) = c'.cs1 := by
                  apply get_u16_of_bytes hl1
                  · rw [hpre _ (by omega), hget, if_neg (by omega), if_pos (by omega), ← he10]
                    congr 1; omega
                  · rw [hpre _ (by omega), hget, if_neg (by omega), if_pos (by omega), ← he11]
                    congr 1; omega
                simp only [Nat.mul_zero, Nat.add_zero]
                rw [g8, g10]
                exact hgt
              · have := ihc (j - 1) (by omega)
                have e1 : off + 16 + 16 * (j - 1) + 10 = off + 16 * j + 10 := by omega
                have e2 : off + 16 + 16 * (j - 1) + 8 = off + 16 * j + 8 := by omega
                rw [e1, e2] at this
                exact this
        | false =>
          simp only at h
          obtain ⟨ihl, iho, _, ihf, ihc⟩ := ih t (off + 16) d t' off' d' h
          have hpre : ∀ i, i < off + 16 → t'[i]? = t[i]? := fun i hi => ihf i (Or.inl hi)
          refine ⟨ihl, by omega, fun _ => by omega, ?_, ?_⟩
          · intro i hi
            by_cases h2 : i < off + 16
            · exact hpre i h2
            · exact ihf i (Or.inr (by omega))
          · intro j hj
            rcases Nat.eq_zero_or_pos j with hj0 | hjp
            · subst hj0
              simp only [Nat.mul_zero, Nat.add_zero]
              rw [get_u16_congr (hpre _ (by omega)) (hpre _ (by omega)),
                get_u16_congr (hpre (off + 8) (by omega)) (hpre _ (by omega)), ← hc0, ← hc1]
              exact hfalse rfl
            · have := ihc (j - 1) (by omega)
              have e1 : off + 16 + 16 * (j - 1) + 10 = off + 16 * j + 10 := by omega
              have e2 : off + 16 + 16 * (j - 1) + 8 = off + 16 * j + 8 := by omega
              rw [e1, e2] at this
              exact this

/-- The inner loop of `fix_dxt` over chunks that all have `cs0 > cs1` changes
nothing. -/
theorem block_loop_of_gt : ∀ (n : Nat) (t : List (Fin 256)) (off : Nat) (d : Bool),
    off + 16 * n ≤ t.length →
    (∀ j < n, get_u16 t (off + 16 * j + 10) < get_u16 t (off + 16 * j + 8)) →
    block_loop n t off d = .ok (t, off + 16 * n, d) := by
  intro n
  induction n with
  | zero => intro t off d _ _; simp [block_loop]
  | succ n ih =>
    intro t off d hlen hc
    simp only [block_loop, helper_read_chunk_at, sizeof_dxt5_chunk]
    rw [if_neg (by omega)]
    have h0 := hc 0 (by omega)
    simp only [Nat.mul_zero, Nat.add_zero] at h0
    have hgt : (dxt5_chunk.decode (t.drop off)).cs1 < (dxt5_chunk.decode (t.drop off)).cs0 := by
      simp only [dxt5_chunk.decode, get_u16_drop]
      exact h0
    simp only [fix_chunk_of_gt hgt]
    rw [ih t (off + 16) d (by omega)]
    · have e : off + 16 + 16 * n = off + 16 * (n + 1) := by omega
      rw [e]
    · intro j hj
      have := hc (j + 1) (by omega)
      have e1 : off + 16 * (j + 1) + 10 = off + 16 + 16 * j + 10 := by omega
      have e2 : off + 16 * (j + 1) + 8 = off + 16 + 16 * j + 8 := by omega
      rw [e1, e2] at this
      exact this

/-- The outer loop of `fix_dxt`: on success it visits `block_total m blocks`
chunks of 16 bytes, all inside the texture, keeps the length, touches no byte
outside the last eight bytes of the visited chunks, and leaves every visited
chunk with `cs0 > cs1`. -/
theorem mmap_loop_spec : ∀ (m blocks : Nat) (t : List (Fin 256)) (off : Nat) (d : Bool)
    (t' : List (Fin 256)) (off' : Nat) (d' : Bool),
    mmap_loop m blocks t off d = .ok (t', off', d') →
    t'.length = t.length ∧ off' = off + 16 * block_total m blocks ∧
    (1 ≤ block_total m blocks → off' ≤ t.length) ∧
    (∀ i, (i < off ∨ off' ≤ i ∨ (i - off) % 16 < 8) → t'[i]? = t[i]?) ∧
    (∀ j < block_total m blocks,
      get_u16 t' (off + 16 * j + 10) < get_u16 t' (off + 16 * j + 8)) := by
  intro m
  induction m with
  | zero =>
    intro blocks t off d t' off' d' h
    simp only [mmap_loop] at h
    injection h with h; injection h with h1 h2; injection h2 with h2 h3
    subst h1; subst h2
    exact ⟨rfl, by simp [block_total], by simp [block_total], fun _ _ => rfl,
      fun j hj => by simp [block_total] at hj⟩
  | succ m ih =>
    intro blocks t off d t' off' d' h
    simp only [mmap_loop] at h
    cases hb : block_loop blocks t off d with
    | error e => rw [hb] at h; cases h
    | ok r =>
      obtain ⟨t1, off1, d1⟩ := r
      rw [hb] at h
      simp only at h
      obtain ⟨bl, bo, bb, bf, bc⟩ := block_loop_spec blocks t off d t1 off1 d1 hb
      obtain ⟨ml, mo, mb, mf, mc⟩ := ih (blocks / 4) t1 off1 d1 t' off' d' h
      simp only [block_total]
      refine ⟨by omega, by omega, ?_, ?_, ?_⟩
      · intro h1
        by_cases h2 : 1 ≤ block_total m (blocks / 4)
        · have := mb h2; omega
        · have h3 : 1 ≤ blocks := by omega
          have := bb h3; omega
      · intro i hi
        by_cases h1 : i < off1
        · rw [mf i (Or.inl h1)]
          exact bf i (by omega)
        · rw [mf i (Or.inr (by omega))]
          exact bf i (Or.inr (Or.inl (by omega)))
      · intro j hj
        by_cases h1 : j < blocks
        · have := bc j h1
          rw [get_u16_congr (mf _ (Or.inl (by omega))) (mf _ (Or.inl (by omega))),
            get_u16_congr (mf (off + 16 * j + 8) (Or.inl (by omega))) (mf _ (Or.inl (by omega)))]
          exact this
        · have := mc (j - blocks) (by omega)
          have e1 : off1 + 16 * (j - blocks) + 10 = off + 16 * j + 10 := by omega
          have e2 : off1 + 16 * (j - blocks) + 8 = off + 16 * j + 8 := by omega
          rw [e1, e2] at this
          exact this

/-- The outer loop of `fix_dxt` over chunks that all have `cs0 > cs1` changes
nothing. -/
theorem mmap_loop_of_gt : ∀ (m blocks : Nat) (t : List (Fin 256)) (off : Nat) (d : Bool),
    off + 16 * block_total m blocks ≤ t.length →
    (∀ j < block_total m blocks,
      get_u16 t (off + 16 * j + 10) < get_u16 t (off + 16 * j + 8)) →
    mmap_loop m blocks t off d = .ok (t, off + 16 * block_total m blocks, d) := by
  intro m
  induction m with
  | zero => intro blocks t off d _ _; simp [mmap_loop, block_total]
  | succ m ih =>
    intro blocks t off d hlen hc
    simp only [block_total] at hlen hc
    simp only [mmap_loop, block_total]
    rw [block_loop_of_gt blocks t off d (by omega) (fun j hj => hc j (by omega))]
    simp only
    rw [ih (blocks / 4) t (off + 16 * blocks) d (by omega)]
    · have e : off + 16 * blocks + 16 * block_total m (blocks / 4)
          = off + 16 * (blocks + block_total m (blocks / 4)) := by omega
      rw [e]
    · intro j hj
      have := hc (blocks + j) (by omega)
      have e1 : off + 16 * (blocks + j) + 10 = off + 16 * blocks + 16 * j + 10 := by omega
      have e2 : off + 16 * (blocks + j) + 8 = off + 16 * blocks + 16 * j + 8 := by omega
      rw [e1, e2] at this
      exact this

/-- On valid levels the chunks the loops visit are the bytes of the chain. -/
theorem block_total_chain : ∀ (k n w h : Nat), k ≤ valid_levels n w h →
    16 * block_total k ((w / 4) * (h / 4)) = chain_bytes 1 k w h := by
  intro k
  induction k with
  | zero => intro n w h _; simp [block_total, chain_bytes]
  | succ k ih =>
    intro n w h hk
    cases n with
    | zero => simp [valid_levels] at hk
    | succ n =>
      simp only [valid_levels] at hk
      by_cases hv : 4 ≤ w ∧ 4 ≤ h ∧ w % 4 = 0 ∧ h % 4 = 0
      · rw [if_pos hv] at hk
        simp only [block_total, chain_bytes, Nat.div_one]
        have hwh : 16 * ((w / 4) * (h / 4)) = w * h := by
          have e1 : w / 4 * 4 = w := Nat.div_mul_cancel (Nat.dvd_of_mod_eq_zero hv.2.2.1)
          have e2 : h / 4 * 4 = h := Nat.div_mul_cancel (Nat.dvd_of_mod_eq_zero hv.2.2.2)
          calc 16 * ((w / 4) * (h / 4)) = (w / 4 * 4) * (h / 4 * 4) := by ring
            _ = w * h := by rw [e1, e2]
        rcases Nat.eq_zero_or_pos k with hk0 | hkp
        · subst hk0
          simp only [block_total, chain_bytes]
          omega
        · have hk' : k ≤ valid_levels n (w / 2) (h / 2) := by omega
          have hnext := ih n (w / 2) (h / 2) hk'
          cases n with
          | zero => simp [valid_levels] at hk'; omega
          | succ n =>
            simp only [valid_levels] at hk'
            by_cases hv2 : 4 ≤ w / 2 ∧ 4 ≤ h / 2 ∧ w / 2 % 4 = 0 ∧ h / 2 % 4 = 0
            · have hq : (w / 4) * (h / 4) / 4 = (w / 2 / 4) * (h / 2 / 4) := by
                have e1 : w / 4 = 2 * (w / 2 / 4) := by omega
                have e2 : h / 4 = 2 * (h / 2 / 4) := by omega
                rw [e1, e2]
                have e3 : 2 * (w / 2 / 4) * (2 * (h / 2 / 4)) = (w / 2 / 4) * (h / 2 / 4) * 4 := by
                  ring
                rw [e3, Nat.mul_div_cancel _ (by norm_num)]
              rw [hq]
              rw [Nat.mul_add, hwh, hnext]
            · rw [if_neg hv2] at hk'; omega
      · rw [if_neg hv] at hk; omega

/-! ## Runs of fix_dxt -/

theorem level_bytes_two_le (w h : Nat) : level_bytes w h 2 ≤ 2 ^ 63 := by
  unfold level_bytes
  have hp : (w * h) % 2 ^ 32 < 2 ^ 32 := Nat.mod_lt _ (by norm_num)
  simp only
  split_ifs <;> omega

/-- The byte total of `level_loop` for a type-22 texture (`bdiv = 2`). -/
theorem level_loop_two {n w h m b : Nat} (hw : 1 ≤ w) (hh : 1 ≤ h) (hw16 : w < 65536)
    (hh16 : h < 65536) (hm : m ≠ 0) (hl : level_loop 2 n w h 0 14 = .ok (m, b)) :
    b = 14 + level_bytes w h 2 + chain_bytes 2 (m - 1) (w / 2) (h / 2) := by
  cases n with
  | zero =>
    simp only [level_loop] at hl
    injection hl with hl; injection hl with h1 h2
    omega
  | succ n =>
    simp only [level_loop, and3_eq_mod4] at hl
    by_cases hv : w % 4 ≠ 0 ∨ h % 4 ≠ 0
    · rw [if_pos hv] at hl
      by_cases hb : w ≥ 4 ∨ h ≥ 4
      · rw [if_pos hb] at hl; cases hl
      · rw [if_neg hb] at hl
        injection hl with hl; injection hl with h1 h2
        omega
    · rw [if_neg hv] at hl
      have hlb := level_bytes_two_le w h
      have hmod : (14 + level_bytes w h 2) % 2 ^ 64 = 14 + level_bytes w h 2 :=
        Nat.mod_eq_of_lt (by omega)
      rw [hmod] at hl
      have hw2 : w / 2 < 2 ^ 15 := by omega
      have hh2 : h / 2 < 2 ^ 15 := by omega
      have hprod : (w / 2) * (h / 2) < 2 ^ 15 * 2 ^ 15 := Nat.mul_lt_mul'' hw2 hh2
      have hc := level_loop_count 2 n (w / 2) (h / 2) (0 + 1) _ m b (by omega) (by omega) hl
      have hs := level_loop_small 2 n (w / 2) (h / 2) (0 + 1) _ m b (by omega) (by omega) hw2 hh2
        (by omega) hl
      have e : m - 1 = valid_levels n (w / 2) (h / 2) := by omega
      rw [e]
      exact hs

theorem valid_levels_le : ∀ n w h, valid_levels n w h ≤ n := by
  intro n
  induction n with
  | zero => intro w h; simp [valid_levels]
  | succ n ih =>
    intro w h
    simp only [valid_levels]
    split_ifs
    · have := ih (w / 2) (h / 2); omega
    · omega

/-- The size check and the trim of `fix_dxt`: the texture that goes on has
exactly `b` bytes, the header of the input with `mmaps` replaced by `m`, and
the payload bytes of the input. -/
theorem trim_spec {t T : List (Fin 256)} {hdr hdr' : tex_header} {m b : Nat} {dirty : Bool}
    (hhdr : tex_header.decode t = hdr) (hlen : 14 ≤ t.length) (hm16 : m < 65536)
    (h : (if hdr.mmaps = m then
            if t.length ≠ b then Except.error mc2_exception.invalid_size
            else Except.ok (t, hdr, false)
          else
            if t.length < b then Except.error mc2_exception.not_as_large_as_expected
            else
              match helper_override t 14 14 { hdr with mmaps := m }.encode with
              | Except.error e => Except.error e
              | Except.ok texture => Except.ok (resize texture b, { hdr with mmaps := m }, true))
        = Except.ok (T, hdr', dirty)) :
    hdr' = { hdr with mmaps := m } ∧ T.length = b ∧ b ≤ t.length ∧
    (∀ i, 14 ≤ i → i < b → T[i]? = t[i]?) ∧ (14 ≤ b → tex_header.decode T = hdr') := by
  by_cases htrim : hdr.mmaps = m
  · rw [if_pos htrim] at h
    by_cases hsz : t.length ≠ b
    · rw [if_pos hsz] at h; cases h
    · rw [if_neg hsz] at h
      injection h with h; injection h with h1 h2; injection h2 with h2 h3
      subst h1; subst h2
      refine ⟨?_, by omega, by omega, fun _ _ _ => rfl, fun _ => hhdr⟩
      cases hdr; simp only at htrim; subst htrim; rfl
  · rw [if_neg htrim] at h
    by_cases hsz : t.length < b
    · rw [if_pos hsz] at h; cases h
    · rw [if_neg hsz] at h
      split at h
      · cases h
      rename_i T0 hov
      injection h with h; injection h with h1 h2; injection h2 with h2 h3
      subst h1; subst h2
      obtain ⟨_, hl0, hget⟩ := helper_override_spec (encode_header_length _) hlen hov
      have hres : ∀ i, i < b → (resize T0 b)[i]? = T0[i]? := by
        intro i hi
        unfold resize
        rw [List.getElem?_append, List.length_take, if_pos (by omega), List.getElem?_take,
          if_pos hi]
      have hfields : hdr.width < 65536 ∧ hdr.height < 65536 ∧ hdr.type < 65536 ∧
          hdr.u1 < 65536 ∧ hdr.u2 < 65536 ∧ hdr.u3 < 65536 := by
        rw [← hhdr]
        exact ⟨get_u16_lt _ _, get_u16_lt _ _, get_u16_lt _ _, get_u16_lt _ _, get_u16_lt _ _,
          get_u16_lt _ _⟩
      refine ⟨rfl, ?_, by omega, ?_, ?_⟩
      · unfold resize
        simp only [List.length_append, List.length_take, List.length_replicate]
        omega
      · intro i h1 h2
        rw [hres i h2, hget, if_neg (by omega), if_neg (by omega)]
      · intro hb
        have hc : ∀ i < 14, (resize T0 b)[i]?
            = ({ hdr with mmaps := m }.encode ++ ([] : List (Fin 256)))[i]? := by
          intro i hi
          rw [hres i (by omega), hget, if_neg (by omega), if_pos (by omega), List.append_nil]
          congr 1
        rw [decode_header_congr hc]
        exact decode_encode_header _ _ hfields.1 hfields.2.1 hfields.2.2.1 hm16 hfields.2.2.2.1
          hfields.2.2.2.2.1 hfields.2.2.2.2.2

/-- The facts about a successful run of `fix_dxt` on a type-22 or type-26
texture of non-zero width and height. -/
theorem fix_dxt_run {t t' : List (Fin 256)} {d : Bool} (h : fix_dxt t = .ok (t', d))
    (hty : (tex_header.decode t).type = 26 ∨ (tex_header.decode t).type = 22)
    (hw : (tex_header.decode t).width ≠ 0) (hh : (tex_header.decode t).height ≠ 0) :
    ∃ m b, 14 ≤ t.length ∧
      level_loop (if (tex_header.decode t).type = 26 then 1 else 2) (tex_header.decode t).mmaps
        (tex_header.decode t).width (tex_header.decode t).height 0 14 = .ok (m, b) ∧
      m ≠ 0 ∧ b ≤ t.length ∧ t'.length = b ∧ 14 ≤ b ∧
      tex_header.decode t' = { tex_header.decode t with mmaps := m } ∧
      (∀ i, 14 ≤ i → i < b → ((i - 14) % 16 < 8 ∨ (tex_header.decode t).type = 22) →
        t'[i]? = t[i]?) ∧
      ((tex_header.decode t).type = 26 →
        b = 14 + 16 * block_total m
          (((tex_header.decode t).width / 4) * ((tex_header.decode t).height / 4)) ∧
        ∀ j < block_total m
            (((tex_header.decode t).width / 4) * ((tex_header.decode t).height / 4)),
          get_u16 t' (14 + 16 * j + 10) < get_u16 t' (14 + 16 * j + 8)) := by
  have hw16 : (tex_header.decode t).width < 65536 := get_u16_lt _ _
  have hh16 : (tex_header.decode t).height < 65536 := get_u16_lt _ _
  have hm16 : (tex_header.decode t).mmaps < 65536 := get_u16_lt _ _
  generalize hhdr : tex_header.decode t = hdr at *
  unfold fix_dxt at h
  simp only [helper_read_header_at, sizeof_tex_header, List.drop_zero, Nat.zero_add, hhdr] at h
  by_cases hlen : t.length < 14
  · rw [if_pos hlen] at h; cases h
  rw [if_neg hlen] at h
  simp only at h
  rw [if_neg (by omega), if_neg (by omega)] at h
  split at h
  · cases h
  rename_i m b hl
  refine ⟨m, b, by omega, hl, ?_⟩
  by_cases hm : m = 0
  · rw [if_pos hm] at h; cases h
  rw [if_neg hm] at h
  have hcount := level_loop_count _ _ _ _ _ _ _ _ (by omega) (by omega) hl
  have hmle := valid_levels_le hdr.mmaps hdr.width hdr.height
  split at h
  · cases h
  rename_i T header dirty htr
  obtain ⟨hh', hTl, hbl, hTf, hTd⟩ := trim_spec hhdr (by omega) (by omega) htr
  subst hh'
  simp only at h
  by_cases h26 : hdr.type = 26
  · rw [if_pos h26] at h
    split at h
    · cases h
    rename_i T2 off2 d2 hml
    by_cases hoff : off2 ≠ b
    · rw [if_pos hoff] at h; cases h
    rw [if_neg hoff] at h
    injection h with h; injection h with h1 h2
    subst h1
    obtain ⟨ml, mo, _, mf, mc⟩ := mmap_loop_spec _ _ _ _ _ _ _ _ hml
    have hb14 : 14 ≤ b := by omega
    refine ⟨hm, hbl, by omega, hb14, ?_, ?_, ?_⟩
    · rw [decode_header_congr (fun i hi => mf i (Or.inl hi))]
      exact hTd hb14
    · intro i h1 h2 h3
      rcases h3 with h3 | h3
      · rw [mf i (Or.inr (Or.inr h3))]
        exact hTf i h1 h2
      · omega
    · intro _
      exact ⟨by omega, mc⟩
  · rw [if_neg h26] at h
    injection h with h; injection h with h1 h2
    subst h1
    have h22 : hdr.type = 22 := by omega
    rw [if_neg h26] at hl
    have hb := level_loop_two (by omega) (by omega) hw16 hh16 hm hl
    have hb14 : 14 ≤ b := by omega
    exact ⟨hm, hbl, hTl, hb14, hTd hb14, fun i h1 h2 _ => hTf i h1 h2, fun h => absurd h h26⟩


/-- A texture of another type, or of zero width or height, passes `fix_dxt`
unchanged. -/
theorem fix_dxt_passthrough {t : List (Fin 256)} (hlen : 14 ≤ t.length)
    (hp : ((tex_header.decode t).type ≠ 26 ∧ (tex_header.decode t).type ≠ 22) ∨
      (tex_header.decode t).width = 0 ∨ (tex_header.decode t).height = 0) :
    fix_dxt t = .ok (t, false) := by
  unfold fix_dxt
  simp only [helper_read_header_at, sizeof_tex_header, List.drop_zero, Nat.zero_add]
  rw [if_neg (by omega)]
  simp only
  by_cases h1 : (tex_header.decode t).type ≠ 26 ∧ (tex_header.decode t).type ≠ 22
  · rw [if_pos h1]
  · rw [if_neg h1, if_pos (by tauto)]

theorem fix_dxt_length {t t' : List (Fin 256)} {d : Bool} (h : fix_dxt t = .ok (t', d)) :
    14 ≤ t.length := by
  unfold fix_dxt at h
  simp only [helper_read_header_at, sizeof_tex_header, List.drop_zero, Nat.zero_add] at h
  by_cases hlen : t.length < 14
  · rw [if_pos hlen] at h; cases h
  · omega

/-- A texture whose header counts exactly its valid levels, whose length is the
byte total of `level_loop`, and whose chunks all have `cs0 > cs1`, passes
`fix_dxt` unchanged. -/
theorem fix_dxt_of_repaired {t : List (Fin 256)} {b : Nat} (hlen : 14 ≤ t.length)
    (hty : (tex_header.decode t).type = 26 ∨ (tex_header.decode t).type = 22)
    (hw : (tex_header.decode t).width ≠ 0) (hh : (tex_header.decode t).height ≠ 0)
    (hl : level_loop (if (tex_header.decode t).type = 26 then 1 else 2)
      (tex_header.decode t).mmaps (tex_header.decode t).width (tex_header.decode t).height 0 14
        = .ok ((tex_header.decode t).mmaps, b))
    (hm : (tex_header.decode t).mmaps ≠ 0) (hb : t.length = b)
    (h26 : (tex_header.decode t).type = 26 →
      b = 14 + 16 * block_total (tex_header.decode t).mmaps
        (((tex_header.decode t).width / 4) * ((tex_header.decode t).height / 4)) ∧
      ∀ j < block_total (tex_header.decode t).mmaps
          (((tex_header.decode t).width / 4) * ((tex_header.decode t).height / 4)),
        get_u16 t (14 + 16 * j + 10) < get_u16 t (14 + 16 * j + 8)) :
    fix_dxt t = .ok (t, false) := by
  generalize hhdr : tex_header.decode t = hdr at *
  unfold fix_dxt
  simp only [helper_read_header_at, sizeof_tex_header, List.drop_zero, Nat.zero_add, hhdr]
  rw [if_neg (by omega)]
  simp only
  rw [if_neg (by omega), if_neg (by omega)]
  simp only [hl]
  rw [if_neg hm]
  simp only [if_true]
  rw [if_neg (by omega)]
  simp only
  by_cases h : hdr.type = 26
  · obtain ⟨hb', hc⟩ := h26 h
    rw [if_pos h, mmap_loop_of_gt _ _ _ _ _ (by omega) hc]
    simp only
    rw [if_neg (by omega)]
  · rw [if_neg h]

/-- C3. On every texture of type 22 or 26 with non-zero width and height (and
a 32-bit length, as every payload of an archive has) on which `fix_dxt`
succeeds, the `mmaps` field of the output header is the number of successive
levels, starting at `(width, height)`, halving at each step, at most the input
`mmaps`, whose two dimensions are both at least 4 and divisible by 4, and the
output has `14 + Σ w_i * h_i / bdiv` bytes over those levels, with `bdiv = 1`
for type 26 and `bdiv = 2` for type 22. -/
theorem fix_dxt_chain_length (t t' : List (Fin 256)) (d : Bool)
    (h : fix_dxt t = .ok (t', d))
    (hty : (tex_header.decode t).type = 26 ∨ (tex_header.decode t).type = 22)
    (hw : (tex_header.decode t).width ≠ 0) (hh : (tex_header.decode t).height ≠ 0)
    (hlen : t.length < 2 ^ 32) :
    (tex_header.decode t').mmaps
      = valid_levels (tex_header.decode t).mmaps (tex_header.decode t).width
          (tex_header.decode t).height ∧
    t'.length = 14 + chain_bytes (if (tex_header.decode t).type = 26 then 1 else 2)
      (valid_levels (tex_header.decode t).mmaps (tex_header.decode t).width
        (tex_header.decode t).height)
      (tex_header.decode t).width (tex_header.decode t).height := by
  obtain ⟨m, b, _, hl, hm, hbl, hl', _, hdec, _, h26⟩ := fix_dxt_run h hty hw hh
  have hw16 : (tex_header.decode t).width < 65536 := get_u16_lt _ _
  have hh16 : (tex_header.decode t).height < 65536 := get_u16_lt _ _
  have hcount := level_loop_count _ _ _ _ _ _ _ _ (by omega) (by omega) hl
  rw [Nat.zero_add] at hcount
  rw [hdec, hl']
  refine ⟨hcount, ?_⟩
  rw [← hcount]
  by_cases ht : (tex_header.decode t).type = 26
  · rw [if_pos ht]
    rw [(h26 ht).1, block_total_chain m (tex_header.decode t).mmaps _ _ (by omega)]
  · rw [if_neg ht] at hl ⊢
    have hb := level_loop_two (by omega) (by omega) hw16 hh16 hm hl
    have hprod : (tex_header.decode t).width * (tex_header.decode t).height
        < 65536 * 65536 := Nat.mul_lt_mul'' hw16 hh16
    have hlb : level_bytes (tex_header.decode t).width (tex_header.decode t).height 2
        = (tex_header.decode t).width * (tex_header.decode t).height / 2 := by
      have hlt : level_bytes (tex_header.decode t).width (tex_header.decode t).height 2
          < 2 ^ 32 := by omega
      unfold level_bytes at hlt ⊢
      have hp : (tex_header.decode t).width * (tex_header.decode t).height % 2 ^ 32
          = (tex_header.decode t).width * (tex_header.decode t).height :=
        Nat.mod_eq_of_lt (by omega)
      simp only [hp] at hlt ⊢
      split_ifs at hlt ⊢ with hc
      · rfl
      · omega
    have e : m = (m - 1) + 1 := by omega
    rw [hb, hlb]
    conv_rhs => rw [e]
    simp only [chain_bytes]
    omega

/-- Witness of C3, scenario S5: a type-22 texture, 8×8, `mmaps = 5`, of 60
bytes comes out with `mmaps = 2` and 54 bytes. -/
theorem fix_dxt_chain_length_witness :
    fix_dxt s5_input = .ok (s5_output, true) ∧
    (tex_header.decode s5_output).mmaps = 2 ∧ s5_output.length = 54 ∧
    valid_levels 5 8 8 = 2 ∧ 14 + chain_bytes 2 2 8 8 = 54 ∧
    ((tex_header.decode s5_output).mmaps
      = valid_levels (tex_header.decode s5_input).mmaps (tex_header.decode s5_input).width
          (tex_header.decode s5_input).height ∧
    s5_output.length = 14 + chain_bytes (if (tex_header.decode s5_input).type = 26 then 1 else 2)
      (valid_levels (tex_header.decode s5_input).mmaps (tex_header.decode s5_input).width
        (tex_header.decode s5_input).height)
      (tex_header.decode s5_input).width (tex_header.decode s5_input).height) :=
  ⟨rfl, by decide, by decide, by decide, by decide,
    fix_dxt_chain_length s5_input s5_output true rfl (by decide) (by decide) (by decide)
      (by decide)⟩

/-- C10. On every texture on which `fix_dxt` succeeds, the header fields
`width`, `height`, `type` and the three unknown fields of the output are those
of the input (only `mmaps` may differ), and the first eight bytes (the alpha
bytes) of every 16-byte chunk that lies in the output are the bytes the input
has at the same place. -/
theorem fix_dxt_frame (t t' : List (Fin 256)) (d : Bool) (h : fix_dxt t = .ok (t', d)) :
    (tex_header.decode t').width = (tex_header.decode t).width ∧
    (tex_header.decode t').height = (tex_header.decode t).height ∧
    (tex_header.decode t').type = (tex_header.decode t).type ∧
    (tex_header.decode t').u1 = (tex_header.decode t).u1 ∧
    (tex_header.decode t').u2 = (tex_header.decode t).u2 ∧
    (tex_header.decode t').u3 = (tex_header.decode t).u3 ∧
    ∀ j k, k < 8 → 14 + 16 * j + k < t'.length →
      t'[14 + 16 * j + k]? = t[14 + 16 * j + k]? := by
  have hlen := fix_dxt_length h
  by_cases hp : ((tex_header.decode t).type ≠ 26 ∧ (tex_header.decode t).type ≠ 22) ∨
      (tex_header.decode t).width = 0 ∨ (tex_header.decode t).height = 0
  · rw [fix_dxt_passthrough hlen hp] at h
    injection h with h; injection h with h1 h2
    subst h1
    exact ⟨rfl, rfl, rfl, rfl, rfl, rfl, fun _ _ _ _ => rfl⟩
  · obtain ⟨m, b, _, _, _, _, hl', _, hdec, hf, _⟩ :=
      fix_dxt_run h (by omega) (by omega) (by omega)
    rw [hdec]
    refine ⟨rfl, rfl, rfl, rfl, rfl, rfl, ?_⟩
    intro j k hk hlt
    exact hf _ (by omega) (by omega) (Or.inl (by omega))

/-- Witness of C10: `dxt5_input` is trimmed from `mmaps = 3` to `mmaps = 1` and
its chunk reframed; width, height, type, the unknown fields and the alpha
bytes 1..8 are kept. -/
theorem fix_dxt_frame_witness :
    fix_dxt dxt5_input = .ok (dxt5_output, true) ∧
    ((tex_header.decode dxt5_output).width = (tex_header.decode dxt5_input).width ∧
    (tex_header.decode dxt5_output).height = (tex_header.decode dxt5_input).height ∧
    (tex_header.decode dxt5_output).type = (tex_header.decode dxt5_input).type ∧
    (tex_header.decode dxt5_output).u1 = (tex_header.decode dxt5_input).u1 ∧
    (tex_header.decode dxt5_output).u2 = (tex_header.decode dxt5_input).u2 ∧
    (tex_header.decode dxt5_output).u3 = (tex_header.decode dxt5_input).u3 ∧
    ∀ j k, k < 8 → 14 + 16 * j + k < dxt5_output.length →
      dxt5_output[14 + 16 * j + k]? = dxt5_input[14 + 16 * j + k]?) :=
  ⟨rfl, fix_dxt_frame dxt5_input dxt5_output true rfl⟩

/-- C2. `fix_dxt` is idempotent: on the texture a successful call leaves, a
second call succeeds, returns `false` and leaves every byte as it is. -/
theorem fix_dxt_idempotent (t t' : List (Fin 256)) (d : Bool) (h : fix_dxt t = .ok (t', d)) :
    fix_dxt t' = .ok (t', false) := by
  have hlen := fix_dxt_length h
  by_cases hp : ((tex_header.decode t).type ≠ 26 ∧ (tex_header.decode t).type ≠ 22) ∨
      (tex_header.decode t).width = 0 ∨ (tex_header.decode t).height = 0
  · have h0 := fix_dxt_passthrough hlen hp
    rw [h0] at h
    injection h with h; injection h with h1 h2
    subst h1
    exact h0
  · obtain ⟨m, b, _, hl, hm, _, hl', hb14, hdec, _, h26⟩ :=
      fix_dxt_run h (by omega) (by omega) (by omega)
    obtain ⟨_, hidem⟩ := level_loop_idem _ _ _ _ _ _ _ _ hl
    rw [Nat.sub_zero] at hidem
    apply fix_dxt_of_repaired (b := b)
    · omega
    · rw [hdec]; simp only; omega
    · rw [hdec]; simp only; omega
    · rw [hdec]; simp only; omega
    · rw [hdec]; exact hidem
    · rw [hdec]; exact hm
    · exact hl'
    · rw [hdec]; exact h26

/-- Witness of C2: the texture `fix_dxt` makes of `dxt5_input` passes a second
call unchanged, with `false` returned. -/
theorem fix_dxt_idempotent_witness :
    fix_dxt dxt5_input = .ok (dxt5_output, true) ∧
    fix_dxt dxt5_output = .ok (dxt5_output, false) :=
  ⟨rfl, fix_dxt_idempotent dxt5_input dxt5_output true rfl⟩

/-! ## Index counts -/

/-- The counting loop over a list of positions: every count grows, the counts
grow by the number of positions in total, and `dist[3]` stays put exactly when
no position has index 11. -/
theorem foldl_incr_spec (f : Nat → Nat) : ∀ (l : List Nat) (d : weights),
    d.w0 ≤ (l.foldl (fun d i => d.incr (f i)) d).w0 ∧
    d.w1 ≤ (l.foldl (fun d i => d.incr (f i)) d).w1 ∧
    d.w2 ≤ (l.foldl (fun d i => d.incr (f i)) d).w2 ∧
    d.w3 ≤ (l.foldl (fun d i => d.incr (f i)) d).w3 ∧
    (l.foldl (fun d i => d.incr (f i)) d).w0 + (l.foldl (fun d i => d.incr (f i)) d).w1
      + (l.foldl (fun d i => d.incr (f i)) d).w2 + (l.foldl (fun d i => d.incr (f i)) d).w3
      = d.w0 + d.w1 + d.w2 + d.w3 + l.length ∧
    ((l.foldl (fun d i => d.incr (f i)) d).w3 = d.w3 ↔ ∀ i ∈ l, f i < 3) := by
  intro l
  induction l with
  | nil => intro d; simp
  | cons x xs ih =>
    intro d
    simp only [List.foldl_cons, List.length_cons, List.mem_cons, forall_eq_or_imp]
    obtain ⟨h0, h1, h2, h3, hs, hiff⟩ := ih (d.incr (f x))
    have hx : (f x = 0 ∧ d.incr (f x) = { d with w0 := d.w0 + 1 }) ∨
        (f x = 1 ∧ d.incr (f x) = { d with w1 := d.w1 + 1 }) ∨
        (f x = 2 ∧ d.incr (f x) = { d with w2 := d.w2 + 1 }) ∨
        (3 ≤ f x ∧ d.incr (f x) = { d with w3 := d.w3 + 1 }) := by
      rcases hfx : f x with _ | _ | _ | n
      · left; exact ⟨rfl, rfl⟩
      · right; left; exact ⟨rfl, rfl⟩
      · right; right; left; exact ⟨rfl, rfl⟩
      · right; right; right; exact ⟨by omega, rfl⟩
    rcases hx with ⟨hf, he⟩ | ⟨hf, he⟩ | ⟨hf, he⟩ | ⟨hf, he⟩ <;>
      rw [he] at h0 h1 h2 h3 hs hiff <;> rw [he] <;> simp only at h0 h1 h2 h3 hs hiff <;>
      refine ⟨by omega, by omega, by omega, by omega, by push_cast at hs ⊢; omega, ?_⟩
    · rw [hiff]; constructor
      · intro h; exact ⟨by omega, h⟩
      · intro h; exact h.2
    · rw [hiff]; constructor
      · intro h; exact ⟨by omega, h⟩
      · intro h; exact h.2
    · rw [hiff]; constructor
      · intro h; exact ⟨by omega, h⟩
      · intro h; exact h.2
    · constructor
      · intro h; omega
      · intro h; omega

/-- The counts of `dist`: non-negative, sixteen in total, and `dist[3] = 0`
exactly when no texel has index 11. -/
theorem dist_spec (cv : Nat) :
    0 ≤ (dist cv).w0 ∧ 0 ≤ (dist cv).w1 ∧ 0 ≤ (dist cv).w2 ∧ 0 ≤ (dist cv).w3 ∧
    (dist cv).w0 + (dist cv).w1 + (dist cv).w2 + (dist cv).w3 = 16 ∧
    ((dist cv).w3 = 0 ↔ ∀ k < 16, texel cv k ≠ 3) := by
  obtain ⟨h0, h1, h2, h3, hs, hiff⟩ := foldl_incr_spec (texel cv) (List.range 16) ⟨0, 0, 0, 0⟩
  unfold dist
  simp only [List.length_range, List.mem_range] at h0 h1 h2 h3 hs hiff
  refine ⟨h0, h1, h2, h3, by simpa using hs, ?_⟩
  rw [hiff]
  constructor
  · intro h k hk; have := h k hk; omega
  · intro h k hk; have := h k hk; have := texel_lt_four cv k; omega

/-- C13. `fix_block` raises an error exactly when one of the 16 texel indices
of `cv` is 11; when none is, the bucket count is 1, 2 or 3, so the `default`
branch of the switch is never taken. -/
theorem fix_block_error_iff (chunk : dxt5_chunk) :
    ((∃ e, fix_block chunk = .error e) ↔ ∃ k < 16, texel chunk.cv k = 3) ∧
    ((∀ k < 16, texel chunk.cv k ≠ 3) →
      count (dist chunk.cv) = 1 ∨ count (dist chunk.cv) = 2 ∨ count (dist chunk.cv) = 3) := by
  obtain ⟨h0, h1, h2, h3, hs, hiff⟩ := dist_spec chunk.cv
  have hcount : (dist chunk.cv).w3 = 0 →
      count (dist chunk.cv) = 1 ∨ count (dist chunk.cv) = 2 ∨ count (dist chunk.cv) = 3 := by
    intro hz
    unfold count
    split_ifs <;> omega
  refine ⟨?_, fun h => hcount (hiff.2 h)⟩
  constructor
  · rintro ⟨e, he⟩
    by_contra hne
    have hz : (dist chunk.cv).w3 = 0 := hiff.2 (fun k hk h3 => hne ⟨k, hk, h3⟩)
    unfold fix_block at he
    simp only [hz, ne_eq, not_true_eq_false, if_false] at he
    rcases hcount hz with hc | hc | hc <;> rw [hc] at he <;> cases he
  · rintro ⟨k, hk, h3⟩
    have hnz : (dist chunk.cv).w3 ≠ 0 := fun hz => hiff.1 hz k hk h3
    refine ⟨.invalid_color_encoding, ?_⟩
    unfold fix_block
    simp only [hnz, ne_eq, not_false_eq_true, if_true]

/-- C11. A texture of at least 14 bytes whose type is neither 22 nor 26 is
left alone: `needs_fixing` returns `false`, and `fix_dxt` returns `false` with
the texture unchanged, whatever its width, height, `mmaps` and length. -/
theorem other_types_pass_through (t : List (Fin 256)) (hlen : 14 ≤ t.length)
    (h26 : (tex_header.decode t).type ≠ 26) (h22 : (tex_header.decode t).type ≠ 22) :
    needs_fixing t = .ok false ∧ fix_dxt t = .ok (t, false) := by
  refine ⟨?_, fix_dxt_passthrough hlen (Or.inl ⟨h26, h22⟩)⟩
  unfold needs_fixing helper_read_header
  simp only [sizeof_tex_header]
  rw [if_neg (by omega)]
  simp only
  rw [if_neg h26, if_neg h22]

/-- Witness of C11: a 20-byte texture of type 0, 8×8, `mmaps = 5`, which is
not even long enough for one level. -/
theorem other_types_pass_through_witness :
    needs_fixing ([8, 0, 8, 0, 0, 0, 5, 0, 0, 0, 0, 0, 0, 0] ++ List.replicate 6 0) = .ok false ∧
    fix_dxt ([8, 0, 8, 0, 0, 0, 5, 0, 0, 0, 0, 0, 0, 0] ++ List.replicate 6 0)
      = .ok ([8, 0, 8, 0, 0, 0, 5, 0, 0, 0, 0, 0, 0, 0] ++ List.replicate 6 0, false) :=
  other_types_pass_through ([8, 0, 8, 0, 0, 0, 5, 0, 0, 0, 0, 0, 0, 0] ++ List.replicate 6 0)
    (by decide) (by decide) (by decide)

/-! ## Squeeze, direct extension, normalisation -/

theorem isValid_iff (c : color) :
    c.isValid = true ↔ 0 ≤ c.r ∧ c.r < 32 ∧ 0 ≤ c.g ∧ c.g < 64 ∧ 0 ≤ c.b ∧ c.b < 32 := by
  unfold color.isValid
  simp only [Bool.and_eq_true, decide_eq_true_eq, ge_iff_le]
  constructor
  · rintro ⟨⟨⟨⟨⟨h1, h2⟩, h3⟩, h4⟩, h5⟩, h6⟩; exact ⟨h1, h2, h3, h4, h5, h6⟩
  · rintro ⟨h1, h2, h3, h4, h5, h6⟩; exact ⟨⟨⟨⟨⟨h1, h2⟩, h3⟩, h4⟩, h5⟩, h6⟩

/-- Packing a valid colour is positional: `r * 2048 + g * 32 + b`. -/
theorem to16_of_valid (c : color) (h : c.isValid = true) :
    (c.to16 : Int) = c.r * 2048 + c.g * 32 + c.b := by
  obtain ⟨h1, h2, h3, h4, h5, h6⟩ := (isValid_iff c).1 h
  have hr : c.r = (c.r.toNat : Int) := (Int.toNat_of_nonneg h1).symm
  have hg : c.g = (c.g.toNat : Int) := (Int.toNat_of_nonneg h3).symm
  have hb : c.b = (c.b.toNat : Int) := (Int.toNat_of_nonneg h5).symm
  generalize c.r.toNat = r at hr
  generalize c.g.toNat = g at hg
  generalize c.b.toNat = b at hb
  unfold color.to16
  have er : (c.r % 32).toNat = r := by omega
  have eg : (c.g % 64).toNat = g := by omega
  have eb : (c.b % 32).toNat = b := by omega
  rw [er, eg, eb, hr, hg, hb]
  simp only [Nat.shiftLeft_eq, Nat.pow_zero, Nat.mul_one]
  have hg' : g * 2 ^ 5 < 2 ^ 11 := by omega
  have hb' : b < 2 ^ 5 := by omega
  have e1 : r * 2 ^ 11 ||| g * 2 ^ 5 = 2 ^ 11 * r + g * 2 ^ 5 := by
    rw [Nat.mul_add_lt_is_or hg' r, Nat.mul_comm]
  have e2 : 2 ^ 11 * r + g * 2 ^ 5 = 2 ^ 5 * (64 * r + g) := by ring
  rw [e1, e2, ← Nat.mul_add_lt_is_or hb' (64 * r + g)]
  have hlt : 2 ^ 5 * (64 * r + g) + b < 2 ^ 16 := by omega
  rw [Nat.mod_eq_of_lt hlt]
  push_cast
  ring

theorem tdiv_two_nonneg (x : Int) (h : 0 ≤ x) : x.tdiv 2 = x / 2 :=
  Int.tdiv_eq_ediv h (by norm_num)

/-- Truncating division by two. -/
theorem two_mul_tdiv_two (x : Int) :
    (x % 2 = 0 → 2 * x.tdiv 2 = x) ∧ (2 * x.tdiv 2 = x ∨ 2 * x.tdiv 2 = x - 1 ∨
      2 * x.tdiv 2 = x + 1) := by
  rcases le_total 0 x with h | h
  · rw [tdiv_two_nonneg x h]
    constructor <;> omega
  · have h' : 0 ≤ -x := by omega
    have e : x.tdiv 2 = -((-x).tdiv 2) := by
      rw [Int.neg_tdiv, neg_neg]
    rw [e, tdiv_two_nonneg (-x) h']
    constructor <;> omega

/-- C18. On valid endpoints `handle1` returns, in every component, the ceiling
of `(cs0 + cs1) / 2` as the new `cs0` and the floor as the new `cs1`, and
leaves `cv` as it is; the two new endpoints are valid, in every component equal
or one apart, and the packed new `cs0` is at least the packed new `cs1`. -/
theorem handle1_squeeze (cs0 cs1 : color) (cv : Nat)
    (h0 : cs0.isValid = true) (h1 : cs1.isValid = true) :
    ∃ upper lower, handle1 cs0 cs1 cv = (upper, lower, cv) ∧
      upper.r = ⌈((cs0.r + cs1.r : Int) : ℚ) / 2⌉ ∧ upper.g = ⌈((cs0.g + cs1.g : Int) : ℚ) / 2⌉ ∧
      upper.b = ⌈((cs0.b + cs1.b : Int) : ℚ) / 2⌉ ∧
      lower.r = ⌊((cs0.r + cs1.r : Int) : ℚ) / 2⌋ ∧ lower.g = ⌊((cs0.g + cs1.g : Int) : ℚ) / 2⌋ ∧
      lower.b = ⌊((cs0.b + cs1.b : Int) : ℚ) / 2⌋ ∧
      (upper.r = lower.r ∨ upper.r = lower.r + 1) ∧ (upper.g = lower.g ∨ upper.g = lower.g + 1) ∧
      (upper.b = lower.b ∨ upper.b = lower.b + 1) ∧
      upper.isValid = true ∧ lower.isValid = true ∧ lower.to16 ≤ upper.to16 := by
  obtain ⟨a1, a2, a3, a4, a5, a6⟩ := (isValid_iff cs0).1 h0
  obtain ⟨b1, b2, b3, b4, b5, b6⟩ := (isValid_iff cs1).1 h1
  have hceil : ∀ x : Int, 0 ≤ x → (x + 1).tdiv 2 = ⌈(x : ℚ) / 2⌉ := by
    intro x hx
    rw [tdiv_two_nonneg _ (by omega)]
    symm
    rw [Int.ceil_eq_iff]
    have e : (x + 1) / 2 * 2 = x + 1 ∨ (x + 1) / 2 * 2 = x := by omega
    rcases e with e | e
    · have e' : (((x + 1) / 2 : Int) : ℚ) * 2 = (x : ℚ) + 1 := by exact_mod_cast e
      constructor <;> linarith
    · have e' : (((x + 1) / 2 : Int) : ℚ) * 2 = (x : ℚ) := by exact_mod_cast e
      constructor <;> linarith
  have hfloor : ∀ x : Int, 0 ≤ x → x.tdiv 2 = ⌊(x : ℚ) / 2⌋ := by
    intro x hx
    rw [tdiv_two_nonneg _ hx]
    symm
    rw [Int.floor_eq_iff]
    have e : x / 2 * 2 = x ∨ x / 2 * 2 = x - 1 := by omega
    rcases e with e | e
    · have e' : ((x / 2 : Int) : ℚ) * 2 = (x : ℚ) := by exact_mod_cast e
      constructor <;> linarith
    · have e' : ((x / 2 : Int) : ℚ) * 2 = (x : ℚ) - 1 := by exact_mod_cast e
      constructor <;> linarith
  have hup : (color.mix cs0 cs1 (fun a b => (a + b + 1).tdiv 2)).isValid = true := by
    rw [isValid_iff]
    simp only [color.mix]
    rw [tdiv_two_nonneg _ (by omega), tdiv_two_nonneg _ (by omega), tdiv_two_nonneg _ (by omega)]
    omega
  have hlo : (color.mix cs0 cs1 (fun a b => (a + b).tdiv 2)).isValid = true := by
    rw [isValid_iff]
    simp only [color.mix]
    rw [tdiv_two_nonneg _ (by omega), tdiv_two_nonneg _ (by omega), tdiv_two_nonneg _ (by omega)]
    omega
  refine ⟨_, _, rfl, hceil _ (by omega), hceil _ (by omega), hceil _ (by omega),
    hfloor _ (by omega), hfloor _ (by omega), hfloor _ (by omega), ?_, ?_, ?_, hup, hlo, ?_⟩
  · simp only [color.mix]
    rw [tdiv_two_nonneg _ (by omega), tdiv_two_nonneg _ (by omega)]; omega
  · simp only [color.mix]
    rw [tdiv_two_nonneg _ (by omega), tdiv_two_nonneg _ (by omega)]; omega
  · simp only [color.mix]
    rw [tdiv_two_nonneg _ (by omega), tdiv_two_nonneg _ (by omega)]; omega
  · simp only [color.mix] at hup hlo ⊢
    rw [tdiv_two_nonneg (cs0.r + cs1.r) (by omega), tdiv_two_nonneg (cs0.g + cs1.g) (by omega),
      tdiv_two_nonneg (cs0.b + cs1.b) (by omega)] at hlo ⊢
    rw [tdiv_two_nonneg (cs0.r + cs1.r + 1) (by omega),
      tdiv_two_nonneg (cs0.g + cs1.g + 1) (by omega),
      tdiv_two_nonneg (cs0.b + cs1.b + 1) (by omega)] at hup ⊢
    have e1 := to16_of_valid _ hup
    have e2 := to16_of_valid _ hlo
    simp only at e1 e2
    have h : ((color.mk ((cs0.r + cs1.r) / 2) ((cs0.g + cs1.g) / 2)
          ((cs0.b + cs1.b) / 2)).to16 : Int)
        ≤ ((color.mk ((cs0.r + cs1.r + 1) / 2) ((cs0.g + cs1.g + 1) / 2)
          ((cs0.b + cs1.b + 1) / 2)).to16 : Int) := by
      rw [e1, e2]; omega
    exact_mod_cast h

/-- Witness of C18: the endpoints `(0,0,0)` and `(10,20,4)` are squeezed to
`(5,10,2)` twice. -/
theorem handle1_squeeze_witness :
    handle1 (color.from16 0x0000) (color.from16 0x5284) 0xAAAAAAAA
      = (⟨5, 10, 2⟩, ⟨5, 10, 2⟩, 0xAAAAAAAA) ∧
    ∃ upper lower, handle1 (color.from16 0x0000) (color.from16 0x5284) 0xAAAAAAAA
        = (upper, lower, 0xAAAAAAAA) ∧
      upper.r = ⌈(((color.from16 0x0000).r + (color.from16 0x5284).r : Int) : ℚ) / 2⌉ ∧
      upper.g = ⌈(((color.from16 0x0000).g + (color.from16 0x5284).g : Int) : ℚ) / 2⌉ ∧
      upper.b = ⌈(((color.from16 0x0000).b + (color.from16 0x5284).b : Int) : ℚ) / 2⌉ ∧
      lower.r = ⌊(((color.from16 0x0000).r + (color.from16 0x5284).r : Int) : ℚ) / 2⌋ ∧
      lower.g = ⌊(((color.from16 0x0000).g + (color.from16 0x5284).g : Int) : ℚ) / 2⌋ ∧
      lower.b = ⌊(((color.from16 0x0000).b + (color.from16 0x5284).b : Int) : ℚ) / 2⌋ ∧
      (upper.r = lower.r ∨ upper.r = lower.r + 1) ∧ (upper.g = lower.g ∨ upper.g = lower.g + 1) ∧
      (upper.b = lower.b ∨ upper.b = lower.b + 1) ∧
      upper.isValid = true ∧ lower.isValid = true ∧ lower.to16 ≤ upper.to16 :=
  ⟨by decide,
    handle1_squeeze (color.from16 0x0000) (color.from16 0x5284) 0xAAAAAAAA (by decide) (by decide)⟩

/-- C19 (as stated, refuted). On the endpoints `(0,0,0)` and `(0,0,1)` the
direct extension is valid and `handle2` returns `(cs0, x)` with `cv` unchanged,
but slot 10 of the output, `4*cs0 + 2*x`, is not `3*(cs0 + cs1)`: the blue
components are 2 and 3. -/
theorem handle2_outer_not_exact :
    handle2 (color.from16 0x0000) (color.from16 0x0001) 0x00000002 1
      = (color.from16 0x0000, color.from16 0x0001, 0x00000002) ∧
    (color.from16 0x0001).isValid = true ∧
    mixer.t2 (color.from16 0x0000) (color.from16 0x0001) = ⟨0, 0, 2⟩ ∧
    mixer.h2 (color.from16 0x0000) (color.from16 0x0001) = ⟨0, 0, 3⟩ ∧
    mixer.t2 (color.from16 0x0000) (color.from16 0x0001)
      ≠ mixer.h2 (color.from16 0x0000) (color.from16 0x0001) := by
  decide

/-- C19 (amended). When the direct extension `x = cs1 + (cs1 - cs0)/2`
(truncating division, per component) is a valid colour, `handle2` returns
`(cs0, x)` with `cv` unchanged, and slot 10 of the output, `4*cs0 + 2*x`,
differs from the original midpoint `3*(cs0 + cs1)` by at most 1 in every
component, with equality in every component where `cs1 - cs0` is even. -/
theorem handle2_outer (cs0 cs1 : color) (cv : Nat) (w2 : Int)
    (hx : (color.mix cs0 cs1 (fun a b => b + (b - a).tdiv 2)).isValid = true) :
    handle2 cs0 cs1 cv w2 = (cs0, color.mix cs0 cs1 (fun a b => b + (b - a).tdiv 2), cv) ∧
    |(mixer.t2 cs0 (color.mix cs0 cs1 (fun a b => b + (b - a).tdiv 2))).r
      - (mixer.h2 cs0 cs1).r| ≤ 1 ∧
    |(mixer.t2 cs0 (color.mix cs0 cs1 (fun a b => b + (b - a).tdiv 2))).g
      - (mixer.h2 cs0 cs1).g| ≤ 1 ∧
    |(mixer.t2 cs0 (color.mix cs0 cs1 (fun a b => b + (b - a).tdiv 2))).b
      - (mixer.h2 cs0 cs1).b| ≤ 1 ∧
    ((cs1.r - cs0.r) % 2 = 0 →
      (mixer.t2 cs0 (color.mix cs0 cs1 (fun a b => b + (b - a).tdiv 2))).r
        = (mixer.h2 cs0 cs1).r) ∧
    ((cs1.g - cs0.g) % 2 = 0 →
      (mixer.t2 cs0 (color.mix cs0 cs1 (fun a b => b + (b - a).tdiv 2))).g
        = (mixer.h2 cs0 cs1).g) ∧
    ((cs1.b - cs0.b) % 2 = 0 →
      (mixer.t2 cs0 (color.mix cs0 cs1 (fun a b => b + (b - a).tdiv 2))).b
        = (mixer.h2 cs0 cs1).b) := by
  obtain ⟨er, hr⟩ := two_mul_tdiv_two (cs1.r - cs0.r)
  obtain ⟨eg, hg⟩ := two_mul_tdiv_two (cs1.g - cs0.g)
  obtain ⟨eb, hb⟩ := two_mul_tdiv_two (cs1.b - cs0.b)
  refine ⟨?_, ?_, ?_, ?_, ?_, ?_, ?_⟩
  · unfold handle2
    simp only [hx, if_true]
  all_goals simp only [mixer.t2, mixer.h2, color.mix]
  · rw [abs_le]; constructor <;> omega
  · rw [abs_le]; constructor <;> omega
  · rw [abs_le]; constructor <;> omega
  · intro h; have := er h; omega
  · intro h; have := eg h; omega
  · intro h; have := eb h; omega

/-- Witness of C19 (amended): endpoints `(0,0,0)` and `(10,20,4)`, extension
`(15,30,6)`. -/
theorem handle2_outer_witness :
    handle2 (color.from16 0x0000) (color.from16 0x5284) 0xAAAAAAA8 15
      = (color.from16 0x0000, ⟨15, 30, 6⟩, 0xAAAAAAA8) ∧
    mixer.t2 (color.from16 0x0000) ⟨15, 30, 6⟩ = mixer.h2 (color.from16 0x0000) (color.from16 0x5284) :=
  ⟨(handle2_outer (color.from16 0x0000) (color.from16 0x5284) 0xAAAAAAA8 15 (by decide)).1,
    by decide⟩

/-- `fix_block` on a two-bucket block: `handle2` on the normalised endpoints
and `cv`. -/
theorem fix_block_two (chunk : dxt5_chunk) (h3 : (dist chunk.cv).w3 = 0)
    (hk : count (dist chunk.cv) = 2) :
    fix_block chunk = .ok
      ⟨chunk.alpha,
        (handle2 (normalize2 (dist chunk.cv) chunk.getColors chunk.cv).1.1
          (normalize2 (dist chunk.cv) chunk.getColors chunk.cv).1.2
          (normalize2 (dist chunk.cv) chunk.getColors chunk.cv).2 (dist chunk.cv).w2).1.to16,
        (handle2 (normalize2 (dist chunk.cv) chunk.getColors chunk.cv).1.1
          (normalize2 (dist chunk.cv) chunk.getColors chunk.cv).1.2
          (normalize2 (dist chunk.cv) chunk.getColors chunk.cv).2 (dist chunk.cv).w2).2.1.to16,
        (handle2 (normalize2 (dist chunk.cv) chunk.getColors chunk.cv).1.1
          (normalize2 (dist chunk.cv) chunk.getColors chunk.cv).1.2
          (normalize2 (dist chunk.cv) chunk.getColors chunk.cv).2 (dist chunk.cv).w2).2.2⟩ := by
  unfold fix_block normalize2
  simp only [h3, hk, ne_eq, not_true_eq_false, if_false, dxt5_chunk.setColors]
  by_cases h0 : (dist chunk.cv).w0 = 0
  · simp only [h0, if_true]
  · simp only [h0, if_false]

/-- C20 (as stated, refuted). On `cv = 0x55555556` (texel 0 of index 10, the
others of index 01, index 00 unused) the normalisation of `fix_block` does not
produce `cv ^ 0xAAAAAAAA`: it produces `0x00000002`, which `fix_block` stores
(the direct extension leaves `cv` as it gets it), while `cv ^ 0xAAAAAAAA` has
the former-01 texel 1 at index 11, not 00. -/
theorem normalize2_not_xor :
    dist 0x55555556 = ⟨0, 15, 1, 0⟩ ∧
    (normalize2 (dist 0x55555556) (color.from16 0, color.from16 1) 0x55555556).2 = 0x00000002 ∧
    (normalize2 (dist 0x55555556) (color.from16 0, color.from16 1) 0x55555556).2
      ≠ 0x55555556 ^^^ 0xAAAAAAAA ∧
    fix_block ⟨[], 0, 1, 0x55555556⟩ = .ok ⟨[], 1, 0, 0x00000002⟩ ∧
    texel 0x55555556 1 = 1 ∧ texel (0x55555556 ^^^ 0xAAAAAAAA) 1 = 3 :=
  ⟨by decide, by decide, by decide, rfl, by decide, by decide⟩

/-- C20 (amended). On a two-bucket block in which index 00 is unused, the
normalisation of `fix_block` swaps the endpoints and AND-masks `cv` with
`0xAAAAAAAA`, and `fix_block` stores what `handle2` returns on these; in the
masked `cv` every texel of former index 01 has index 00 and every texel of
former index 10 still has index 10, so no texel has index 01 (nor 11). -/
theorem fix_block_normalizes (chunk : dxt5_chunk) (h3 : (dist chunk.cv).w3 = 0)
    (hk : count (dist chunk.cv) = 2) (h0 : (dist chunk.cv).w0 = 0) :
    normalize2 (dist chunk.cv) chunk.getColors chunk.cv
      = ((color.from16 chunk.cs1, color.from16 chunk.cs0), chunk.cv &&& 0xAAAAAAAA) ∧
    fix_block chunk = .ok
      ⟨chunk.alpha,
        (handle2 (color.from16 chunk.cs1) (color.from16 chunk.cs0) (chunk.cv &&& 0xAAAAAAAA)
          (dist chunk.cv).w2).1.to16,
        (handle2 (color.from16 chunk.cs1) (color.from16 chunk.cs0) (chunk.cv &&& 0xAAAAAAAA)
          (dist chunk.cv).w2).2.1.to16,
        (handle2 (color.from16 chunk.cs1) (color.from16 chunk.cs0) (chunk.cv &&& 0xAAAAAAAA)
          (dist chunk.cv).w2).2.2⟩ ∧
    ∀ k < 16,
      (texel chunk.cv k = 1 → texel (chunk.cv &&& 0xAAAAAAAA) k = 0) ∧
      (texel chunk.cv k = 2 → texel (chunk.cv &&& 0xAAAAAAAA) k = 2) ∧
      texel (chunk.cv &&& 0xAAAAAAAA) k ≠ 1 ∧ texel (chunk.cv &&& 0xAAAAAAAA) k ≠ 3 := by
  have hn : normalize2 (dist chunk.cv) chunk.getColors chunk.cv
      = ((color.from16 chunk.cs1, color.from16 chunk.cs0), chunk.cv &&& 0xAAAAAAAA) := by
    simp [normalize2, h0, dxt5_chunk.getColors]
  refine ⟨hn, ?_, ?_⟩
  · rw [fix_block_two chunk h3 hk, hn]
  · intro k hk
    rw [texel_eq_bits (chunk.cv &&& 0xAAAAAAAA), texel_eq_bits chunk.cv, Nat.testBit_and,
      Nat.testBit_and, testBit_A_even, testBit_A_odd k hk]
    cases chunk.cv.testBit (2 * k) <;> cases chunk.cv.testBit (2 * k + 1) <;> simp

/-- Witness of C20 (amended): the block `(0x0000, 0x0001, 0x55555556)`, index
counts `(0, 15, 1, 0)`. -/
theorem fix_block_normalizes_witness :
    dist 0x55555556 = ⟨0, 15, 1, 0⟩ ∧
    fix_block ⟨[], 0, 1, 0x55555556⟩ = .ok ⟨[], 1, 0, 0x00000002⟩ ∧
    0x55555556 &&& 0xAAAAAAAA = 0x00000002 ∧
    normalize2 (dist 0x55555556) (color.from16 0, color.from16 1) 0x55555556
      = ((color.from16 1, color.from16 0), 0x55555556 &&& 0xAAAAAAAA) :=
  ⟨by decide, rfl, by decide,
    (fix_block_normalizes ⟨[], 0, 1, 0x55555556⟩ (by decide) (by decide) (by decide)).1⟩

/-! ## The padding rule -/

/-- The bytes a non-empty `write` stores, and the put position after it. -/
theorem ostream_write_spec (out : ostream) (s : List (Fin 256)) :
    (out.write s).pos = out.pos + s.length ∧
    ∀ i < s.length, (out.write s).data[out.pos + i]? = s[i]? := by
  cases s with
  | nil => exact ⟨rfl, fun i hi => by simp at hi⟩
  | cons a s =>
    refine ⟨rfl, ?_⟩
    intro i hi
    simp only [ostream.write]
    have hlen : ((out.data ++ List.replicate (out.pos - out.data.length) 0).take out.pos).length
        = out.pos := by
      simp only [List.length_take, List.length_append, List.length_replicate]
      omega
    rw [List.append_assoc, List.getElem?_append, hlen, if_neg (by omega), List.getElem?_append,
      if_pos (by omega)]
    congr 1
    omega

/-- C14 (as stated, refuted). At output position `2^32` with a payload of one
byte the padding is 0 and the payload is larger, but the returned
`data_offset` is 0, not `pos + pad`. -/
theorem helper_write_pad_truncates :
    (2048 - 4294967296 % 2048) % 2048 = 0 ∧
    (helper_write_pad ⟨[], 4294967296⟩ [0]).2 = 0 ∧
    (helper_write_pad ⟨[], 4294967296⟩ [0]).2 ≠ 4294967296 + (2048 - 4294967296 % 2048) % 2048 := by
  decide

/-- C14 (amended). For every output position `pos` and payload of `n` bytes,
with `pad = (2048 - pos mod 2048) mod 2048` and `pos + pad < 2^32`,
`helper_write_pad` returns `data_offset = pos + pad`, a multiple of 2048, when
`n > pad`, and `data_offset = pos` when `n ≤ pad`; the payload is stored at
`[data_offset, data_offset + n)` and the put position ends at
`data_offset + n`. -/
theorem helper_write_pad_offset (out : ostream) (v : List (Fin 256))
    (h32 : out.pos + (2048 - out.pos % 2048) % 2048 < 2 ^ 32) :
    (v.length > (2048 - out.pos % 2048) % 2048 →
      (helper_write_pad out v).2 = out.pos + (2048 - out.pos % 2048) % 2048 ∧
      (helper_write_pad out v).2 % 2048 = 0) ∧
    (v.length ≤ (2048 - out.pos % 2048) % 2048 → (helper_write_pad out v).2 = out.pos) ∧
    (∀ i < v.length,
      (helper_write_pad out v).1.data[(helper_write_pad out v).2 + i]? = v[i]?) ∧
    (helper_write_pad out v).1.pos = (helper_write_pad out v).2 + v.length := by
  unfold helper_write_pad
  simp only [ostream.tellp, Nat.mul_one]
  by_cases hn : v.length > (2048 - out.pos % 2048) % 2048
  · simp only [hn, if_true, ostream.seekp_cur]
    have hmod : (out.pos + (2048 - out.pos % 2048) % 2048) % 2 ^ 32
        = out.pos + (2048 - out.pos % 2048) % 2048 := Nat.mod_eq_of_lt h32
    rw [hmod]
    have hw := ostream_write_spec ⟨out.data, out.pos + (2048 - out.pos % 2048) % 2048⟩ v
    refine ⟨fun _ => ⟨rfl, by omega⟩, fun h => by omega, hw.2, hw.1⟩
  · simp only [hn, if_false]
    have hmod : out.pos % 2 ^ 32 = out.pos := Nat.mod_eq_of_lt (by omega)
    rw [hmod]
    have hw := ostream_write_spec out v
    exact ⟨fun h => h.elim, fun _ => rfl, hw.2, hw.1⟩

/-- Witness of C14 (amended): at position 4090 the padding is 6; a payload of
8 bytes goes to 4096, a payload of 3 bytes stays at 4090. -/
theorem helper_write_pad_offset_witness :
    (2048 - 4090 % 2048) % 2048 = 6 ∧
    (helper_write_pad ⟨[], 4090⟩ [1, 2, 3]).2 = 4090 ∧
    (helper_write_pad ⟨[], 4090⟩ [1, 2, 3, 4, 5, 6, 7, 8]).2 = 4096 ∧
    (helper_write_pad ⟨[], 4090⟩ [1, 2, 3, 4, 5, 6, 7, 8]).2 % 2048 = 0 ∧
    (∀ i < 8,
      (helper_write_pad ⟨[], 4090⟩ [1, 2, 3, 4, 5, 6, 7, 8]).1.data[
          (helper_write_pad ⟨[], 4090⟩ [1, 2, 3, 4, 5, 6, 7, 8]).2 + i]?
        = ([1, 2, 3, 4, 5, 6, 7, 8] : List (Fin 256))[i]?) :=
  ⟨by decide, by decide, by decide, by decide,
    (helper_write_pad_offset ⟨[], 4090⟩ [1, 2, 3, 4, 5, 6, 7, 8] (by decide)).2.2.1⟩

/-! ## Base-64 units -/

theorem lor_shl_eq_add (a i b : Nat) (hb : b < 2 ^ i) : b ||| (a <<< i) = a * 2 ^ i + b := by
  rw [Nat.lor_comm, Nat.shiftLeft_eq, Nat.mul_comm, ← Nat.mul_add_lt_is_or hb]

theorem shl_lor_eq_add (a i b : Nat) (hb : b < 2 ^ i) : (a <<< i) ||| b = a * 2 ^ i + b := by
  rw [Nat.lor_comm, lor_shl_eq_add a i b hb]

theorem and63_eq_mod (n : Nat) : n &&& 0x3F = n % 64 := Nat.and_pow_two_sub_one_eq_mod n 6
theorem and15_eq_mod (n : Nat) : n &&& 0x0F = n % 16 := Nat.and_pow_two_sub_one_eq_mod n 4
theorem and7_eq_mod (n : Nat) : n &&& 0x07 = n % 8 := Nat.and_pow_two_sub_one_eq_mod n 3

/-- The four units of a group, as arithmetic on its three bytes. -/
theorem unit_values (b0 b1 b2 : Nat) (h0 : b0 < 256) (h1 : b1 < 256) (h2 : b2 < 256) :
    ((b0 &&& 0x3F) <<< 0) % 256 = b0 % 64 ∧
    (((b1 &&& 0x0F) <<< 2) ||| (b0 >>> 6)) % 256 = b1 % 16 * 4 + b0 / 64 ∧
    (((b2 &&& 0x03) <<< 4) ||| (b1 >>> 4)) % 256 = b2 % 4 * 16 + b1 / 16 ∧
    (b2 >>> 2) % 256 = b2 / 4 := by
  refine ⟨?_, ?_, ?_, ?_⟩
  · rw [and63_eq_mod, Nat.shiftLeft_eq]; omega
  · rw [and15_eq_mod, Nat.shiftRight_eq_div_pow, shl_lor_eq_add _ _ _ (by omega)]; omega
  · rw [and3_eq_mod4, Nat.shiftRight_eq_div_pow, shl_lor_eq_add _ _ _ (by omega)]; omega
  · rw [Nat.shiftRight_eq_div_pow]; omega

/-- C17. The four units of group `k` are each below 64, are determined by the
three bytes `n[l+3k], n[l+3k+1], n[l+3k+2]` alone, and carry exactly their 24
bits: `u0 | u1<<6 | u2<<12 | u3<<18 = b0 | b1<<8 | b2<<16`. Every unit is thus
an index of one of the first 64 entries of `chartable`. -/
theorem helper_getBase64_group (b0 b1 b2 : Fin 256) :
    ∃ u0 u1 u2 u3 : Nat, u0 < 64 ∧ u1 < 64 ∧ u2 < 64 ∧ u3 < 64 ∧
      u0 ||| (u1 <<< 6) ||| (u2 <<< 12) ||| (u3 <<< 18)
        = b0.val ||| (b1.val <<< 8) ||| (b2.val <<< 16) ∧
      (∃ c0 c1 c2 c3, chartable[u0]? = some c0 ∧ chartable[u1]? = some c1 ∧
        chartable[u2]? = some c2 ∧ chartable[u3]? = some c3) ∧
      ∀ (n : List (Fin 256)) (l k : Nat),
        n[l + 3 * k]? = some b0 → n[l + 3 * k + 1]? = some b1 → n[l + 3 * k + 2]? = some b2 →
        helper_getBase64 n l (4 * k) = .ok u0 ∧ helper_getBase64 n l (4 * k + 1) = .ok u1 ∧
        helper_getBase64 n l (4 * k + 2) = .ok u2 ∧ helper_getBase64 n l (4 * k + 3) = .ok u3 := by
  obtain ⟨v0, v1, v2, v3⟩ := unit_values b0.val b1.val b2.val b0.isLt b1.isLt b2.isLt
  have hlen : chartable.length = 65 := by decide
  have hget : ∀ u, u < 64 → ∃ c, chartable[u]? = some c := by
    intro u hu
    exact ⟨chartable[u], List.getElem?_eq_getElem (by omega)⟩
  refine ⟨b0.val % 64, b1.val % 16 * 4 + b0.val / 64, b2.val % 4 * 16 + b1.val / 16, b2.val / 4,
    by omega, by omega, by omega, by omega, ?_, ?_, ?_⟩
  · have s1 := lor_shl_eq_add (b1.val % 16 * 4 + b0.val / 64) 6 (b0.val % 64) (by omega)
    rw [s1]
    have s2 := lor_shl_eq_add (b2.val % 4 * 16 + b1.val / 16) 12
      ((b1.val % 16 * 4 + b0.val / 64) * 2 ^ 6 + b0.val % 64) (by omega)
    rw [s2]
    have s3 := lor_shl_eq_add (b2.val / 4) 18
      ((b2.val % 4 * 16 + b1.val / 16) * 2 ^ 12
        + ((b1.val % 16 * 4 + b0.val / 64) * 2 ^ 6 + b0.val % 64)) (by omega)
    rw [s3]
    have r1 := lor_shl_eq_add b1.val 8 b0.val (by omega)
    rw [r1]
    have r2 := lor_shl_eq_add b2.val 16 (b1.val * 2 ^ 8 + b0.val) (by omega)
    rw [r2]
    omega
  · obtain ⟨c0, h0⟩ := hget (b0.val % 64) (by omega)
    obtain ⟨c1, h1⟩ := hget (b1.val % 16 * 4 + b0.val / 64) (by omega)
    obtain ⟨c2, h2⟩ := hget (b2.val % 4 * 16 + b1.val / 16) (by omega)
    obtain ⟨c3, h3⟩ := hget (b2.val / 4) (by omega)
    exact ⟨c0, c1, c2, c3, h0, h1, h2, h3⟩
  · intro n l k h0 h1 h2
    have e0 : (4 * k) &&& 3 = 0 := by rw [and3_eq_mod4]; omega
    have e1 : (4 * k + 1) &&& 3 = 1 := by rw [and3_eq_mod4]; omega
    have e2 : (4 * k + 2) &&& 3 = 2 := by rw [and3_eq_mod4]; omega
    have e3 : (4 * k + 3) &&& 3 = 3 := by rw [and3_eq_mod4]; omega
    have d0 : 4 * k / 4 = k := by omega
    have d1 : (4 * k + 1) / 4 = k := by omega
    have d2 : (4 * k + 2) / 4 = k := by omega
    have d3 : (4 * k + 3) / 4 = k := by omega
    refine ⟨?_, ?_, ?_, ?_⟩
    · simp only [helper_getBase64, e0, d0, Nat.add_zero, h0, v0]
    · simp only [helper_getBase64, e1, d1, Nat.add_zero, h0, h1, v1]
    · simp only [helper_getBase64, e2, d2, h1, h2, v2]
    · simp only [helper_getBase64, e3, d3, h2, v3]

/-- Witness of C17: the bytes `0xD5, 0x81, 0x66` hold the units 21, 7, 40, 25
(the characters `a`, `.`, `t`, `e`). -/
theorem helper_getBase64_group_witness :
    helper_getBase64 [0xD5, 0x81, 0x66] 0 0 = .ok 21 ∧
    helper_getBase64 [0xD5, 0x81, 0x66] 0 1 = .ok 7 ∧
    helper_getBase64 [0xD5, 0x81, 0x66] 0 2 = .ok 40 ∧
    helper_getBase64 [0xD5, 0x81, 0x66] 0 3 = .ok 25 ∧
    21 ||| (7 <<< 6) ||| (40 <<< 12) ||| (25 <<< 18) = 0xD5 ||| (0x81 <<< 8) ||| (0x66 <<< 16) ∧
    ∃ u0 u1 u2 u3 : Nat, u0 < 64 ∧ u1 < 64 ∧ u2 < 64 ∧ u3 < 64 ∧
      u0 ||| (u1 <<< 6) ||| (u2 <<< 12) ||| (u3 <<< 18)
        = (0xD5 : Fin 256).val ||| ((0x81 : Fin 256).val <<< 8) ||| ((0x66 : Fin 256).val <<< 16) ∧
      (∃ c0 c1 c2 c3, chartable[u0]? = some c0 ∧ chartable[u1]? = some c1 ∧
        chartable[u2]? = some c2 ∧ chartable[u3]? = some c3) ∧
      ∀ (n : List (Fin 256)) (l k : Nat),
        n[l + 3 * k]? = some 0xD5 → n[l + 3 * k + 1]? = some 0x81 →
        n[l + 3 * k + 2]? = some 0x66 →
        helper_getBase64 n l (4 * k) = .ok u0 ∧ helper_getBase64 n l (4 * k + 1) = .ok u1 ∧
        helper_getBase64 n l (4 * k + 2) = .ok u2 ∧ helper_getBase64 n l (4 * k + 3) = .ok u3 :=
  ⟨rfl, rfl, rfl, rfl, by decide, helper_getBase64_group 0xD5 0x81 0x66⟩

/-- Every unit `helper_getBase64` returns is below 64. -/
theorem helper_getBase64_lt {n : List (Fin 256)} {l i v : Nat}
    (h : helper_getBase64 n l i = .ok v) : v < 64 := by
  unfold helper_getBase64 at h
  simp only at h
  split at h
  · split at h
    · rename_i b0 _
      injection h with h
      have := (unit_values b0.val 0 0 b0.isLt (by omega) (by omega)).1
      omega
    · cases h
  · split at h
    · rename_i b1 b0 _ _
      injection h with h
      have := (unit_values b0.val b1.val 0 b0.isLt b1.isLt (by omega)).2.1
      omega
    · cases h
  · split at h
    · rename_i b2 b1 _ _
      injection h with h
      have := (unit_values 0 b1.val b2.val (by omega) b1.isLt b2.isLt).2.2.1
      omega
    · cases h
  · split at h
    · rename_i b2 _
      injection h with h
      have := (unit_values 0 0 b2.val (by omega) (by omega) b2.isLt).2.2.2
      omega
    · cases h

theorem delta_form (v t : Nat) (hv : v < 64) (ht : t < 64) :
    ((v &&& 0x78) ≠ 0x38 ∨ (t &&& 0x70) ≠ 0x20) ↔ ¬ (v >>> 3 = 0b111 ∧ t >>> 4 = 0b10) := by
  have h1 : ∀ v < 64, (v &&& 0x78 = 0x38 ↔ v >>> 3 = 0b111) := by decide
  have h2 : ∀ t < 64, (t &&& 0x70 = 0x20 ↔ t >>> 4 = 0b10) := by decide
  rw [← h1 v hv, ← h2 t ht]
  tauto

/-- C16. When the first unit `v` is at least `0x30`, `helper_decode64` throws
unless `v` has the form `111CBA` and the second unit `t` the form `10GFED`;
when they have, it resizes the previous name buffer to
`(v & 7) | ((t & 0xF) << 3)` characters (its first characters, when it has as
many) and decodes from unit index 2; when `v` is below `0x30` it clears the
buffer and decodes from unit index 0. -/
theorem helper_decode64_start (fuel : Nat) (names : List (Fin 256)) (nameBuffer : List Char)
    (nameOffset v : Nat) (hv : helper_getBase64 names nameOffset 0 = .ok v) :
    (v < 0x30 →
      helper_decode64 fuel names nameBuffer nameOffset
        = (decode64_loop names nameOffset fuel 0 []).map (fun b => (c_str b, b))) ∧
    (0x30 ≤ v → ∀ t, helper_getBase64 names nameOffset 1 = .ok t →
      ((v >>> 3 = 0b111 ∧ t >>> 4 = 0b10) →
        helper_decode64 fuel names nameBuffer nameOffset
          = (decode64_loop names nameOffset fuel 2
              (resize_name nameBuffer ((v &&& 0x07) ||| ((t &&& 0x0F) <<< 3)))).map
              (fun b => (c_str b, b)) ∧
        (((v &&& 0x07) ||| ((t &&& 0x0F) <<< 3)) ≤ nameBuffer.length →
          resize_name nameBuffer ((v &&& 0x07) ||| ((t &&& 0x0F) <<< 3))
            = nameBuffer.take ((v &&& 0x07) ||| ((t &&& 0x0F) <<< 3)))) ∧
      (¬ (v >>> 3 = 0b111 ∧ t >>> 4 = 0b10) →
        helper_decode64 fuel names nameBuffer nameOffset
          = .error (.thrown .invalid_delta_encoding))) := by
  have hv64 := helper_getBase64_lt hv
  refine ⟨?_, ?_⟩
  · intro hlt
    have hn : ¬ v ≥ 0x30 := by omega
    simp only [helper_decode64, decode64_start, hv, hn, if_false]
    cases decode64_loop names nameOffset fuel 0 [] <;> rfl
  · intro hge t ht
    have ht64 := helper_getBase64_lt ht
    have hform := delta_form v t hv64 ht64
    have hg : v ≥ 0x30 := hge
    refine ⟨?_, ?_⟩
    · intro hacc
      have hno : ¬ ((v &&& 0x78) ≠ 0x38 ∨ (t &&& 0x70) ≠ 0x20) := by
        rw [hform]; exact fun h => h hacc
      refine ⟨?_, ?_⟩
      · simp only [helper_decode64, decode64_start, hv, hg, if_true, ht, hno, if_false]
        cases decode64_loop names nameOffset fuel 2
          (resize_name nameBuffer ((v &&& 0x07) ||| ((t &&& 0x0F) <<< 3))) <;> rfl
      · intro hle
        unfold resize_name
        rw [Nat.sub_eq_zero_of_le hle]
        simp
    · intro hrej
      have hyes : (v &&& 0x78) ≠ 0x38 ∨ (t &&& 0x70) ≠ 0x20 := hform.2 hrej
      simp only [helper_decode64, decode64_start, hv, hg, if_true, ht, hyes]

/-- Witness of C16: units `0x39`, `0x20` keep one character of the previous
buffer. -/
theorem helper_decode64_start_witness :
    helper_getBase64 [0x39, 8, 0] 0 0 = .ok 0x39 ∧
    helper_getBase64 [0x39, 8, 0] 0 1 = .ok 0x20 ∧
    ((0x39 &&& 0x07) ||| ((0x20 &&& 0x0F) <<< 3)) = 1 ∧
    helper_decode64 10 [0x39, 8, 0] ['a', 'b', Char.ofNat 0] 0
      = .ok (['a'], ['a', Char.ofNat 0]) ∧
    helper_decode64 10 [0x39, 8, 0] ['a', 'b', Char.ofNat 0] 0
      = (decode64_loop [0x39, 8, 0] 0 10 2
          (resize_name ['a', 'b', Char.ofNat 0] ((0x39 &&& 0x07) ||| ((0x20 &&& 0x0F) <<< 3)))).map
          (fun b => (c_str b, b)) :=
  ⟨rfl, rfl, by decide, rfl,
    (((helper_decode64_start 10 [0x39, 8, 0] ['a', 'b', Char.ofNat 0] 0 0x39 rfl).2
      (by decide) 0x20 rfl).1 (by decide)).1⟩

/-! ## Decoded names -/

theorem resize_name_no_plus (buf : List Char) (n : Nat) (h : ∀ c ∈ buf, c ≠ '+') :
    ∀ c ∈ resize_name buf n, c ≠ '+' := by
  intro c hc
  unfold resize_name at hc
  rcases List.mem_append.1 hc with hc | hc
  · exact h c (List.mem_of_mem_take hc)
  · rw [List.mem_replicate] at hc
    rw [hc.2]
    decide

theorem decode64_loop_no_plus (names : List (Fin 256)) (off : Nat) :
    ∀ (fuel i : Nat) (buf buf' : List Char), (∀ c ∈ buf, c ≠ '+') →
      decode64_loop names off fuel i buf = .ok buf' → ∀ c ∈ buf', c ≠ '+' := by
  intro fuel
  induction fuel with
  | zero => intro i buf buf' _ h; simp [decode64_loop] at h
  | succ fuel ih =>
    intro i buf buf' hb h
    simp only [decode64_loop] at h
    split at h
    · cases h
    split at h
    · cases h
    rename_i c _
    by_cases hp : c = '+'
    · rw [if_pos hp] at h; cases h
    rw [if_neg hp] at h
    have hb' : ∀ x ∈ buf ++ [c], x ≠ '+' := by
      intro x hx
      rcases List.mem_append.1 hx with hx | hx
      · exact hb x hx
      · rw [List.mem_singleton] at hx; rw [hx]; exact hp
    by_cases hz : c ≠ Char.ofNat 0
    · rw [if_pos hz] at h
      exact ih _ _ _ hb' h
    · rw [if_neg hz] at h
      injection h with h
      rw [← h]
      exact hb'

/-- C15 (as stated, refuted). With the previous name buffer `"+"` and a delta
header that keeps one character, `helper_decode64` succeeds and returns the
string `"+"`. -/
theorem helper_decode64_keeps_plus :
    helper_decode64 10 [0x39, 8, 0] ['+'] 0 = .ok (['+'], ['+', Char.ofNat 0]) ∧
    '+' ∈ ['+'] := by
  exact ⟨rfl, by decide⟩

/-- C15 (amended). For every name blob, name offset and previous name buffer
without a `+` (the buffer of `process_textures` starts empty and is written by
`helper_decode64` alone) on which `helper_decode64` succeeds, whatever the
fuel, the returned string contains no `+` and no NUL, and the name buffer it
leaves contains no `+` either. -/
theorem helper_decode64_no_plus (fuel : Nat) (names : List (Fin 256)) (nameBuffer : List Char)
    (nameOffset : Nat) (name nameBuffer' : List Char) (hprev : ∀ c ∈ nameBuffer, c ≠ '+')
    (h : helper_decode64 fuel names nameBuffer nameOffset = .ok (name, nameBuffer')) :
    (∀ c ∈ name, c ≠ '+' ∧ c ≠ Char.ofNat 0) ∧ (∀ c ∈ nameBuffer', c ≠ '+') := by
  unfold helper_decode64 at h
  split at h
  · cases h
  rename_i i buf0 hstart
  split at h
  · cases h
  rename_i buf1 hloop
  injection h with h; injection h with h1 h2
  subst h1; subst h2
  have h0 : ∀ c ∈ buf0, c ≠ '+' := by
    unfold decode64_start at hstart
    split at hstart
    · cases hstart
    rename_i v0 _
    by_cases hv : v0 ≥ 0x30
    · rw [if_pos hv] at hstart
      split at hstart
      · cases hstart
      split_ifs at hstart
      injection hstart with hstart; injection hstart with _ hs
      rw [← hs]
      exact resize_name_no_plus _ _ hprev
    · rw [if_neg hv] at hstart
      injection hstart with hstart; injection hstart with _ hs
      rw [← hs]
      intro c hc; simp at hc
  have h1 := decode64_loop_no_plus names nameOffset fuel i buf0 buf1 h0 hloop
  refine ⟨?_, h1⟩
  intro c hc
  unfold c_str at hc
  refine ⟨h1 c ((List.takeWhile_sublist _).subset hc), ?_⟩
  have := List.mem_takeWhile_imp hc
  simpa using this

/-- Witness of C15 (amended): the name `"a.tex"` decoded into an empty buffer. -/
theorem helper_decode64_no_plus_witness :
    helper_decode64 10 [0xD5, 0x81, 0x66, 0x2C, 0, 0] [] 0
      = .ok (['a', '.', 't', 'e', 'x'], ['a', '.', 't', 'e', 'x', Char.ofNat 0]) ∧
    ((∀ c ∈ ['a', '.', 't', 'e', 'x'], c ≠ '+' ∧ c ≠ Char.ofNat 0) ∧
      (∀ c ∈ ['a', '.', 't', 'e', 'x', Char.ofNat 0], c ≠ '+')) :=
  ⟨rfl, helper_decode64_no_plus 10 [0xD5, 0x81, 0x66, 0x2C, 0, 0] [] 0 _ _
    (by intro c hc; simp at hc) rfl⟩

/-! ## The dirty flag -/

/-- A chunk that the per-block step writes back did not have `cs0 > cs1`. -/
theorem fix_chunk_written {c c' : dxt5_chunk} (h : fix_chunk c = .ok (c', true)) :
    c.cs0 ≤ c.cs1 := by
  unfold fix_chunk at h
  split_ifs at h with hlt hcv heq hz
  · omega
  · omega
  · omega
  · omega
  · injection h with h; injection h with _ hd; cases hd

/-- The inner loop of `fix_dxt` and the flag: the flag is never cleared, it is
set when a visited chunk does not have `cs0 > cs1`, and a visited chunk that has
`cs0 > cs1` keeps all its 16 bytes. -/
theorem block_loop_dirty : ∀ (n : Nat) (t : List (Fin 256)) (off : Nat) (d : Bool)
    (t' : List (Fin 256)) (off' : Nat) (d' : Bool),
    block_loop n t off d = .ok (t', off', d') →
    (d = true → d' = true) ∧
    ((∃ j < n, ¬ get_u16 t (off + 16 * j + 10) < get_u16 t (off + 16 * j + 8)) → d' = true) ∧
    (∀ j < n, get_u16 t (off + 16 * j + 10) < get_u16 t (off + 16 * j + 8) →
      ∀ i, off + 16 * j ≤ i → i < off + 16 * j + 16 → t'[i]? = t[i]?) := by
  intro n
  induction n with
  | zero =>
    intro t off d t' off' d' h
    simp only [block_loop] at h
    injection h with h; injection h with h1 h2; injection h2 with h2 h3
    subst h3
    exact ⟨fun h => h, fun ⟨j, hj, _⟩ => by omega, fun j hj => by omega⟩
  | succ n ih =>
    intro t off d t' off' d' h
    have hspec := block_loop_spec (n + 1) t off d t' off' d' h
    simp only [block_loop, helper_read_chunk_at, sizeof_dxt5_chunk] at h
    by_cases hlen : t.length < off + 16
    · rw [if_pos hlen] at h; cases h
    · rw [if_neg hlen] at h
      simp only at h
      have hlen' : off + 16 ≤ t.length := by omega
      have hc0 : (dxt5_chunk.decode (t.drop off)).cs0 = get_u16 t (off + 8) := by
        simp only [dxt5_chunk.decode, get_u16_drop]
      have hc1 : (dxt5_chunk.decode (t.drop off)).cs1 = get_u16 t (off + 10) := by
        simp only [dxt5_chunk.decode, get_u16_drop]
      obtain ⟨hal, _⟩ := decode_chunk_alpha t off hlen'
      cases hfc : fix_chunk (dxt5_chunk.decode (t.drop off)) with
      | error e => rw [hfc] at h; cases h
      | ok r =>
        obtain ⟨c', w⟩ := r
        obtain ⟨hfa, _, _, _, hfalse⟩ := fix_chunk_step
          (by rw [hc0]; exact get_u16_lt _ _) (by rw [hc1]; exact get_u16_lt _ _) hfc
        rw [hfc] at h
        cases w with
        | true =>
          simp only at h
          have hle := fix_chunk_written hfc
          rw [hc0, hc1] at hle
          cases hov : helper_override t (off + 16) 16 c'.encode with
          | error e => rw [hov] at h; cases h
          | ok t1 =>
            rw [hov] at h
            simp only at h
            obtain ⟨henc, _⟩ := encode_chunk_bytes c' (by rw [hfa]; exact hal)
            obtain ⟨_, _, hget⟩ := helper_override_spec henc hlen' hov
            have hsub : off + 16 - 16 = off := by omega
            rw [hsub] at hget
            have hout : ∀ i, off + 16 ≤ i → t1[i]? = t[i]? := by
              intro i hi
              rw [hget, if_neg (by omega), if_neg (by omega)]
            obtain ⟨ihd, _, ihk⟩ := ih t1 (off + 16) true t' off' d' h
            have hd' : d' = true := ihd rfl
            refine ⟨fun _ => hd', fun _ => hd', ?_⟩
            intro j hj hcan i hi1 hi2
            rcases Nat.eq_zero_or_pos j with hj0 | hjp
            · subst hj0
              simp only [Nat.mul_zero, Nat.add_zero] at hcan
              omega
            · have e1 : off + 16 + 16 * (j - 1) + 10 = off + 16 * j + 10 := by omega
              have e2 : off + 16 + 16 * (j - 1) + 8 = off + 16 * j + 8 := by omega
              have hcan1 : get_u16 t1 (off + 16 + 16 * (j - 1) + 10)
                  < get_u16 t1 (off + 16 + 16 * (j - 1) + 8) := by
                rw [e1, e2, get_u16_congr (hout _ (by omega)) (hout _ (by omega)),
                  get_u16_congr (hout (off + 16 * j + 8) (by omega)) (hout _ (by omega))]
                exact hcan
              rw [ihk (j - 1) (by omega) hcan1 i (by omega) (by omega)]
              exact hout i (by omega)
        | false =>
          simp only at h
          have hcan0 := hfalse rfl
          rw [hc0, hc1] at hcan0
          obtain ⟨ihd, ihe, ihk⟩ := ih t (off + 16) d t' off' d' h
          obtain ⟨_, _, _, ihf, _⟩ := block_loop_spec n t (off + 16) d t' off' d' h
          refine ⟨ihd, ?_, ?_⟩
          · rintro ⟨j, hj, hnc⟩
            rcases Nat.eq_zero_or_pos j with hj0 | hjp
            · subst hj0
              simp only [Nat.mul_zero, Nat.add_zero] at hnc
              exact absurd hcan0 hnc
            · apply ihe
              refine ⟨j - 1, by omega, ?_⟩
              have e1 : off + 16 + 16 * (j - 1) + 10 = off + 16 * j + 10 := by omega
              have e2 : off + 16 + 16 * (j - 1) + 8 = off + 16 * j + 8 := by omega
              rw [e1, e2]
              exact hnc
          · intro j hj hcan i hi1 hi2
            rcases Nat.eq_zero_or_pos j with hj0 | hjp
            · subst hj0
              exact ihf i (Or.inl (by omega))
            · have e1 : off + 16 + 16 * (j - 1) + 10 = off + 16 * j + 10 := by omega
              have e2 : off + 16 + 16 * (j - 1) + 8 = off + 16 * j + 8 := by omega
              have hcan1 : get_u16 t (off + 16 + 16 * (j - 1) + 10)
                  < get_u16 t (off + 16 + 16 * (j - 1) + 8) := by
                rw [e1, e2]; exact hcan
              exact ihk (j - 1) (by omega) hcan1 i (by omega) (by omega)

/-- The outer loop of `fix_dxt` and the flag, as for the inner loop. -/
theorem mmap_loop_dirty : ∀ (m blocks : Nat) (t : List (Fin 256)) (off : Nat) (d : Bool)
    (t' : List (Fin 256)) (off' : Nat) (d' : Bool),
    mmap_loop m blocks t off d = .ok (t', off', d') →
    (d = true → d' = true) ∧
    ((∃ j < block_total m blocks,
        ¬ get_u16 t (off + 16 * j + 10) < get_u16 t (off + 16 * j + 8)) → d' = true) ∧
    (∀ j < block_total m blocks, get_u16 t (off + 16 * j + 10) < get_u16 t (off + 16 * j + 8) →
      ∀ i, off + 16 * j ≤ i → i < off + 16 * j + 16 → t'[i]? = t[i]?) := by
  intro m
  induction m with
  | zero =>
    intro blocks t off d t' off' d' h
    simp only [mmap_loop] at h
    injection h with h; injection h with h1 h2; injection h2 with h2 h3
    subst h3
    simp only [block_total]
    exact ⟨fun h => h, fun ⟨j, hj, _⟩ => by omega, fun j hj => by omega⟩
  | succ m ih =>
    intro blocks t off d t' off' d' h
    simp only [mmap_loop] at h
    cases hb : block_loop blocks t off d with
    | error e => rw [hb] at h; cases h
    | ok r =>
      obtain ⟨t1, off1, d1⟩ := r
      rw [hb] at h
      simp only at h
      obtain ⟨_, bo, _, bf, _⟩ := block_loop_spec blocks t off d t1 off1 d1 hb
      obtain ⟨bd, be, bk⟩ := block_loop_dirty blocks t off d t1 off1 d1 hb
      obtain ⟨_, _, _, mf, _⟩ := mmap_loop_spec m (blocks / 4) t1 off1 d1 t' off' d' h
      obtain ⟨md, me, mk⟩ := ih (blocks / 4) t1 off1 d1 t' off' d' h
      have hout : ∀ i, off1 ≤ i → t1[i]? = t[i]? := fun i hi => bf i (Or.inr (Or.inl hi))
      simp only [block_total]
      refine ⟨fun hd => md (bd hd), ?_, ?_⟩
      · rintro ⟨j, hj, hnc⟩
        by_cases h1 : j < blocks
        · exact md (be ⟨j, h1, hnc⟩)
        · apply me
          refine ⟨j - blocks, by omega, ?_⟩
          have e1 : off1 + 16 * (j - blocks) + 10 = off + 16 * j + 10 := by omega
          have e2 : off1 + 16 * (j - blocks) + 8 = off + 16 * j + 8 := by omega
          rw [e1, e2, get_u16_congr (hout _ (by omega)) (hout _ (by omega)),
            get_u16_congr (hout (off + 16 * j + 8) (by omega)) (hout _ (by omega))]
          exact hnc
      · intro j hj hcan i hi1 hi2
        by_cases h1 : j < blocks
        · rw [mf i (Or.inl (by omega))]
          exact bk j h1 hcan i hi1 hi2
        · have e1 : off1 + 16 * (j - blocks) + 10 = off + 16 * j + 10 := by omega
          have e2 : off1 + 16 * (j - blocks) + 8 = off + 16 * j + 8 := by omega
          have hcan1 : get_u16 t1 (off1 + 16 * (j - blocks) + 10)
              < get_u16 t1 (off1 + 16 * (j - blocks) + 8) := by
            rw [e1, e2, get_u16_congr (hout _ (by omega)) (hout _ (by omega)),
              get_u16_congr (hout (off + 16 * j + 8) (by omega)) (hout _ (by omega))]
            exact hcan
          rw [mk (j - blocks) (by omega) hcan1 i (by omega) (by omega)]
          exact hout i (by omega)

/-- The size check and the trim of `fix_dxt` and the flag: without a trim the
texture goes on as it is with the flag clear, with a trim the flag is set. -/
theorem trim_dirty {t T : List (Fin 256)} {hdr hdr' : tex_header} {m b : Nat} {dirty : Bool}
    (h : (if hdr.mmaps = m then
            if t.length ≠ b then Except.error mc2_exception.invalid_size
            else Except.ok (t, hdr, false)
          else
            if t.length < b then Except.error mc2_exception.not_as_large_as_expected
            else
              match helper_override t 14 14 { hdr with mmaps := m }.encode with
              | Except.error e => Except.error e
              | Except.ok texture => Except.ok (resize texture b, { hdr with mmaps := m }, true))
        = Except.ok (T, hdr', dirty)) :
    (hdr.mmaps = m → T = t ∧ dirty = false) ∧ (hdr.mmaps ≠ m → dirty = true) := by
  by_cases htrim : hdr.mmaps = m
  · rw [if_pos htrim] at h
    by_cases hsz : t.length ≠ b
    · rw [if_pos hsz] at h; cases h
    · rw [if_neg hsz] at h
      injection h with h; injection h with h1 h2; injection h2 with h2 h3
      exact ⟨fun _ => ⟨h1.symm, h3.symm⟩, fun hne => absurd htrim hne⟩
  · rw [if_neg htrim] at h
    by_cases hsz : t.length < b
    · rw [if_pos hsz] at h; cases h
    · rw [if_neg hsz] at h
      split at h
      · cases h
      injection h with h; injection h with h1 h2; injection h2 with h2 h3
      exact ⟨fun he => absurd he htrim, fun _ => h3.symm⟩

/-- The flag of a successful run of `fix_dxt` on a type-22 or type-26 texture
of non-zero width and height: the texture `T` and flag `dirty` after the trim,
and what the loops make of them. -/
theorem fix_dxt_run_dirty {t t' : List (Fin 256)} {d : Bool} (h : fix_dxt t = .ok (t', d))
    (hty : (tex_header.decode t).type = 26 ∨ (tex_header.decode t).type = 22)
    (hw : (tex_header.decode t).width ≠ 0) (hh : (tex_header.decode t).height ≠ 0) :
    ∃ m b T dirty,
      level_loop (if (tex_header.decode t).type = 26 then 1 else 2) (tex_header.decode t).mmaps
        (tex_header.decode t).width (tex_header.decode t).height 0 14 = .ok (m, b) ∧
      ((tex_header.decode t).mmaps = m → T = t ∧ dirty = false) ∧
      ((tex_header.decode t).mmaps ≠ m → dirty = true) ∧
      T.length = b ∧ (∀ i, 14 ≤ i → i < b → T[i]? = t[i]?) ∧
      ((tex_header.decode t).type = 26 → ∃ off',
        mmap_loop m (((tex_header.decode t).width / 4) * ((tex_header.decode t).height / 4))
          T 14 dirty = .ok (t', off', d)) ∧
      ((tex_header.decode t).type = 22 → t' = T ∧ d = dirty) := by
  have hw16 : (tex_header.decode t).width < 65536 := get_u16_lt _ _
  have hh16 : (tex_header.decode t).height < 65536 := get_u16_lt _ _
  have hm16 : (tex_header.decode t).mmaps < 65536 := get_u16_lt _ _
  generalize hhdr : tex_header.decode t = hdr at *
  unfold fix_dxt at h
  simp only [helper_read_header_at, sizeof_tex_header, List.drop_zero, Nat.zero_add, hhdr] at h
  by_cases hlen : t.length < 14
  · rw [if_pos hlen] at h; cases h
  rw [if_neg hlen] at h
  simp only at h
  rw [if_neg (by omega), if_neg (by omega)] at h
  split at h
  · cases h
  rename_i m b hl
  by_cases hm : m = 0
  · rw [if_pos hm] at h; cases h
  rw [if_neg hm] at h
  have hcount := level_loop_count _ _ _ _ _ _ _ _ (by omega) (by omega) hl
  have hmle := valid_levels_le hdr.mmaps hdr.width hdr.height
  split at h
  · cases h
  rename_i T header dirty htr
  obtain ⟨hh', hTl, _, hTf, _⟩ := trim_spec hhdr (by omega) (by omega) htr
  obtain ⟨hd1, hd2⟩ := trim_dirty htr
  subst hh'
  simp only at h
  refine ⟨m, b, T, dirty, hl, hd1, hd2, hTl, hTf, ?_, ?_⟩
  · intro h26
    rw [if_pos h26] at h
    split at h
    · cases h
    rename_i T2 off2 d2 hml
    by_cases hoff : off2 ≠ b
    · rw [if_pos hoff] at h; cases h
    rw [if_neg hoff] at h
    injection h with h; injection h with h1 h2
    subst h1; subst h2
    exact ⟨off2, hml⟩
  · intro h22
    rw [if_neg (by omega)] at h
    injection h with h; injection h with h1 h2
    exact ⟨h1.symm, h2.symm⟩

/-- C12. `fix_dxt` returns `true` exactly when the texture it leaves differs
from the texture it was given, in length or in a byte. Every 16-byte chunk
with `cs0 > cs1` that lies in the output has the 16 bytes it had, and when
`mmaps` is not changed and every chunk has `cs0 > cs1` the result is `false`. -/
theorem fix_dxt_dirty_iff (t t' : List (Fin 256)) (d : Bool) (h : fix_dxt t = .ok (t', d)) :
    (d = true ↔ t' ≠ t) ∧
    (∀ j, 14 + 16 * j + 16 ≤ t'.length →
      get_u16 t (14 + 16 * j + 10) < get_u16 t (14 + 16 * j + 8) →
      ∀ k < 16, t'[14 + 16 * j + k]? = t[14 + 16 * j + k]?) ∧
    ((tex_header.decode t').mmaps = (tex_header.decode t).mmaps →
      (∀ j, 14 + 16 * j + 16 ≤ t.length →
        get_u16 t (14 + 16 * j + 10) < get_u16 t (14 + 16 * j + 8)) →
      d = false) := by
  have hlen := fix_dxt_length h
  by_cases hp : ((tex_header.decode t).type ≠ 26 ∧ (tex_header.decode t).type ≠ 22) ∨
      (tex_header.decode t).width = 0 ∨ (tex_header.decode t).height = 0
  · rw [fix_dxt_passthrough hlen hp] at h
    injection h with h; injection h with h1 h2
    subst h1; subst h2
    exact ⟨by simp, fun _ _ _ _ _ => rfl, fun _ _ => rfl⟩
  · have hty : (tex_header.decode t).type = 26 ∨ (tex_header.decode t).type = 22 := by omega
    obtain ⟨m, b, _, hl, hm, hbl, hl', hb14, hdec, hfr, h26⟩ :=
      fix_dxt_run h hty (by omega) (by omega)
    obtain ⟨m', b', T, dirty, hl2, hd1, hd2, hTl, hTf, hT26, hT22⟩ :=
      fix_dxt_run_dirty h hty (by omega) (by omega)
    rw [hl] at hl2
    injection hl2 with hl2; injection hl2 with hm' hb'
    subst hm'; subst hb'
    have hmm : (tex_header.decode t').mmaps = m := by rw [hdec]
    by_cases h26' : (tex_header.decode t).type = 26
    · obtain ⟨hb, hcan'⟩ := h26 h26'
      obtain ⟨off', hml⟩ := hT26 h26'
      obtain ⟨md, me, mk⟩ := mmap_loop_dirty _ _ _ _ _ _ _ _ hml
      obtain ⟨_, _, mb, _, _⟩ := mmap_loop_spec _ _ _ _ _ _ _ _ hml
      have hTcan : ∀ j, j < block_total m
          ((tex_header.decode t).width / 4 * ((tex_header.decode t).height / 4)) →
          (get_u16 T (14 + 16 * j + 10) < get_u16 T (14 + 16 * j + 8) ↔
            get_u16 t (14 + 16 * j + 10) < get_u16 t (14 + 16 * j + 8)) := by
        intro j hj
        rw [get_u16_congr (hTf _ (by omega) (by omega)) (hTf _ (by omega) (by omega)),
          get_u16_congr (hTf (14 + 16 * j + 8) (by omega) (by omega))
            (hTf _ (by omega) (by omega))]
      refine ⟨?_, ?_, ?_⟩
      · by_cases htrim : (tex_header.decode t).mmaps = m
        · obtain ⟨hTt, hdf⟩ := hd1 htrim
          subst hTt; subst hdf
          by_cases hall : ∀ j < block_total m
              ((tex_header.decode T).width / 4 * ((tex_header.decode T).height / 4)),
              get_u16 T (14 + 16 * j + 10) < get_u16 T (14 + 16 * j + 8)
          · have hre := mmap_loop_of_gt m
              ((tex_header.decode T).width / 4 * ((tex_header.decode T).height / 4)) T 14 false
              (by omega) hall
            rw [hre] at hml
            injection hml with hml; injection hml with e1 e2; injection e2 with e2 e3
            subst e1; subst e3
            simp
          · push_neg at hall
            obtain ⟨j, hj, hnc⟩ := hall
            have hdt : d = true := me ⟨j, hj, by omega⟩
            refine ⟨fun _ => ?_, fun _ => hdt⟩
            intro heq
            have := hcan' j hj
            rw [heq] at this
            omega
        · have hdt : d = true := md (hd2 htrim)
          refine ⟨fun _ => ?_, fun _ => hdt⟩
          intro heq
          rw [heq] at hmm
          exact htrim hmm
      · intro j hj hcan k hk
        have hjb : j < block_total m
            ((tex_header.decode t).width / 4 * ((tex_header.decode t).height / 4)) := by omega
        rw [mk j hjb ((hTcan j hjb).2 hcan) _ (by omega) (by omega)]
        exact hTf _ (by omega) (by omega)
      · intro hsame hall
        have htrim : (tex_header.decode t).mmaps = m := by rw [← hsame, hmm]
        obtain ⟨hTt, hdf⟩ := hd1 htrim
        subst hTt; subst hdf
        have hre := mmap_loop_of_gt m
          ((tex_header.decode T).width / 4 * ((tex_header.decode T).height / 4)) T 14 false
          (by omega) (fun j hj => hall j (by omega))
        rw [hre] at hml
        injection hml with hml; injection hml with e1 e2; injection e2 with e2 e3
        exact e3.symm
    · have h22 : (tex_header.decode t).type = 22 := by omega
      obtain ⟨hT, hdd⟩ := hT22 h22
      subst hT; subst hdd
      refine ⟨?_, ?_, ?_⟩
      · by_cases htrim : (tex_header.decode t).mmaps = m
        · obtain ⟨hTt, hdf⟩ := hd1 htrim
          rw [hTt, hdf]; simp
        · have hdt := hd2 htrim
          refine ⟨fun _ => ?_, fun _ => hdt⟩
          intro heq
          rw [heq] at hmm
          exact htrim hmm
      · intro j hj _ k hk
        exact hTf _ (by omega) (by omega)
      · intro hsame _
        have htrim : (tex_header.decode t).mmaps = m := by rw [← hsame, hmm]
        exact (hd1 htrim).2

/-- Witness of C12: `dxt5_input` comes out changed with `true`, its output
comes out unchanged with `false`. -/
theorem fix_dxt_dirty_iff_witness :
    fix_dxt dxt5_input = .ok (dxt5_output, true) ∧ dxt5_output ≠ dxt5_input ∧
    fix_dxt dxt5_output = .ok (dxt5_output, false) ∧
    ((true = true ↔ dxt5_output ≠ dxt5_input) ∧
    (∀ j, 14 + 16 * j + 16 ≤ dxt5_output.length →
      get_u16 dxt5_input (14 + 16 * j + 10) < get_u16 dxt5_input (14 + 16 * j + 8) →
      ∀ k < 16, dxt5_output[14 + 16 * j + k]? = dxt5_input[14 + 16 * j + k]?) ∧
    ((tex_header.decode dxt5_output).mmaps = (tex_header.decode dxt5_input).mmaps →
      (∀ j, 14 + 16 * j + 16 ≤ dxt5_input.length →
        get_u16 dxt5_input (14 + 16 * j + 10) < get_u16 dxt5_input (14 + 16 * j + 8)) →
      true = false)) :=
  ⟨rfl, by decide, rfl, fix_dxt_dirty_iff dxt5_input dxt5_output true rfl⟩

/-! ## Rounded division -/

/-- Truncating division by a positive divisor: the quotient times the divisor
is within one divisor of the dividend, on the side of zero. -/
theorem tdiv_pos_bounds (n K : Int) (hK : 0 < K) :
    (0 ≤ n → 0 ≤ n.tdiv K ∧ K * n.tdiv K ≤ n ∧ n < K * n.tdiv K + K) ∧
    (n ≤ 0 → n.tdiv K ≤ 0 ∧ n ≤ K * n.tdiv K ∧ K * n.tdiv K - K < n) := by
  constructor
  · intro hn
    rw [Int.tdiv_eq_ediv hn (le_of_lt hK)]
    have h1 := Int.ediv_add_emod n K
    have h2 := Int.emod_nonneg n (ne_of_gt hK)
    have h3 := Int.emod_lt_of_pos n hK
    have h4 : 0 ≤ n / K := Int.ediv_nonneg hn (le_of_lt hK)
    refine ⟨h4, ?_, ?_⟩ <;> omega
  · intro hn
    have e : n.tdiv K = -((-n).tdiv K) := by rw [Int.neg_tdiv, neg_neg]
    have hn' : 0 ≤ -n := by omega
    rw [e, Int.tdiv_eq_ediv hn' (le_of_lt hK)]
    have h1 := Int.ediv_add_emod (-n) K
    have h2 := Int.emod_nonneg (-n) (ne_of_gt hK)
    have h3 := Int.emod_lt_of_pos (-n) hK
    have h4 : 0 ≤ (-n) / K := Int.ediv_nonneg hn' (le_of_lt hK)
    have h5 : K * -(-n / K) = -(K * (-n / K)) := by ring
    rw [h5]
    refine ⟨?_, ?_, ?_⟩ <;> omega

/-- C23, as stated, fails: on a negative numerator the truncating division
rounds toward zero, so `rdiv(-1, 2) = 0` is not `-rdiv(1, 2) = -1`, and
`rdiv(-3, 4) = 0` is `3 > 4 / 2` away from `-3 / 4`. -/
theorem rdiv_not_symmetric :
    rdiv (-1) 2 = 0 ∧ -rdiv 1 2 = -1 ∧ rdiv (-1) 2 ≠ -rdiv 1 2 ∧
    rdiv (-3) 4 = 0 ∧ ¬ (|4 * rdiv (-3) 4 - (-3)| ≤ (4 : Int).tdiv 2) := by
  decide

/-- C23, amended. For `num ≥ 0` and `den > 0`, `rdiv(num, den)` is the floor of
`(num + den / 2) / den` and lies within `den / 2` of `num / den`:
`|den * rdiv(num, den) - num| ≤ den / 2`; on the negative side
`rdiv(-num, den) = -((num - den / 2) / den)` with the division truncating. -/
theorem rdiv_nearest (num den : Int) (hn : 0 ≤ num) (hd : 0 < den) :
    rdiv num den = (num + den / 2) / den ∧
    |den * rdiv num den - num| ≤ den.tdiv 2 ∧
    rdiv (-num) den = -((num - den.tdiv 2).tdiv den) := by
  have h2 : den.tdiv 2 = den / 2 := tdiv_two_nonneg den (le_of_lt hd)
  have hh : 0 ≤ den / 2 := by omega
  have hq := (tdiv_pos_bounds (num + den / 2) den hd).1 (by omega)
  refine ⟨?_, ?_, ?_⟩
  · unfold rdiv
    rw [h2, Int.tdiv_eq_ediv (by omega) (le_of_lt hd)]
  · unfold rdiv
    rw [h2, abs_le]
    obtain ⟨_, h3, h4⟩ := hq
    constructor <;> omega
  · unfold rdiv
    rw [← Int.neg_tdiv]
    congr 1
    ring

theorem rdiv_nearest_witness :
    (0 : Int) ≤ 7 ∧ (0 : Int) < 4 ∧
    (rdiv 7 4 = (7 + 4 / 2) / 4 ∧ |4 * rdiv 7 4 - 7| ≤ (4 : Int).tdiv 2 ∧
      rdiv (-7) 4 = -(((7 : Int) - (4 : Int).tdiv 2).tdiv 4)) :=
  ⟨by decide, by decide, rdiv_nearest 7 4 (by decide) (by decide)⟩

/-! ## The iixi minimiser -/

/-- The error of the iixi family at `(a, b)` is its value at `(a*, b*)` plus a
positive definite form in `(a - a*, b - b*)`. -/
theorem iixi_cost_split (w0 w1 w2 c0 c1 a b : ℚ) (hK : iixi_K w0 w1 w2 ≠ 0) :
    iixi_cost w0 w1 w2 c0 c1 a b
      = iixi_cost w0 w1 w2 c0 c1 (iixi_a_opt w0 w1 w2 c0 c1) (iixi_b_opt w0 w1 w2 c0 c1)
        + (36 * w0 * (a - iixi_a_opt w0 w1 w2 c0 c1) ^ 2
          + 36 * w1 * (b - iixi_b_opt w0 w1 w2 c0 c1) ^ 2
          + w2 * (4 * (a - iixi_a_opt w0 w1 w2 c0 c1)
              + 2 * (b - iixi_b_opt w0 w1 w2 c0 c1)) ^ 2) := by
  unfold iixi_cost iixi_a_opt iixi_b_opt
  unfold iixi_K at hK
  generalize hk : iixi_K w0 w1 w2 = K
  have hKe : K = 18 * w0 * w1 + 2 * w0 * w2 + 8 * w1 * w2 := by rw [← hk]; rfl
  have hK' : K ≠ 0 := by rw [hKe]; exact hK
  field_simp
  rw [hKe]
  ring

/-- C21. For positive weights, `(a*, b*)` is the unique minimiser over the
rationals of the iixi error, `K * a*` and `K * b*` are the integer numerators
the code forms, and when the rounded `b` is a valid colour `iixi` returns
`rdiv(K * a*, K)` and `rdiv(K * b*, K)` in every component. -/
theorem iixi_minimizer (w : weights) (cs0 cs1 : color)
    (h0 : 0 < w.w0) (h1 : 0 < w.w1) (h2 : 0 < w.w2)
    (hb : (color.mix cs0 cs1 (fun c0 c1 =>
      rdiv ((iixi_store.make w).K * c1 + (iixi_store.make w).w0w2 * (c1 - c0))
        (iixi_store.make w).K)).isValid = true) :
    (((iixi_store.make w).K : Int) : ℚ) = iixi_K w.w0 w.w1 w.w2 ∧
    (∀ (c0 c1 : Int) (a b : ℚ),
      iixi_cost w.w0 w.w1 w.w2 c0 c1 (iixi_a_opt w.w0 w.w1 w.w2 c0 c1)
          (iixi_b_opt w.w0 w.w1 w.w2 c0 c1)
        ≤ iixi_cost w.w0 w.w1 w.w2 c0 c1 a b ∧
      (iixi_cost w.w0 w.w1 w.w2 c0 c1 a b
          = iixi_cost w.w0 w.w1 w.w2 c0 c1 (iixi_a_opt w.w0 w.w1 w.w2 c0 c1)
            (iixi_b_opt w.w0 w.w1 w.w2 c0 c1) →
        a = iixi_a_opt w.w0 w.w1 w.w2 c0 c1 ∧ b = iixi_b_opt w.w0 w.w1 w.w2 c0 c1)) ∧
    (∀ c0 c1 : Int,
      (((iixi_store.make w).K * c0 + 2 * (iixi_store.make w).w1w2 * (c1 - c0) : Int) : ℚ)
        = iixi_K w.w0 w.w1 w.w2 * iixi_a_opt w.w0 w.w1 w.w2 c0 c1 ∧
      (((iixi_store.make w).K * c1 + (iixi_store.make w).w0w2 * (c1 - c0) : Int) : ℚ)
        = iixi_K w.w0 w.w1 w.w2 * iixi_b_opt w.w0 w.w1 w.w2 c0 c1) ∧
    iixi cs0 cs1 w (iixi_store.make w)
      = (color.mix cs0 cs1 (fun c0 c1 =>
          rdiv ((iixi_store.make w).K * c0 + 2 * (iixi_store.make w).w1w2 * (c1 - c0))
            (iixi_store.make w).K),
         color.mix cs0 cs1 (fun c0 c1 =>
          rdiv ((iixi_store.make w).K * c1 + (iixi_store.make w).w0w2 * (c1 - c0))
            (iixi_store.make w).K)) := by
  have q0 : (0 : ℚ) < w.w0 := by exact_mod_cast h0
  have q1 : (0 : ℚ) < w.w1 := by exact_mod_cast h1
  have q2 : (0 : ℚ) < w.w2 := by exact_mod_cast h2
  have hKpos : 0 < iixi_K w.w0 w.w1 w.w2 := by unfold iixi_K; positivity
  have hK : iixi_K w.w0 w.w1 w.w2 ≠ 0 := ne_of_gt hKpos
  refine ⟨?_, ?_, ?_, ?_⟩
  · simp only [iixi_store.make, iixi_K]
    push_cast
    ring
  · intro c0 c1 a b
    have hs := iixi_cost_split w.w0 w.w1 w.w2 c0 c1 a b hK
    have n0 : 0 ≤ 36 * (w.w0 : ℚ) * (a - iixi_a_opt w.w0 w.w1 w.w2 c0 c1) ^ 2 := by positivity
    have n1 : 0 ≤ 36 * (w.w1 : ℚ) * (b - iixi_b_opt w.w0 w.w1 w.w2 c0 c1) ^ 2 := by positivity
    have n2 : 0 ≤ (w.w2 : ℚ) * (4 * (a - iixi_a_opt w.w0 w.w1 w.w2 c0 c1)
        + 2 * (b - iixi_b_opt w.w0 w.w1 w.w2 c0 c1)) ^ 2 := by positivity
    constructor
    · rw [hs]; linarith
    · intro he
      rw [hs] at he
      have e0 : 36 * (w.w0 : ℚ) * (a - iixi_a_opt w.w0 w.w1 w.w2 c0 c1) ^ 2 = 0 := by linarith
      have e1 : 36 * (w.w1 : ℚ) * (b - iixi_b_opt w.w0 w.w1 w.w2 c0 c1) ^ 2 = 0 := by linarith
      have p0 : (36 * (w.w0 : ℚ)) ≠ 0 := by positivity
      have p1 : (36 * (w.w1 : ℚ)) ≠ 0 := by positivity
      have u0 := pow_eq_zero_iff (two_ne_zero) |>.1 ((mul_eq_zero.1 e0).resolve_left p0)
      have u1 := pow_eq_zero_iff (two_ne_zero) |>.1 ((mul_eq_zero.1 e1).resolve_left p1)
      exact ⟨by linarith, by linarith⟩
  · intro c0 c1
    unfold iixi_a_opt iixi_b_opt
    constructor
    · rw [mul_add, mul_div_cancel₀ _ hK]
      simp only [iixi_store.make, iixi_K]
      push_cast
      ring
    · rw [mul_add, mul_div_cancel₀ _ hK]
      simp only [iixi_store.make, iixi_K]
      push_cast
      ring
  · unfold iixi
    have hb' : (color.mix cs0 cs1 (fun a1 a2 =>
        rdiv3 ((iixi_store.make w).K * a2 + (iixi_store.make w).w0w2 * (a2 - a1))
          (iixi_store.make w).K (iixi_store.make w).Kh)).isValid = true := hb
    simp only [hb', if_true]
    rfl

theorem iixi_minimizer_witness :
    (0 : Int) < (⟨4, 4, 8, 0⟩ : weights).w0 ∧ (0 : Int) < (⟨4, 4, 8, 0⟩ : weights).w1 ∧
    (0 : Int) < (⟨4, 4, 8, 0⟩ : weights).w2 ∧
    (color.mix ⟨10, 20, 5⟩ ⟨12, 30, 9⟩ (fun c0 c1 =>
      rdiv ((iixi_store.make ⟨4, 4, 8, 0⟩).K * c1 + (iixi_store.make ⟨4, 4, 8, 0⟩).w0w2 * (c1 - c0))
        (iixi_store.make ⟨4, 4, 8, 0⟩).K)).isValid = true ∧
    iixi ⟨10, 20, 5⟩ ⟨12, 30, 9⟩ ⟨4, 4, 8, 0⟩ (iixi_store.make ⟨4, 4, 8, 0⟩)
      = (color.mix ⟨10, 20, 5⟩ ⟨12, 30, 9⟩ (fun c0 c1 =>
          rdiv ((iixi_store.make ⟨4, 4, 8, 0⟩).K * c0
            + 2 * (iixi_store.make ⟨4, 4, 8, 0⟩).w1w2 * (c1 - c0))
            (iixi_store.make ⟨4, 4, 8, 0⟩).K),
         color.mix ⟨10, 20, 5⟩ ⟨12, 30, 9⟩ (fun c0 c1 =>
          rdiv ((iixi_store.make ⟨4, 4, 8, 0⟩).K * c1
            + (iixi_store.make ⟨4, 4, 8, 0⟩).w0w2 * (c1 - c0))
            (iixi_store.make ⟨4, 4, 8, 0⟩).K)) :=
  ⟨by decide, by decide, by decide, by decide,
    (iixi_minimizer ⟨4, 4, 8, 0⟩ ⟨10, 20, 5⟩ ⟨12, 30, 9⟩ (by decide) (by decide) (by decide)
      (by decide)).2.2.2⟩

/-! ## needs_fixing against fix_dxt -/

/-- The walk breaks within `n` levels exactly when fewer than `n` levels are valid. -/
theorem chain_breaks_iff : ∀ n w h, chain_breaks n w h = true ↔ valid_levels n w h < n := by
  intro n
  induction n with
  | zero => intro w h; simp [chain_breaks, valid_levels]
  | succ n ih =>
    intro w h
    simp only [chain_breaks, valid_levels]
    by_cases hv : 4 ≤ w ∧ 4 ≤ h ∧ w % 4 = 0 ∧ h % 4 = 0
    · rw [if_pos hv]
      obtain ⟨h1, h2, h3, h4⟩ := hv
      have hw : 0 < w := by omega
      have hh : 0 < h := by omega
      simp only [hw, h3, hh, h4, decide_True, Bool.and_self, Bool.not_true, Bool.false_or, ih]
      omega
    · rw [if_neg hv]
      have : ¬ (0 < w ∧ w % 4 = 0 ∧ 0 < h ∧ h % 4 = 0) := by
        rintro ⟨h1, h2, h3, h4⟩
        exact hv ⟨by omega, by omega, h2, h4⟩
      simp only [Bool.or_eq_true, Bool.not_eq_true', Bool.and_eq_false_iff, decide_eq_false_iff_not,
        Bool.and_eq_true, decide_eq_true_eq]
      constructor
      · intro _; omega
      · intro _; left; tauto

/-- The loop of `needs_fixing`, when it does not throw, answers whether fewer
than `n` levels are valid. -/
theorem needs_fixing_loop_spec : ∀ n w h r, 1 ≤ w → 1 ≤ h →
    needs_fixing_loop n w h = .ok r → (r = true ↔ valid_levels n w h < n) := by
  intro n
  induction n with
  | zero =>
    intro w h r _ _ hl
    simp only [needs_fixing_loop] at hl
    injection hl with hl
    simp [valid_levels, ← hl]
  | succ n ih =>
    intro w h r hw hh hl
    simp only [needs_fixing_loop, and3_eq_mod4] at hl
    by_cases hv : w % 4 ≠ 0 ∨ h % 4 ≠ 0
    · rw [if_pos hv] at hl
      by_cases hb : w ≥ 4 ∨ h ≥ 4
      · rw [if_pos hb] at hl; cases hl
      · rw [if_neg hb] at hl
        injection hl with hl
        simp only [valid_levels]
        rw [if_neg (by omega)]
        simp [← hl]
    · rw [if_neg hv] at hl
      have h3 : w % 4 = 0 := by omega
      have h4 : h % 4 = 0 := by omega
      have := ih (w / 2) (h / 2) r (by omega) (by omega) hl
      simp only [valid_levels]
      rw [if_pos ⟨by omega, by omega, h3, h4⟩, this]
      omega

/-- C22, as stated, fails: a type-22 header of width 0 has a first level whose
width is not a positive multiple of 4, yet `needs_fixing` returns false. -/
theorem needs_fixing_zero_width :
    14 ≤ zero_width_header.length ∧
    (tex_header.decode zero_width_header).type = 22 ∧
    (tex_header.decode zero_width_header).width = 0 ∧
    chain_breaks (tex_header.decode zero_width_header).mmaps
      (tex_header.decode zero_width_header).width
      (tex_header.decode zero_width_header).height = true ∧
    needs_fixing zero_width_header = .ok false := by
  refine ⟨by decide, by decide, by decide, by decide, rfl⟩

/-- C22, amended. For every payload of at least 14 bytes on which
`needs_fixing` does not raise, it returns true exactly when `type = 26`, or
`type = 22` with non-zero width and height and, walking at most `mmaps` levels
with halving, some level has a dimension that is not a positive multiple of 4;
and for type 22, whenever `fix_dxt` succeeds too, its flag equals that of
`needs_fixing`. -/
theorem needs_fixing_iff (t : List (Fin 256)) (r : Bool) (hlen : 14 ≤ t.length)
    (h : needs_fixing t = .ok r) :
    (r = true ↔ (tex_header.decode t).type = 26 ∨
      ((tex_header.decode t).type = 22 ∧ (tex_header.decode t).width ≠ 0 ∧
        (tex_header.decode t).height ≠ 0 ∧
        chain_breaks (tex_header.decode t).mmaps (tex_header.decode t).width
          (tex_header.decode t).height = true)) ∧
    ((tex_header.decode t).type = 22 → ∀ t' d, fix_dxt t = .ok (t', d) →
      (d = true ↔ r = true)) := by
  unfold needs_fixing helper_read_header at h
  rw [if_neg (by simp only [sizeof_tex_header]; omega)] at h
  simp only at h
  by_cases h26 : (tex_header.decode t).type = 26
  · rw [if_pos h26] at h
    injection h with h
    refine ⟨by simp [← h, h26], fun h22 => by omega⟩
  · rw [if_neg h26] at h
    by_cases h22 : (tex_header.decode t).type = 22
    · rw [if_pos h22] at h
      by_cases hz : (tex_header.decode t).width = 0 ∨ (tex_header.decode t).height = 0
      · rw [if_pos hz] at h
        injection h with h
        constructor
        · rw [← h]
          simp only [Bool.false_eq_true, false_iff]
          rintro (h1 | ⟨_, h1, h2, _⟩)
          · exact h26 h1
          · rcases hz with hz | hz
            · exact h1 hz
            · exact h2 hz
        · intro _ t' d hf
          rw [fix_dxt_passthrough hlen (Or.inr hz)] at hf
          injection hf with hf
          injection hf with _ hd
          rw [← hd, ← h]
      · rw [if_neg hz] at h
        have hw : (tex_header.decode t).width ≠ 0 := fun e => hz (Or.inl e)
        have hh : (tex_header.decode t).height ≠ 0 := fun e => hz (Or.inr e)
        have hs := needs_fixing_loop_spec _ _ _ r (by omega) (by omega) h
        constructor
        · rw [hs, chain_breaks_iff]
          constructor
          · intro hlt; exact Or.inr ⟨h22, hw, hh, hlt⟩
          · rintro (h1 | ⟨_, _, _, hlt⟩)
            · exact absurd h1 h26
            · exact hlt
        · intro _ t' d hf
          obtain ⟨m, b, T, dirty, hl, hd1, hd2, _, _, _, hty⟩ :=
            fix_dxt_run_dirty hf (Or.inr h22) hw hh
          have hd := (hty h22).2
          have hm := level_loop_count _ _ _ _ _ _ _ _ (by omega) (by omega) hl
          have hle := valid_levels_le (tex_header.decode t).mmaps (tex_header.decode t).width
            (tex_header.decode t).height
          rw [hs, hd]
          by_cases hmm : (tex_header.decode t).mmaps = m
          · rw [(hd1 hmm).2]
            simp only [Bool.false_eq_true, false_iff]
            omega
          · rw [hd2 hmm]
            simp only [true_iff]
            omega
    · rw [if_neg h22] at h
      injection h with h
      refine ⟨?_, fun h => absurd h h22⟩
      rw [← h]
      simp only [Bool.false_eq_true, false_iff]
      rintro (h1 | ⟨h1, _⟩)
      · exact h26 h1
      · exact h22 h1

/-- On the 8 by 8 texture with three levels announced `fix_dxt` succeeds and
reports a change. -/
theorem fix_dxt_small_tail : ∃ t', fix_dxt small_tail_texture = .ok (t', true) := ⟨_, rfl⟩

theorem needs_fixing_iff_witness :
    14 ≤ small_tail_texture.length ∧ needs_fixing small_tail_texture = .ok true ∧
    ((true = true ↔ (tex_header.decode small_tail_texture).type = 26 ∨
      ((tex_header.decode small_tail_texture).type = 22 ∧
        (tex_header.decode small_tail_texture).width ≠ 0 ∧
        (tex_header.decode small_tail_texture).height ≠ 0 ∧
        chain_breaks (tex_header.decode small_tail_texture).mmaps
          (tex_header.decode small_tail_texture).width
          (tex_header.decode small_tail_texture).height = true)) ∧
    ((tex_header.decode small_tail_texture).type = 22 → ∀ t' d,
      fix_dxt small_tail_texture = .ok (t', d) → (d = true ↔ true = true))) :=
  ⟨by decide, rfl, needs_fixing_iff small_tail_texture true (by decide) rfl⟩

/-! ## Valid endpoints -/

/-- Unpacking a packed valid colour gives the colour back. -/
theorem from16_to16 (c : color) (h : c.isValid = true) : color.from16 c.to16 = c := by
  have ht := to16_of_valid c h
  obtain ⟨h1, h2, h3, h4, h5, h6⟩ := (isValid_iff c).1 h
  generalize c.to16 = n at ht
  unfold color.from16
  have e5 : ∀ x : Nat, x &&& 0x1F = x % 32 := fun x => Nat.and_pow_two_sub_one_eq_mod x 5
  have e6 : ∀ x : Nat, x &&& 0x3F = x % 64 := fun x => Nat.and_pow_two_sub_one_eq_mod x 6
  rw [e5, e6, e5]
  simp only [Nat.shiftRight_eq_div_pow]
  cases c with
  | mk r g b =>
    simp only at h1 h2 h3 h4 h5 h6 ht
    congr 1 <;> omega

/-- A rounded quotient of a numerator in `[0, mx * D]` lies in `[0, mx]`. -/
theorem rdiv_mem (N D mx : Int) (hD : 0 < D) (h0 : 0 ≤ N) (h1 : N ≤ mx * D) :
    0 ≤ rdiv N D ∧ rdiv N D ≤ mx := by
  unfold rdiv
  have h2 : D.tdiv 2 = D / 2 := tdiv_two_nonneg D (le_of_lt hD)
  rw [h2]
  obtain ⟨q0, q1, _⟩ := (tdiv_pos_bounds (N + D / 2) D hD).1 (by omega)
  refine ⟨q0, ?_⟩
  by_contra hc
  have hc' : mx + 1 ≤ (N + D / 2).tdiv D := by omega
  have hm : D * (mx + 1) ≤ D * (N + D / 2).tdiv D :=
    mul_le_mul_of_nonneg_left hc' (le_of_lt hD)
  have hh : D / 2 < D := by omega
  nlinarith

/-- A rounded weighted mean of two values of `[0, mx]` lies in `[0, mx]`. -/
theorem rdiv_mean_mem (P Q a y mx : Int) (hP : 0 ≤ P) (hQ : 0 ≤ Q) (hD : 0 < P + Q)
    (ha : 0 ≤ a) (ha' : a ≤ mx) (hy : 0 ≤ y) (hy' : y ≤ mx) :
    0 ≤ rdiv (P * a + Q * y) (P + Q) ∧ rdiv (P * a + Q * y) (P + Q) ≤ mx := by
  apply rdiv_mem _ _ _ hD
  · have := mul_nonneg hP ha
    have := mul_nonneg hQ hy
    omega
  · have := mul_le_mul_of_nonneg_left ha' hP
    have := mul_le_mul_of_nonneg_left hy' hQ
    nlinarith

/-- A clamped value lies between the bounds. -/
theorem clamp_mem (v mx : Int) (hmx : 0 ≤ mx) : 0 ≤ clamp v 0 mx ∧ clamp v 0 mx ≤ mx := by
  unfold clamp
  split_ifs <;> constructor <;> omega

/-- When the extrapolated endpoint `b` lies between `a2` and `a2 + (a2 - a1) / 2`,
the value `3 * a2 - 2 * clamp(b)` that the re-solved endpoint averages with
`a1` lies in `[0, mx]`. -/
theorem clamped_target (a1 a2 b mx : Int) (ha1 : 0 ≤ a1) (ha1' : a1 ≤ mx) (ha2 : 0 ≤ a2)
    (ha2' : a2 ≤ mx)
    (hp : 0 ≤ a2 - a1 → 2 * a2 ≤ 2 * b ∧ 2 * b ≤ 2 * a2 + (a2 - a1))
    (hn : a2 - a1 ≤ 0 → 2 * a2 + (a2 - a1) ≤ 2 * b ∧ 2 * b ≤ 2 * a2) :
    0 ≤ 3 * a2 - 2 * clamp b 0 mx ∧ 3 * a2 - 2 * clamp b 0 mx ≤ mx := by
  unfold clamp
  rcases le_total 0 (a2 - a1) with hd | hd
  · have := hp hd
    split_ifs <;> constructor <;> omega
  · have := hn hd
    split_ifs <;> constructor <;> omega

/-- The extrapolated endpoint of `iiix` lies between `a2` and `a2 + (a2 - a1) / 2`. -/
theorem iiix_b_bounds (a1 a2 : Int) :
    (0 ≤ a2 - a1 → 2 * a2 ≤ 2 * (a2 + (a2 - a1).tdiv 2) ∧
      2 * (a2 + (a2 - a1).tdiv 2) ≤ 2 * a2 + (a2 - a1)) ∧
    (a2 - a1 ≤ 0 → 2 * a2 + (a2 - a1) ≤ 2 * (a2 + (a2 - a1).tdiv 2) ∧
      2 * (a2 + (a2 - a1).tdiv 2) ≤ 2 * a2) := by
  have h := tdiv_pos_bounds (a2 - a1) 2 (by norm_num)
  constructor
  · intro hd
    have := h.1 hd
    constructor <;> omega
  · intro hd
    have := h.2 hd
    constructor <;> omega

/-- The extrapolated endpoint of `iixi` lies between `a2` and `a2 + (a2 - a1) / 2`,
because `w0w2` is less than half of `K`. -/
theorem iixi_b_bounds (Kh W a1 a2 : Int) (hW : 0 < W) (hWK : W < Kh) (ha2 : 0 ≤ a2) :
    (0 ≤ a2 - a1 → 2 * a2 ≤ 2 * rdiv3 (2 * Kh * a2 + W * (a2 - a1)) (2 * Kh) Kh ∧
      2 * rdiv3 (2 * Kh * a2 + W * (a2 - a1)) (2 * Kh) Kh ≤ 2 * a2 + (a2 - a1)) ∧
    (a2 - a1 ≤ 0 → 2 * a2 + (a2 - a1) ≤ 2 * rdiv3 (2 * Kh * a2 + W * (a2 - a1)) (2 * Kh) Kh ∧
      2 * rdiv3 (2 * Kh * a2 + W * (a2 - a1)) (2 * Kh) Kh ≤ 2 * a2) := by
  unfold rdiv3
  have hKh : 0 < Kh := by omega
  have hK : 0 < 2 * Kh := by omega
  have hb := tdiv_pos_bounds (2 * Kh * a2 + W * (a2 - a1) + Kh) (2 * Kh) hK
  generalize (2 * Kh * a2 + W * (a2 - a1) + Kh).tdiv (2 * Kh) = q at hb ⊢
  have hKa : 0 ≤ Kh * a2 := mul_nonneg (le_of_lt hKh) ha2
  constructor
  · intro hd
    have hWd : 0 ≤ W * (a2 - a1) := mul_nonneg (le_of_lt hW) hd
    obtain ⟨q0, q1, q2⟩ := hb.1 (by nlinarith)
    constructor
    · by_contra hc
      have hc' : q + 1 ≤ a2 := by omega
      have := mul_le_mul_of_nonneg_left hc' (le_of_lt hKh)
      nlinarith
    · rcases eq_or_lt_of_le hd with hd0 | hd0
      · rw [← hd0] at q1 ⊢
        by_contra hc
        have hc' : a2 + 1 ≤ q := by omega
        have := mul_le_mul_of_nonneg_left hc' (le_of_lt hKh)
        nlinarith
      · by_contra hc
        have hc' : 2 * a2 + (a2 - a1) + 1 ≤ 2 * q := by omega
        have h1 := mul_le_mul_of_nonneg_left hc' (le_of_lt hKh)
        have h2 := mul_lt_mul_of_pos_right hWK hd0
        nlinarith
  · intro hd
    have hWd : W * (a2 - a1) ≤ 0 := mul_nonpos_of_nonneg_of_nonpos (le_of_lt hW) hd
    have hlow : 2 * Kh * a2 + W * (a2 - a1) + Kh < 2 * Kh * q + 2 * Kh := by
      rcases le_total 0 (2 * Kh * a2 + W * (a2 - a1) + Kh) with hs | hs
      · have := hb.1 hs; omega
      · have := hb.2 hs; omega
    constructor
    · rcases eq_or_lt_of_le hd with hd0 | hd0
      · rw [hd0] at hlow ⊢
        by_contra hc
        have hc' : q + 1 ≤ a2 := by omega
        have := mul_le_mul_of_nonneg_left hc' (le_of_lt hKh)
        nlinarith
      · by_contra hc
        have hc' : 2 * q + 1 ≤ 2 * a2 + (a2 - a1) := by omega
        have h1 := mul_le_mul_of_nonneg_left hc' (le_of_lt hKh)
        have h2 := mul_lt_mul_of_neg_right hWK hd0
        nlinarith
    · rcases le_total 0 (2 * Kh * a2 + W * (a2 - a1) + Kh) with hs | hs
      · obtain ⟨q0, q1, q2⟩ := hb.1 hs
        by_contra hc
        have hc' : a2 + 1 ≤ q := by omega
        have := mul_le_mul_of_nonneg_left hc' (le_of_lt hKh)
        nlinarith
      · have := (hb.2 hs).1
        omega

/-- One component of the re-solved endpoint of `iiix` lies in `[0, mx]`. -/
theorem iiix_comp (w0 w1 w2 a1 a2 mx : Int) (hw0 : 1 ≤ w0) (hw1 : 1 ≤ w1) (hw2 : 1 ≤ w2)
    (ha1 : 0 ≤ a1) (ha1' : a1 ≤ mx) (ha2 : 0 ≤ a2) (ha2' : a2 ≤ mx) :
    0 ≤ rdiv (3 * (3 * w0 + w2) * a1 + 3 * (w1 + w2) * a2
        - 2 * (w1 + w2) * clamp (a2 + (a2 - a1).tdiv 2) 0 mx) (9 * w0 + w1 + 4 * w2) ∧
    rdiv (3 * (3 * w0 + w2) * a1 + 3 * (w1 + w2) * a2
        - 2 * (w1 + w2) * clamp (a2 + (a2 - a1).tdiv 2) 0 mx) (9 * w0 + w1 + 4 * w2) ≤ mx := by
  have hb := iiix_b_bounds a1 a2
  have hy := clamped_target a1 a2 (a2 + (a2 - a1).tdiv 2) mx ha1 ha1' ha2 ha2' hb.1 hb.2
  have e1 : 3 * (3 * w0 + w2) * a1 + 3 * (w1 + w2) * a2
      - 2 * (w1 + w2) * clamp (a2 + (a2 - a1).tdiv 2) 0 mx
      = (3 * (3 * w0 + w2)) * a1
        + (w1 + w2) * (3 * a2 - 2 * clamp (a2 + (a2 - a1).tdiv 2) 0 mx) := by ring
  have e2 : 9 * w0 + w1 + 4 * w2 = 3 * (3 * w0 + w2) + (w1 + w2) := by ring
  rw [e1, e2]
  exact rdiv_mean_mem _ _ _ _ mx (by omega) (by omega) (by omega) ha1 ha1' hy.1 hy.2

/-- One component of the re-solved endpoint of `iixi` lies in `[0, mx]`. -/
theorem iixi_clamped_comp (w0 w2 Kh W a1 a2 mx : Int) (hw0 : 1 ≤ w0) (hw2 : 1 ≤ w2)
    (hW : 0 < W) (hWK : W < Kh)
    (ha1 : 0 ≤ a1) (ha1' : a1 ≤ mx) (ha2 : 0 ≤ a2) (ha2' : a2 ≤ mx) :
    0 ≤ rdiv (9 * w0 * a1 + 3 * w2 * (a1 + a2)
        - 2 * w2 * clamp (rdiv3 (2 * Kh * a2 + W * (a2 - a1)) (2 * Kh) Kh) 0 mx)
        (9 * w0 + 4 * w2) ∧
    rdiv (9 * w0 * a1 + 3 * w2 * (a1 + a2)
        - 2 * w2 * clamp (rdiv3 (2 * Kh * a2 + W * (a2 - a1)) (2 * Kh) Kh) 0 mx)
        (9 * w0 + 4 * w2) ≤ mx := by
  have hb := iixi_b_bounds Kh W a1 a2 hW hWK ha2
  have hy := clamped_target a1 a2 _ mx ha1 ha1' ha2 ha2' hb.1 hb.2
  generalize clamp (rdiv3 (2 * Kh * a2 + W * (a2 - a1)) (2 * Kh) Kh) 0 mx = x at hy ⊢
  have e1 : 9 * w0 * a1 + 3 * w2 * (a1 + a2) - 2 * w2 * x
      = (9 * w0 + 3 * w2) * a1 + w2 * (3 * a2 - 2 * x) := by ring
  have e2 : 9 * w0 + 4 * w2 = (9 * w0 + 3 * w2) + w2 := by ring
  rw [e1, e2]
  exact rdiv_mean_mem _ _ _ _ mx (by omega) (by omega) (by omega) ha1 ha1' hy.1 hy.2

/-- One component of the unconstrained first endpoint of `iixi` lies in `[0, mx]`. -/
theorem iixi_free_comp (Kh W a1 a2 mx : Int) (hW : 0 < W) (hWK : 2 * W < Kh)
    (ha1 : 0 ≤ a1) (ha1' : a1 ≤ mx) (ha2 : 0 ≤ a2) (ha2' : a2 ≤ mx) :
    0 ≤ rdiv3 (2 * Kh * a1 + 2 * W * (a2 - a1)) (2 * Kh) Kh ∧
    rdiv3 (2 * Kh * a1 + 2 * W * (a2 - a1)) (2 * Kh) Kh ≤ mx := by
  have hh : Kh = (2 * Kh).tdiv 2 := by
    rw [tdiv_two_nonneg _ (by omega)]; omega
  have e0 : rdiv3 (2 * Kh * a1 + 2 * W * (a2 - a1)) (2 * Kh) Kh
      = rdiv (2 * Kh * a1 + 2 * W * (a2 - a1)) (2 * Kh) := by
    unfold rdiv3 rdiv
    rw [← hh]
  have e1 : 2 * Kh * a1 + 2 * W * (a2 - a1) = (2 * Kh - 2 * W) * a1 + (2 * W) * a2 := by ring
  have e2 : (2 * Kh - 2 * W) + 2 * W = 2 * Kh := by ring
  have key := rdiv_mean_mem (2 * Kh - 2 * W) (2 * W) a1 a2 mx (by omega) (by omega) (by omega)
    ha1 ha1' ha2 ha2'
  rw [e2] at key
  rw [e0, e1]
  exact key

/-- A clamped colour is valid. -/
theorem clamp_valid (c : color) : c.clamp.isValid = true := by
  rw [isValid_iff]
  unfold color.clamp
  have h1 := clamp_mem c.r 0x1F (by norm_num)
  have h2 := clamp_mem c.g 0x3F (by norm_num)
  have h3 := clamp_mem c.b 0x1F (by norm_num)
  simp only
  refine ⟨h1.1, ?_, h2.1, ?_, h3.1, ?_⟩ <;> omega

/-- On valid endpoints and positive weights both endpoints of `iiix` are valid. -/
theorem iiix_valid (cs0 cs1 : color) (w : weights) (h0 : cs0.isValid = true)
    (h1 : cs1.isValid = true) (hw0 : 1 ≤ w.w0) (hw1 : 1 ≤ w.w1) (hw2 : 1 ≤ w.w2) :
    (iiix cs0 cs1 w).1.isValid = true ∧ (iiix cs0 cs1 w).2.isValid = true := by
  unfold iiix
  simp only
  split_ifs with hb
  · exact ⟨h0, hb⟩
  · refine ⟨?_, clamp_valid _⟩
    obtain ⟨a1, a2, a3, a4, a5, a6⟩ := (isValid_iff cs0).1 h0
    obtain ⟨b1, b2, b3, b4, b5, b6⟩ := (isValid_iff cs1).1 h1
    rw [isValid_iff]
    simp only [color.complex, color.clamp, color.mix]
    have hr := iiix_comp w.w0 w.w1 w.w2 cs0.r cs1.r 0x1F hw0 hw1 hw2 a1 (by omega) b1 (by omega)
    have hg := iiix_comp w.w0 w.w1 w.w2 cs0.g cs1.g 0x3F hw0 hw1 hw2 a3 (by omega) b3 (by omega)
    have hb := iiix_comp w.w0 w.w1 w.w2 cs0.b cs1.b 0x1F hw0 hw1 hw2 a5 (by omega) b5 (by omega)
    refine ⟨hr.1, ?_, hg.1, ?_, hb.1, ?_⟩ <;> omega

/-- On valid endpoints, positive weights and a store of positive products both
endpoints of `iixi` are valid. -/
theorem iixi_valid (cs0 cs1 : color) (w : weights) (s : iixi_store) (h0 : cs0.isValid = true)
    (h1 : cs1.isValid = true) (hw0 : 1 ≤ w.w0) (hw2 : 1 ≤ w.w2)
    (hs1 : 1 ≤ s.w0w1) (hs2 : 1 ≤ s.w0w2) (hs3 : 1 ≤ s.w1w2)
    (hK : s.K = 18 * s.w0w1 + 2 * s.w0w2 + 8 * s.w1w2) (hKh : s.Kh = s.K.tdiv 2) :
    (iixi cs0 cs1 w s).1.isValid = true ∧ (iixi cs0 cs1 w s).2.isValid = true := by
  have hK2 : s.K = 2 * (9 * s.w0w1 + s.w0w2 + 4 * s.w1w2) := by rw [hK]; ring
  have hKh2 : s.Kh = 9 * s.w0w1 + s.w0w2 + 4 * s.w1w2 := by
    rw [hKh, hK2, tdiv_two_nonneg _ (by omega)]; omega
  obtain ⟨a1, a2, a3, a4, a5, a6⟩ := (isValid_iff cs0).1 h0
  obtain ⟨b1, b2, b3, b4, b5, b6⟩ := (isValid_iff cs1).1 h1
  unfold iixi
  simp only
  rw [hKh2, hK2]
  generalize hkh : 9 * s.w0w1 + s.w0w2 + 4 * s.w1w2 = kh
  have hW : s.w0w2 < kh := by omega
  have hW' : 2 * s.w1w2 < kh := by omega
  split_ifs with hb
  · refine ⟨?_, hb⟩
    rw [isValid_iff]
    simp only [color.mix]
    have hr := iixi_free_comp kh s.w1w2 cs0.r cs1.r 0x1F (by omega) hW' a1 (by omega) b1 (by omega)
    have hg := iixi_free_comp kh s.w1w2 cs0.g cs1.g 0x3F (by omega) hW' a3 (by omega) b3 (by omega)
    have hb := iixi_free_comp kh s.w1w2 cs0.b cs1.b 0x1F (by omega) hW' a5 (by omega) b5 (by omega)
    refine ⟨hr.1, ?_, hg.1, ?_, hb.1, ?_⟩ <;> omega
  · refine ⟨?_, clamp_valid _⟩
    rw [isValid_iff]
    simp only [color.complex, color.clamp, color.mix]
    have hr := iixi_clamped_comp w.w0 w.w2 kh s.w0w2 cs0.r cs1.r 0x1F hw0 hw2 (by omega) hW
      a1 (by omega) b1 (by omega)
    have hg := iixi_clamped_comp w.w0 w.w2 kh s.w0w2 cs0.g cs1.g 0x3F hw0 hw2 (by omega) hW
      a3 (by omega) b3 (by omega)
    have hb := iixi_clamped_comp w.w0 w.w2 kh s.w0w2 cs0.b cs1.b 0x1F hw0 hw2 (by omega) hW
      a5 (by omega) b5 (by omega)
    refine ⟨hr.1, ?_, hg.1, ?_, hb.1, ?_⟩ <;> omega

/-- The store of `handle3` and its inverse hold positive products. -/
theorem iixi_store_pos (w : weights) (hw0 : 1 ≤ w.w0) (hw1 : 1 ≤ w.w1) (hw2 : 1 ≤ w.w2) :
    1 ≤ w.w0 * w.w1 ∧ 1 ≤ w.w0 * w.w2 ∧ 1 ≤ w.w1 * w.w2 := by
  have p01 : 0 < w.w0 * w.w1 := mul_pos (by omega) (by omega)
  have p02 : 0 < w.w0 * w.w2 := mul_pos (by omega) (by omega)
  have p12 : 0 < w.w1 * w.w2 := mul_pos (by omega) (by omega)
  omega

/-- On valid endpoints and positive weights `handle3` returns valid endpoints. -/
theorem handle3_valid (cs0 cs1 : color) (cv : Nat) (w : weights) (h0 : cs0.isValid = true)
    (h1 : cs1.isValid = true) (hw0 : 1 ≤ w.w0) (hw1 : 1 ≤ w.w1) (hw2 : 1 ≤ w.w2) :
    (handle3 cs0 cs1 cv w).1.isValid = true ∧ (handle3 cs0 cs1 cv w).2.1.isValid = true := by
  obtain ⟨p01, p02, p12⟩ := iixi_store_pos w hw0 hw1 hw2
  have c1 := iiix_valid cs0 cs1 w h0 h1 hw0 hw1 hw2
  have c2 := iiix_valid cs1 cs0 (invertCs w) h1 h0 hw1 hw0 hw2
  have c3 := iixi_valid cs0 cs1 w (iixi_store.make w) h0 h1 hw0 hw2 p01 p02 p12 rfl rfl
  have c4 := iixi_valid cs1 cs0 (invertCs w) (iixi_store.make w).invert h1 h0 hw1 hw2
    p01 p12 p02 rfl rfl
  have hmem := std_min_mem eval.compare_err (cand_iiix cs0 cs1 cv w)
    [cand_xiii cs0 cs1 cv w, cand_iixi cs0 cs1 cv w, cand_ixii cs0 cs1 cv w]
  unfold handle3
  simp only
  generalize std_min eval.compare_err (cand_iiix cs0 cs1 cv w)
    [cand_xiii cs0 cs1 cv w, cand_iixi cs0 cs1 cv w, cand_ixii cs0 cs1 cv w] = best at hmem ⊢
  simp only [List.mem_cons, List.mem_singleton, List.not_mem_nil, or_false] at hmem
  rcases hmem with h | h | h | h
  · rw [h]; exact c1
  · rw [h]; exact c2
  · rw [h]; exact c3
  · rw [h]; exact c4

/-- A two-bucket candidate whose score is below the sentinel has valid endpoints. -/
theorem make2_valid_of_lt (b1 b2 : color) (cv : Nat) (pre : pre_eval_p2)
    (x0 x1 : color → color → color)
    (h : (eval.make2 b1 b2 cv pre x0 x1).err2 < int_fast32_max) :
    b1.isValid = true ∧ b2.isValid = true := by
  unfold eval.make2 eval.error2_p2 at h
  simp only at h
  split_ifs at h with hc
  · exact absurd h (lt_irrefl _)
  · simpa using hc

/-- The midpoint candidate ixxi of `handle2` has valid endpoints and a score
below the sentinel. -/
theorem cand_ixxi_lt (cs0 cs1 : color) (cv : Nat) (w2 : Int) (h0 : cs0.isValid = true)
    (h1 : cs1.isValid = true) (hw' : w2 ≤ 15) :
    (cand_ixxi cs0 cs1 cv (pre_eval_p2.make w2 cs0 cs1)).err2 < int_fast32_max := by
  obtain ⟨a1, a2, a3, a4, a5, a6⟩ := (isValid_iff cs0).1 h0
  obtain ⟨b1, b2, b3, b4, b5, b6⟩ := (isValid_iff cs1).1 h1
  have tr := tdiv_two_nonneg (cs1.r + cs0.r) (by omega)
  have tg := tdiv_two_nonneg (cs1.g + cs0.g) (by omega)
  have tb := tdiv_two_nonneg (cs1.b + cs0.b) (by omega)
  have hv : (color.mix cs0 cs1 (fun a b => (b + a).tdiv 2)).isValid = true := by
    rw [isValid_iff]
    simp only [color.mix]
    rw [tr, tg, tb]
    refine ⟨?_, ?_, ?_, ?_, ?_, ?_⟩ <;> omega
  unfold cand_ixxi eval.make2 eval.error2_p2
  simp only [h0, hv, Bool.not_true, Bool.or_self, Bool.false_eq_true, if_false]
  simp only [pre_eval_p2.make, total_error2_p2, single_error2, mixer.t0, mixer.t1, mixer.h0,
    mixer.h2, color.mix]
  rw [tr, tg, tb]
  have er : 0 ≤ 3 * cs0.r + 3 * cs1.r - 6 * ((cs1.r + cs0.r) / 2) ∧
      3 * cs0.r + 3 * cs1.r - 6 * ((cs1.r + cs0.r) / 2) ≤ 3 := by constructor <;> omega
  have eg : 0 ≤ 3 * cs0.g + 3 * cs1.g - 6 * ((cs1.g + cs0.g) / 2) ∧
      3 * cs0.g + 3 * cs1.g - 6 * ((cs1.g + cs0.g) / 2) ≤ 3 := by constructor <;> omega
  have eb : 0 ≤ 3 * cs0.b + 3 * cs1.b - 6 * ((cs1.b + cs0.b) / 2) ∧
      3 * cs0.b + 3 * cs1.b - 6 * ((cs1.b + cs0.b) / 2) ≤ 3 := by constructor <;> omega
  generalize 3 * cs0.r + 3 * cs1.r - 6 * ((cs1.r + cs0.r) / 2) = dr at er ⊢
  generalize 3 * cs0.g + 3 * cs1.g - 6 * ((cs1.g + cs0.g) / 2) = dg at eg ⊢
  generalize 3 * cs0.b + 3 * cs1.b - 6 * ((cs1.b + cs0.b) / 2) = db at eb ⊢
  have sr : dr * dr ≤ 9 := by
    have := mul_le_mul er.2 er.2 er.1 (by norm_num : (0 : Int) ≤ 3)
    omega
  have sg : dg * dg ≤ 9 := by
    have := mul_le_mul eg.2 eg.2 eg.1 (by norm_num : (0 : Int) ≤ 3)
    omega
  have sb : db * db ≤ 9 := by
    have := mul_le_mul eb.2 eb.2 eb.1 (by norm_num : (0 : Int) ≤ 3)
    omega
  have s0 : 0 ≤ dr * dr := mul_self_nonneg dr
  have s1 : 0 ≤ dg * dg := mul_self_nonneg dg
  have s2 : 0 ≤ db * db := mul_self_nonneg db
  have a0 : 2 * dr * dr = 2 * (dr * dr) := by ring
  have a2 : 3 * db * db = 3 * (db * db) := by ring
  rw [a0, a2]
  have e : 2 * (dr * dr) + dg * dg + 3 * (db * db) ≤ 54 := by omega
  have e' : 0 ≤ 2 * (dr * dr) + dg * dg + 3 * (db * db) := by omega
  generalize 2 * (dr * dr) + dg * dg + 3 * (db * db) = q at e e' ⊢
  have z : 6 * cs0.r - 6 * cs0.r = 0 := by ring
  have z' : 6 * cs0.g - 6 * cs0.g = 0 := by ring
  have z'' : 6 * cs0.b - 6 * cs0.b = 0 := by ring
  rw [z, z', z'']
  have hq : w2 * q ≤ 810 := by
    have := mul_le_mul hw' e e' (by norm_num : (0 : Int) ≤ 15)
    omega
  have hm : (810 : Int) < int_fast32_max := by unfold int_fast32_max; norm_num
  have e0 : (16 - w2) * (2 * 0 * 0 + 0 * 0 + 3 * 0 * 0) = 0 := by ring
  rw [e0]
  omega

/-- On valid endpoints and `w2 ≤ 15`, `handle2` returns valid endpoints. -/
theorem handle2_valid (cs0 cs1 : color) (cv : Nat) (w2 : Int) (h0 : cs0.isValid = true)
    (h1 : cs1.isValid = true) (hw' : w2 ≤ 15) :
    (handle2 cs0 cs1 cv w2).1.isValid = true ∧ (handle2 cs0 cs1 cv w2).2.1.isValid = true := by
  unfold handle2
  simp only
  split_ifs with hx
  · exact ⟨h0, hx⟩
  · have hmem := std_min_mem eval.compare_err
      (cand_ixxi cs0 cs1 cv (pre_eval_p2.make w2 cs0 cs1))
      [cand_ixix cs0 cs1 cv (pre_eval_p2.make w2 cs0 cs1),
        cand_xiix cs0 cs1 cv (pre_eval_p2.make w2 cs0 cs1)]
    have hle := std_min_err2_le (cand_ixxi cs0 cs1 cv (pre_eval_p2.make w2 cs0 cs1))
      [cand_ixix cs0 cs1 cv (pre_eval_p2.make w2 cs0 cs1),
        cand_xiix cs0 cs1 cv (pre_eval_p2.make w2 cs0 cs1)]
      (cand_ixxi cs0 cs1 cv (pre_eval_p2.make w2 cs0 cs1)) (by simp)
    have hlt := lt_of_le_of_lt hle (cand_ixxi_lt cs0 cs1 cv w2 h0 h1 hw')
    generalize std_min eval.compare_err (cand_ixxi cs0 cs1 cv (pre_eval_p2.make w2 cs0 cs1))
      [cand_ixix cs0 cs1 cv (pre_eval_p2.make w2 cs0 cs1),
        cand_xiix cs0 cs1 cv (pre_eval_p2.make w2 cs0 cs1)] = best at hmem hlt ⊢
    simp only [List.mem_cons, List.mem_singleton, List.not_mem_nil, or_false] at hmem
    rcases hmem with h | h | h
    · rw [h] at hlt ⊢; exact make2_valid_of_lt _ _ _ _ _ _ hlt
    · rw [h] at hlt ⊢; exact make2_valid_of_lt _ _ _ _ _ _ hlt
    · rw [h] at hlt ⊢; exact make2_valid_of_lt _ _ _ _ _ _ hlt

/-- C24. For valid input endpoints and admissible weights (three buckets:
`w0, w1, w2 ≥ 1` with sum 16; two buckets: `1 ≤ w2 ≤ 15`) the endpoints chosen
by `handle3` and by `handle2` are valid colours, and unpacking their packed
form gives them back: `from16(to16(c)) = c`. -/
theorem handlers_keep_valid (cs0 cs1 : color) (cv : Nat) (w : weights) (w2 : Int)
    (h0 : cs0.isValid = true) (h1 : cs1.isValid = true)
    (hw0 : 1 ≤ w.w0) (hw1 : 1 ≤ w.w1) (hw2 : 1 ≤ w.w2) (_hsum : w.w0 + w.w1 + w.w2 = 16)
    (_hp : 1 ≤ w2) (hp' : w2 ≤ 15) :
    ((handle3 cs0 cs1 cv w).1.isValid = true ∧ (handle3 cs0 cs1 cv w).2.1.isValid = true ∧
      color.from16 (handle3 cs0 cs1 cv w).1.to16 = (handle3 cs0 cs1 cv w).1 ∧
      color.from16 (handle3 cs0 cs1 cv w).2.1.to16 = (handle3 cs0 cs1 cv w).2.1) ∧
    ((handle2 cs0 cs1 cv w2).1.isValid = true ∧ (handle2 cs0 cs1 cv w2).2.1.isValid = true ∧
      color.from16 (handle2 cs0 cs1 cv w2).1.to16 = (handle2 cs0 cs1 cv w2).1 ∧
      color.from16 (handle2 cs0 cs1 cv w2).2.1.to16 = (handle2 cs0 cs1 cv w2).2.1) := by
  have a := handle3_valid cs0 cs1 cv w h0 h1 hw0 hw1 hw2
  have b := handle2_valid cs0 cs1 cv w2 h0 h1 hp'
  exact ⟨⟨a.1, a.2, from16_to16 _ a.1, from16_to16 _ a.2⟩,
    ⟨b.1, b.2, from16_to16 _ b.1, from16_to16 _ b.2⟩⟩

theorem handlers_keep_valid_witness :
    (⟨31, 0, 31⟩ : color).isValid = true ∧ (⟨0, 63, 0⟩ : color).isValid = true ∧
    ((handle3 ⟨31, 0, 31⟩ ⟨0, 63, 0⟩ 0x1A4 ⟨11, 1, 4, 0⟩).1.isValid = true ∧
      (handle3 ⟨31, 0, 31⟩ ⟨0, 63, 0⟩ 0x1A4 ⟨11, 1, 4, 0⟩).2.1.isValid = true ∧
      color.from16 (handle3 ⟨31, 0, 31⟩ ⟨0, 63, 0⟩ 0x1A4 ⟨11, 1, 4, 0⟩).1.to16
        = (handle3 ⟨31, 0, 31⟩ ⟨0, 63, 0⟩ 0x1A4 ⟨11, 1, 4, 0⟩).1 ∧
      color.from16 (handle3 ⟨31, 0, 31⟩ ⟨0, 63, 0⟩ 0x1A4 ⟨11, 1, 4, 0⟩).2.1.to16
        = (handle3 ⟨31, 0, 31⟩ ⟨0, 63, 0⟩ 0x1A4 ⟨11, 1, 4, 0⟩).2.1) ∧
    ((handle2 ⟨31, 0, 31⟩ ⟨0, 63, 0⟩ 0x1A4 4).1.isValid = true ∧
      (handle2 ⟨31, 0, 31⟩ ⟨0, 63, 0⟩ 0x1A4 4).2.1.isValid = true ∧
      color.from16 (handle2 ⟨31, 0, 31⟩ ⟨0, 63, 0⟩ 0x1A4 4).1.to16
        = (handle2 ⟨31, 0, 31⟩ ⟨0, 63, 0⟩ 0x1A4 4).1 ∧
      color.from16 (handle2 ⟨31, 0, 31⟩ ⟨0, 63, 0⟩ 0x1A4 4).2.1.to16
        = (handle2 ⟨31, 0, 31⟩ ⟨0, 63, 0⟩ 0x1A4 4).2.1) :=
  ⟨by decide, by decide,
    handlers_keep_valid ⟨31, 0, 31⟩ ⟨0, 63, 0⟩ 0x1A4 ⟨11, 1, 4, 0⟩ 4 (by decide) (by decide)
      (by decide) (by decide) (by decide) (by decide) (by decide) (by decide)⟩

/-! ## The end-of-file padding -/

/-- The length of the file after a write of at least one byte. -/
theorem ostream_write_length (out : ostream) (s : List (Fin 256)) (hs : s ≠ []) :
    (out.write s).data.length = max out.data.length (out.pos + s.length) := by
  cases s with
  | nil => exact absurd rfl hs
  | cons a s =>
    simp only [ostream.write, List.length_append, List.length_take, List.length_replicate,
      List.length_drop, List.length_cons]
    omega

/-- A write leaves the bytes before the put position as they are. -/
theorem ostream_write_before (out : ostream) (s : List (Fin 256)) (i : Nat)
    (hi : i < out.pos) (hl : i < out.data.length) :
    (out.write s).data[i]? = out.data[i]? := by
  cases s with
  | nil => rfl
  | cons a s =>
    simp only [ostream.write]
    rw [List.append_assoc, List.getElem?_append_left (by
      simp only [List.length_take, List.length_append, List.length_replicate]; omega)]
    rw [List.getElem?_take_of_lt hi, List.getElem?_append_left hl]

/-- Clearing the low eleven bits of a 64-bit value rounds it down to a
multiple of 2048. -/
theorem and_not_2047 (x : Nat) (hx : x < 2 ^ 64) :
    x &&& 0xFFFFFFFFFFFFF800 = x / 2048 * 2048 := by
  have hm : (0xFFFFFFFFFFFFF800 : Nat) = (2 ^ 53 - 1) <<< 11 := by decide
  have hr : x / 2048 * 2048 = (x >>> 11) <<< 11 := by
    rw [Nat.shiftLeft_eq, Nat.shiftRight_eq_div_pow]
  rw [hm, hr]
  apply Nat.eq_of_testBit_eq
  intro i
  simp only [Nat.testBit_and, Nat.testBit_shiftLeft, Nat.testBit_two_pow_sub_one,
    Nat.testBit_shiftRight]
  by_cases h11 : 11 ≤ i
  · have e : 11 + (i - 11) = i := by omega
    simp only [ge_iff_le, h11, decide_True, Bool.true_and, e]
    by_cases h64 : i < 64
    · have : i - 11 < 53 := by omega
      simp [this]
    · have hlt : x < 2 ^ i := lt_of_lt_of_le hx (Nat.pow_le_pow_right (by norm_num) (by omega))
      rw [Nat.testBit_lt_two_pow hlt]
      simp
  · simp [h11]

/-- The final padding at a put position that is a positive multiple of 2048:
the zero byte goes to `pos - 1`, the last byte written, and the file keeps its
length. -/
theorem pad_end_aligned (out : ostream) (hp : 0 < out.pos) (ha : out.pos % 2048 = 0)
    (h63 : out.pos + 2047 < 2 ^ 63) (hl : out.data.length = out.pos) :
    pad_end_offset out = (out.pos : Int) - 1 ∧
    ∃ out', pad_end out = some out' ∧ out'.data[out.pos - 1]? = some 0 ∧
      out'.data.length = out.pos ∧ ∀ i < out.pos - 1, out'.data[i]? = out.data[i]? := by
  have ho : pad_end_offset out = (out.pos : Int) - 1 := by
    unfold pad_end_offset ostream.tellp
    rw [and_not_2047 _ (by omega)]
    have : (out.pos + 2047) / 2048 * 2048 = out.pos := by omega
    rw [this]
  refine ⟨ho, ?_⟩
  have hs : out.seekp_beg (pad_end_offset out) = some ⟨out.data, out.pos - 1⟩ := by
    unfold ostream.seekp_beg
    rw [ho, if_neg (by omega)]
    have : ((out.pos : Int) - 1).toNat = out.pos - 1 := by omega
    rw [this]
  refine ⟨(⟨out.data, out.pos - 1⟩ : ostream).put 0, ?_, ?_, ?_, ?_⟩
  · unfold pad_end
    rw [hs]
  · have h := (ostream_write_spec ⟨out.data, out.pos - 1⟩ [0]).2 0 (by simp)
    simpa [ostream.put] using h
  · have h := ostream_write_length ⟨out.data, out.pos - 1⟩ [0] (by simp)
    simp only [ostream.put, h, List.length_singleton]
    omega
  · intro i hi
    exact ostream_write_before ⟨out.data, out.pos - 1⟩ [0] i hi (by simp only; omega)

/-- C25. An eight-byte last payload written at offset 4088 ends at offset 4096;
the final padding then seeks to offset 4095, below the put position, and its
zero byte replaces the last payload byte, `8`. -/
theorem pad_end_overwrites_payload :
    (helper_write_pad ⟨List.replicate 4088 0, 4088⟩ [1, 2, 3, 4, 5, 6, 7, 8]).2 = 4088 ∧
    (helper_write_pad ⟨List.replicate 4088 0, 4088⟩ [1, 2, 3, 4, 5, 6, 7, 8]).1.pos = 4096 ∧
    (helper_write_pad ⟨List.replicate 4088 0, 4088⟩ [1, 2, 3, 4, 5, 6, 7, 8]).1.data[4095]?
      = some 8 ∧
    pad_end_offset (helper_write_pad ⟨List.replicate 4088 0, 4088⟩ [1, 2, 3, 4, 5, 6, 7, 8]).1
      = 4095 ∧
    ∃ out, pad_end (helper_write_pad ⟨List.replicate 4088 0, 4088⟩ [1, 2, 3, 4, 5, 6, 7, 8]).1
        = some out ∧ out.data[4095]? = some 0 ∧ out.data.length = 4096 := by
  have hdl : (List.replicate 4088 (0 : Fin 256)).length = 4088 := List.length_replicate _ _
  generalize List.replicate 4088 (0 : Fin 256) = d at hdl ⊢
  have hw : helper_write_pad ⟨d, 4088⟩ [1, 2, 3, 4, 5, 6, 7, 8]
      = ((⟨d, 4088⟩ : ostream).write [1, 2, 3, 4, 5, 6, 7, 8], 4088) := by
    unfold helper_write_pad
    simp [ostream.tellp]
  rw [hw]
  have hs := ostream_write_spec ⟨d, 4088⟩ [1, 2, 3, 4, 5, 6, 7, 8]
  have hlen := ostream_write_length ⟨d, 4088⟩ [1, 2, 3, 4, 5, 6, 7, 8] (by simp)
  simp only [List.length_cons, List.length_nil, hdl] at hs hlen
  have hpos : ((⟨d, 4088⟩ : ostream).write [1, 2, 3, 4, 5, 6, 7, 8]).pos = 4096 := hs.1
  have hlen' : ((⟨d, 4088⟩ : ostream).write [1, 2, 3, 4, 5, 6, 7, 8]).data.length = 4096 := by
    rw [hlen]; rfl
  have hal := pad_end_aligned _ (by rw [hpos]; norm_num) (by rw [hpos])
    (by rw [hpos]; norm_num) (by rw [hlen', hpos])
  rw [hpos] at hal
  obtain ⟨h1, out', h2, h3, h4, _⟩ := hal
  refine ⟨rfl, hpos, ?_, ?_, out', h2, ?_, h4⟩
  · have := hs.2 7 (by norm_num)
    simpa using this
  · rw [h1]; norm_num
  · simpa using h3

end MC2TexPatch
